import Mathlib

/-!
# vcodeapi: the detailed-report parser

A shallow embedding of `detailedreportparser.go` and of the part of Go's
`encoding/xml` decoder that the parser drives.

The byte buffer returned by the fetcher is represented by the sequence of raw
tokens that the XML lexer reads from it (a self-closing tag is a start token
followed by an end token, as in `encoding/xml`).  A lexical error in the bytes
truncates that sequence.  The nesting check that `Decoder.Token` performs in its
default strict mode is part of the model, so documents with mismatched or
unclosed tags are inputs like any other.

Go's loops become recursive functions with a fuel argument; they return `none`
only when the fuel runs out, which does not happen with more fuel than tokens
(`WellBehaved`, `parseDocument_isSome`).  A decoder returns the value decoded,
whether its Go error is non-nil, and the decoder state it leaves.

`unmarshal` refuses an element that is nested too deep ("exceeded max depth",
`maxUnmarshalDepth`): it assigns nothing and reads no token, and since the
error is not one of the tokenizer, the decoder can be read further.  The source
drops the error of `DecodeElement`, so both scans go on behind the start tag of
a refused element.
-/

set_option autoImplicit false

namespace Vcodeapi

/-! ## Tokens of `encoding/xml` -/

/-- An XML name: `Space` is the name-space prefix, `Local` the local part.  The
parser only ever reads `Local`; every struct tag of the source has an empty
name space, so the translation of prefixes to name-space URLs is not modelled. -/
structure Name where
  Space : String
  Local : String
deriving DecidableEq, Repr

/-- An attribute of a start element. -/
structure Attr where
  Name : Name
  Value : String
deriving DecidableEq, Repr

/-- The tokens `Decoder.Token` can return. -/
inductive Token where
  | StartElement (Name : Name) (Attr : List Attr)
  | EndElement (Name : Name)
  | CharData (data : String)
  | Comment (data : String)
  | ProcInst (target : String) (inst : String)
  | Directive (data : String)
deriving DecidableEq, Repr

/-- The state of an `xml.Decoder`: the raw tokens not yet read and the stack of
open elements (`d.stk`). -/
structure Decoder where
  input : List Token
  stk : List Name
deriving DecidableEq, Repr

/-- The decoder `xml.NewDecoder(bytes.NewReader(b))`. -/
def NewDecoder (b : List Token) : Decoder := ⟨b, []⟩

/-- One call of `Decoder.Token`: the token read (`none` for the nil token, which
Go returns together with a non-nil error) and the decoder afterwards.  A start
element is pushed; an end element must close the element on top of the stack,
otherwise the call is a syntax error.  Errors are sticky: after one, every
later call returns the nil token again. -/
def Decoder.Token (d : Decoder) : Option Token × Decoder :=
  match d.input with
  | [] => (none, d)
  | Token.StartElement n a :: r => (some (Token.StartElement n a), ⟨r, n :: d.stk⟩)
  | Token.EndElement n :: r =>
    match d.stk with
    | [] => (none, ⟨[], []⟩)
    | s :: stk => if s = n then (some (Token.EndElement n), ⟨r, stk⟩) else (none, ⟨[], stk⟩)
  | t :: r => (some t, ⟨r, d.stk⟩)

/-- The loop of `Decoder.Skip`, with its `depth` counter: reads tokens up to the
end element that closes the element whose start was consumed last.  The
boolean is `true` when the returned error is non-nil.  `none` only when the
fuel runs out. -/
def Decoder.Skip : Nat → Nat → Decoder → Option (Bool × Decoder)
  | 0, _, _ => none
  | fuel + 1, depth, d =>
    match d.Token with
    | (none, d1) => some (true, d1)
    | (some (Token.StartElement _ _), d1) => Decoder.Skip fuel (depth + 1) d1
    | (some (Token.EndElement _), d1) =>
      if depth = 0 then some (false, d1) else Decoder.Skip fuel (depth - 1) d1
    | (some _, d1) => Decoder.Skip fuel depth d1

/-- The token loop of `Decoder.unmarshal` for a struct value `sv`
("Find end element. Process sub-elements along the way").  `elemField` is
`unmarshalPath`: for the local name of a child element it gives the decoder of
the struct field mapped to that name, if there is one; a child without a field
is skipped.  Character data and comments are dropped, since no struct of the
source has a field for them.  A field decoder changes `sv` in place, so what it
did before failing stays. -/
def unmarshalStructLoop {α : Type}
    (elemField : String → Option (Nat → α → List Attr → Decoder → Option (α × Bool × Decoder))) :
    Nat → α → Decoder → Option (α × Bool × Decoder)
  | 0, _, _ => none
  | fuel + 1, sv, d =>
    match d.Token with
    | (none, d1) => some (sv, true, d1)
    | (some (Token.StartElement n a), d1) =>
      match elemField n.Local with
      | some dec =>
        match dec fuel sv a d1 with
        | none => none
        | some (sv1, true, d2) => some (sv1, true, d2)
        | some (sv1, false, d2) => unmarshalStructLoop elemField fuel sv1 d2
      | none =>
        match d1.Skip fuel 0 with
        | none => none
        | some (true, d2) => some (sv, true, d2)
        | some (false, d2) => unmarshalStructLoop elemField fuel sv d2
    | (some (Token.EndElement _), d1) => some (sv, false, d1)
    | (some _, d1) => unmarshalStructLoop elemField fuel sv d1

/-- The depth limit of `Decoder.unmarshal`. -/
def maxUnmarshalDepth : Nat := 10000

/-- The function `Decoder.unmarshal` for a struct.  The decoder `d` stands behind
the start tag of the element, which is on top of its stack.  An element with
`maxUnmarshalDepth` or more open ancestors is refused ("exceeded max depth"):
the value and the decoder stay as they are.  Otherwise "Assign attributes"
(every attribute of the start element, in order, offered to the attribute
fields), then the token loop. -/
def unmarshalStruct {α : Type} (assignAttr : α → Attr → α)
    (elemField : String → Option (Nat → α → List Attr → Decoder → Option (α × Bool × Decoder)))
    (fuel : Nat) (sv : α) (attrs : List Attr) (d : Decoder) : Option (α × Bool × Decoder) :=
  if maxUnmarshalDepth < d.stk.length then some (sv, true, d)
  else unmarshalStructLoop elemField fuel (attrs.foldl assignAttr sv) d

/-- The token loop of `Decoder.unmarshal` for a string value: character data is
collected in `data`, child elements are skipped. -/
def unmarshalStringLoop : Nat → String → Decoder → Option (String × Bool × Decoder)
  | 0, _, _ => none
  | fuel + 1, data, d =>
    match d.Token with
    | (none, d1) => some (data, true, d1)
    | (some (Token.StartElement _ _), d1) =>
      match d1.Skip fuel 0 with
      | none => none
      | some (true, d2) => some (data, true, d2)
      | some (false, d2) => unmarshalStringLoop fuel data d2
    | (some (Token.EndElement _), d1) => some (data, false, d1)
    | (some (Token.CharData s), d1) => unmarshalStringLoop fuel (data ++ s) d1
    | (some _, d1) => unmarshalStringLoop fuel data d1

/-! ## The records of `detailedreportparser.go` -/

/-- The attributes of the root element that the metadata scan keeps. -/
structure DetReport where
  AppName : String := ""
  AppID : String := ""
  PolicyName : String := ""
  PolicyComplianceStatus : String := ""
  PolicyRulesStatus : String := ""
  GracePeriodExpired : String := ""
  BusinessUnit : String := ""
deriving DecidableEq, Repr

/-- An individual mitigation for a Flaw. -/
structure Mitigation where
  Action : String := ""
  Description : String := ""
  User : String := ""
  Date : String := ""
deriving DecidableEq, Repr

/-- Mitigations are an array of individual mitigations. -/
structure Mitigations where
  Mitigation : List Mitigation := []
deriving DecidableEq, Repr

/-- An individual comment for a flaw (separate from mitigation comment). -/
structure Annotation where
  Action : String := ""
  Description : String := ""
  User : String := ""
  Date : String := ""
deriving DecidableEq, Repr

/-- An array of comments for a flaw. -/
structure Annotations where
  Annotation : List Annotation := []
deriving DecidableEq, Repr

/-- Flaw represents a finding from a Veracode test. -/
structure Flaw where
  Issueid : String := ""
  CweName : String := ""
  CategoryID : String := ""
  CategoryName : String := ""
  Cweid : String := ""
  Remediation_status : String := ""
  Mitigation_status : String := ""
  Affects_policy_compliance : String := ""
  PolicyName : String := ""
  Date_first_occurrence : String := ""
  Severity : String := ""
  ExploitLevel : String := ""
  Module : String := ""
  Sourcefile : String := ""
  Line : String := ""
  Description : String := ""
  Mitigations : Mitigations := {}
  Annotations : Annotations := {}
deriving DecidableEq, Repr

/-- Custom fields for an application profile. -/
structure CustomField where
  Name : String := ""
  Value : String := ""
deriving DecidableEq, Repr

/-! ## The struct tags, as `encoding/xml` reads them

For every attribute of the start element, `unmarshal` walks the fields of the
struct ("for i := range tinfo.fields") and stores the value in each field
tagged `xml:"<name>,attr"` whose name is the attribute's local name. -/

/-- The "Assign attributes" step for one attribute `a`: `fields` lists the
`,attr` fields of the struct in their order, each with its name and its
setter. -/
def assignAttrs {α : Type} (fields : List (String × (α → String → α))) (sv : α) (a : Attr) : α :=
  fields.foldl (fun sv fld => if a.Name.Local = fld.1 then fld.2 sv a.Value else sv) sv

/-- The `,attr` fields of `DetReport`. -/
def DetReport.attrFields : List (String × (DetReport → String → DetReport)) :=
  [("app_name", fun r v => { r with AppName := v }),
   ("app_id", fun r v => { r with AppID := v }),
   ("policy_name", fun r v => { r with PolicyName := v }),
   ("policy_compliance_status", fun r v => { r with PolicyComplianceStatus := v }),
   ("policy_rules_status", fun r v => { r with PolicyRulesStatus := v }),
   ("grace_period_expired", fun r v => { r with GracePeriodExpired := v }),
   ("business_unit", fun r v => { r with BusinessUnit := v })]

/-- The attributes of a start element assigned to a `DetReport`. -/
def DetReport.assignAttr : DetReport → Attr → DetReport :=
  assignAttrs DetReport.attrFields

/-- The `,attr` fields of `Mitigation`. -/
def Mitigation.attrFields : List (String × (Mitigation → String → Mitigation)) :=
  [("action", fun m v => { m with Action := v }),
   ("description", fun m v => { m with Description := v }),
   ("user", fun m v => { m with User := v }),
   ("date", fun m v => { m with Date := v })]

/-- The attributes of a start element assigned to a `Mitigation`. -/
def Mitigation.assignAttr : Mitigation → Attr → Mitigation :=
  assignAttrs Mitigation.attrFields

/-- The `,attr` fields of `Annotation`. -/
def Annotation.attrFields : List (String × ( Annotation → String → Annotation)) :=
  [("action", fun m v => { m with Action := v }),
   ("description", fun m v => { m with Description := v }),
   ("user", fun m v => { m with User := v }),
   ("date", fun m v => { m with Date := v })]

/-- The attributes of a start element assigned to an `Annotation`. -/
def Annotation.assignAttr : Annotation → Attr → Annotation :=
  assignAttrs Annotation.attrFields

/-- The `,attr` fields of `CustomField`. -/
def CustomField.attrFields : List (String × (CustomField → String → CustomField)) :=
  [("name", fun c v => { c with Name := v }),
   ("value", fun c v => { c with Value := v })]

/-- The attributes of a start element assigned to a `CustomField`. -/
def CustomField.assignAttr : CustomField → Attr → CustomField :=
  assignAttrs CustomField.attrFields

/-- The `,attr` fields of `Flaw`. -/
def Flaw.attrFields : List (String × (Flaw → String → Flaw)) :=
  [("issueid", fun f v => { f with Issueid := v }),
   ("categoryname", fun f v => { f with CweName := v }),
   ("categoryid", fun f v => { f with CategoryID := v }),
   ("cweid", fun f v => { f with Cweid := v }),
   ("remediation_status", fun f v => { f with Remediation_status := v }),
   ("mitigation_status", fun f v => { f with Mitigation_status := v }),
   ("affects_policy_compliance", fun f v => { f with Affects_policy_compliance := v }),
   ("date_first_occurrence", fun f v => { f with Date_first_occurrence := v }),
   ("severity", fun f v => { f with Severity := v }),
   ("exploitLevel", fun f v => { f with ExploitLevel := v }),
   ("module", fun f v => { f with Module := v }),
   ("sourcefile", fun f v => { f with Sourcefile := v }),
   ("line", fun f v => { f with Line := v }),
   ("description", fun f v => { f with Description := v })]

/-- The attributes of a start element assigned to a `Flaw`. -/
def Flaw.assignAttr : Flaw → Attr → Flaw :=
  assignAttrs Flaw.attrFields

/-- A struct without element fields (`DetReport`, `Mitigation`, `Annotation`,
`CustomField`): `unmarshalPath` consumes no child. -/
def noElemField {α : Type} :
    String → Option (Nat → α → List Attr → Decoder → Option (α × Bool × Decoder)) :=
  fun _ => none

/-- Decoding into a `DetReport`. -/
def unmarshalDetReport (fuel : Nat) (r : DetReport) (attrs : List Attr) (d : Decoder) :
    Option (DetReport × Bool × Decoder) :=
  unmarshalStruct DetReport.assignAttr noElemField fuel r attrs d

/-- Decoding into a `CustomField`. -/
def unmarshalCustomField (fuel : Nat) (c : CustomField) (attrs : List Attr) (d : Decoder) :
    Option (CustomField × Bool × Decoder) :=
  unmarshalStruct CustomField.assignAttr noElemField fuel c attrs d

/-- Decoding into a `Mitigation`. -/
def unmarshalMitigation (fuel : Nat) (m : Mitigation) (attrs : List Attr) (d : Decoder) :
    Option (Mitigation × Bool × Decoder) :=
  unmarshalStruct Mitigation.assignAttr noElemField fuel m attrs d

/-- Decoding into an `Annotation`. -/
def unmarshalAnnotation (fuel : Nat) (m : Annotation) (attrs : List Attr) (d : Decoder) :
    Option ( Annotation × Bool × Decoder) :=
  unmarshalStruct Annotation.assignAttr noElemField fuel m attrs d

/-- The slice case of `Decoder.unmarshal`: the slice grows by one zero element,
the element is decoded in place, and the slice shrinks back when that fails,
also when the element is refused for its depth. -/
def unmarshalSlice {β : Type} (zero : β)
    (dec : Nat → β → List Attr → Decoder → Option (β × Bool × Decoder))
    (fuel : Nat) (v : List β) (attrs : List Attr) (d : Decoder) :
    Option (List β × Bool × Decoder) :=
  match dec fuel zero attrs d with
  | none => none
  | some (_, true, d1) => some (v, true, d1)
  | some (x, false, d1) => some (v ++ [x], false, d1)

/-- The string case of `Decoder.unmarshal`: an element with `maxUnmarshalDepth`
or more open ancestors is refused; otherwise the collected character data is
stored (`copyValue`) once the end element is reached, not on an error. -/
def unmarshalString (fuel : Nat) (v : String) (_attrs : List Attr) (d : Decoder) :
    Option (String × Bool × Decoder) :=
  if maxUnmarshalDepth < d.stk.length then some (v, true, d)
  else
    match unmarshalStringLoop fuel "" d with
    | none => none
    | some (_, true, d1) => some (v, true, d1)
    | some (data, false, d1) => some (data, false, d1)

/-- A field decoder of a struct, from the decoder of the field's type and the
field's getter and setter. -/
def onField {α β : Type} (get : α → β) (set : α → β → α)
    (dec : Nat → β → List Attr → Decoder → Option (β × Bool × Decoder)) :
    Nat → α → List Attr → Decoder → Option (α × Bool × Decoder) :=
  fun fuel sv attrs d =>
    match dec fuel (get sv) attrs d with
    | none => none
    | some (x, err, d1) => some (set sv x, err, d1)

/-- The element field of `Mitigations`: `xml:"mitigation"`. -/
def Mitigations.elemField (name : String) :
    Option (Nat → Mitigations → List Attr → Decoder → Option (Mitigations × Bool × Decoder)) :=
  if name = "mitigation" then
    some (onField (fun s => s.Mitigation) (fun s v => { s with Mitigation := v })
      (unmarshalSlice {} unmarshalMitigation))
  else none

/-- The element field of `Annotations`: `xml:"annotation"`. -/
def Annotations.elemField (name : String) :
    Option (Nat → Annotations → List Attr → Decoder → Option (Annotations × Bool × Decoder)) :=
  if name = "annotation" then
    some (onField (fun s => s.Annotation) (fun s v => { s with Annotation := v })
      (unmarshalSlice {} unmarshalAnnotation))
  else none

/-- Decoding into a `Mitigations` (it has no attribute field). -/
def unmarshalMitigations (fuel : Nat) (m : Mitigations) (attrs : List Attr) (d : Decoder) :
    Option (Mitigations × Bool × Decoder) :=
  unmarshalStruct (fun s _ => s) Mitigations.elemField fuel m attrs d

/-- Decoding into an `Annotations` (it has no attribute field). -/
def unmarshalAnnotations (fuel : Nat) (m : Annotations) (attrs : List Attr) (d : Decoder) :
    Option (Annotations × Bool × Decoder) :=
  unmarshalStruct (fun s _ => s) Annotations.elemField fuel m attrs d

/-- The element fields of `Flaw`, in the order of the struct: the two untagged
fields `CategoryName` and `PolicyName` (an untagged field is an element field
named like the field), then `xml:"mitigations"` and `xml:"annotations"`. -/
def Flaw.elemField (name : String) :
    Option (Nat → Flaw → List Attr → Decoder → Option (Flaw × Bool × Decoder)) :=
  if name = "CategoryName" then
    some (onField (fun f => f.CategoryName) (fun f v => { f with CategoryName := v })
      unmarshalString)
  else if name = "PolicyName" then
    some (onField (fun f => f.PolicyName) (fun f v => { f with PolicyName := v })
      unmarshalString)
  else if name = "mitigations" then
    some (onField (fun f => f.Mitigations) (fun f v => { f with Mitigations := v })
      unmarshalMitigations)
  else if name = "annotations" then
    some (onField (fun f => f.Annotations) (fun f v => { f with Annotations := v })
      unmarshalAnnotations)
  else none

/-- Decoding into a `Flaw`. -/
def unmarshalFlaw (fuel : Nat) (f : Flaw) (attrs : List Attr) (d : Decoder) :
    Option (Flaw × Bool × Decoder) :=
  unmarshalStruct Flaw.assignAttr Flaw.elemField fuel f attrs d

/-! ## `ParseDetailedReport` -/

/-- The call `decoder.DecodeElement(&v, &se)`: `unmarshal` of `v` from the start
element `se`, whose attributes are `attrs`.  When `unmarshal` refuses the
element for its depth (`maxUnmarshalDepth`), the call returns an error, with `v`
as it was and the decoder still behind the start tag `se`. -/
def DecodeElement {α : Type}
    (unmarshal : Nat → α → List Attr → Decoder → Option (α × Bool × Decoder))
    (fuel : Nat) (v : α) (attrs : List Attr) (d : Decoder) : Option (α × Bool × Decoder) :=
  unmarshal fuel v attrs d

/-- The first loop of `ParseDetailedReport` ("decoder1 gets information on the
app"): every start element named `detailedreport` is decoded into `detRep`; the
error of `Token` and of `DecodeElement` is dropped. -/
def metadataScan : Nat → DetReport → Decoder → Option DetReport
  | 0, _, _ => none
  | fuel + 1, detRep, decoder1 =>
    match decoder1.Token with
    | (none, _) => some detRep
    | (some (Token.StartElement n a), d1) =>
      if n.Local = "detailedreport" then
        match DecodeElement unmarshalDetReport fuel detRep a d1 with
        | none => none
        | some (detRep1, _, d2) => metadataScan fuel detRep1 d2
      else metadataScan fuel detRep d1
    | (some _, d1) => metadataScan fuel detRep d1

/-- The results that the second loop accumulates. -/
structure Findings where
  flaws : List Flaw := []
  customFields : List CustomField := []
  errMsg : Option String := none
deriving DecidableEq, Repr

/-- The `if se.Name.Local == "flaw"` block of the second loop, up to the
`append`: a fresh `Flaw` is decoded, the error of `DecodeElement` is dropped,
and `CategoryName` and `PolicyName` are assigned.  `categoryMap[k]` is the zero
value `""` for a key that is absent. -/
def flawBlock (categoryMap : String → Option String) (detRep : DetReport) (fuel : Nat)
    (attrs : List Attr) (d : Decoder) : Option (Flaw × Decoder) :=
  match DecodeElement unmarshalFlaw fuel {} attrs d with
  | none => none
  | some (flaw, _, d1) =>
    let flaw := { flaw with CategoryName := (categoryMap flaw.CategoryID).getD "" }
    let flaw := { flaw with PolicyName := detRep.PolicyName }
    some (flaw, d1)

/-- The `if se.Name.Local == "customfield"` block of the second loop, up to the
`append`. -/
def customFieldBlock (fuel : Nat) (attrs : List Attr) (d : Decoder) :
    Option (CustomField × Decoder) :=
  match DecodeElement unmarshalCustomField fuel {} attrs d with
  | none => none
  | some (cField, _, d1) => some (cField, d1)

/-- The `case xml.StartElement:` of the second loop: the three `if` statements
run one after the other on the start element `se`, whose name is `n` and whose
attributes are `a`. -/
def startElementCase (categoryMap : String → Option String) (detRep : DetReport) (fuel : Nat)
    (st : Findings) (n : Name) (a : List Attr) (d1 : Decoder) : Option (Findings × Decoder) :=
  let st1 : Findings :=
    if n.Local = "error" then
      { st with errMsg := some "api for GetDetailedReport returned with an error element" }
    else st
  let r2 : Option (Findings × Decoder) :=
    if n.Local = "flaw" then
      match flawBlock categoryMap detRep fuel a d1 with
      | none => none
      | some (flaw, d2) => some ({ st1 with flaws := st1.flaws ++ [flaw] }, d2)
    else some (st1, d1)
  match r2 with
  | none => none
  | some (st2, d2) =>
    if n.Local = "customfield" then
      match customFieldBlock fuel a d2 with
      | none => none
      | some (cField, d3) => some ({ st2 with customFields := st2.customFields ++ [cField] }, d3)
    else some (st2, d2)

/-- The second loop of `ParseDetailedReport` ("decoder 2 gets information on
flaws and custom fields"); the error of `Token` is dropped. -/
def findingsScan (categoryMap : String → Option String) (detRep : DetReport) :
    Nat → Findings → Decoder → Option Findings
  | 0, _, _ => none
  | fuel + 1, st, decoder2 =>
    match decoder2.Token with
    | (none, _) => some st
    | (some (Token.StartElement n a), d1) =>
      match startElementCase categoryMap detRep fuel st n a d1 with
      | none => none
      | some (st1, d2) => findingsScan categoryMap detRep fuel st1 d2
    | (some _, d1) => findingsScan categoryMap detRep fuel st d1

/-- The body of `ParseDetailedReport` after the fetch: both scans over the same
buffer, each with a decoder of its own.  Every loop iteration reads a token, so
a fuel above the number of tokens is never used up (`parseDocument_isSome`). -/
def parseDocument (categoryMap : String → Option String) (detailedReportAPI : List Token) :
    Option Findings :=
  let fuel := detailedReportAPI.length + 1
  match metadataScan fuel {} (NewDecoder detailedReportAPI) with
  | none => none
  | some detRep => findingsScan categoryMap detRep fuel {} (NewDecoder detailedReportAPI)

/-- How a call of `ParseDetailedReport` ends: `log.Fatal` ends the process, or
the function returns its three results. -/
inductive Outcome where
  | fatal (err : String)
  | returned (flaws : List Flaw) (customFields : List CustomField) (err : Option String)
deriving DecidableEq, Repr

/-- The function `ParseDetailedReport`.  The fetcher `detailedReport` and the
table `categoryMap` are defined elsewhere in the package and are parameters
here; the fetcher returns the buffer and an error. -/
def ParseDetailedReport
    (detailedReport : String → String → String → List Token × Option String)
    (categoryMap : String → Option String)
    (username password build_id : String) : Option Outcome :=
  match detailedReport username password build_id with
  | (_, some err) => some (Outcome.fatal err)
  | (detailedReportAPI, none) =>
    match parseDocument categoryMap detailedReportAPI with
    | none => none
    | some st => some (Outcome.returned st.flaws st.customFields st.errMsg)

/-! ## Well-formed content -/

/-- A token that is neither a start nor an end element. -/
inductive Misc where
  | CharData (data : String)
  | Comment (data : String)
  | ProcInst (target : String) (inst : String)
  | Directive (data : String)
deriving DecidableEq, Repr

/-- The token of a `Misc`. -/
def Misc.toToken : Misc → Token
  | Misc.CharData s => Token.CharData s
  | Misc.Comment s => Token.Comment s
  | Misc.ProcInst t i => Token.ProcInst t i
  | Misc.Directive s => Token.Directive s

/-- Well-nested content: a sequence of elements and other tokens, in document
order.  `elem n a c r` is the element `n` with attributes `a` and content `c`,
followed by the siblings `r`. -/
inductive Forest where
  | nil
  | elem (name : Name) (attrs : List Attr) (children : Forest) (rest : Forest)
  | misc (t : Misc) (rest : Forest)
deriving DecidableEq, Repr

/-- The tokens of well-nested content. -/
def Forest.tokens : Forest → List Token
  | Forest.nil => []
  | Forest.elem n a c r =>
    Token.StartElement n a :: (c.tokens ++ Token.EndElement n :: r.tokens)
  | Forest.misc t r => t.toToken :: r.tokens

/-- The nesting depth of well-nested content: the largest number of elements
that are open at the same time while it is read, 0 for content without an
element. -/
def Forest.depth : Forest → Nat
  | Forest.nil => 0
  | Forest.elem _ _ c r => max (c.depth + 1) r.depth
  | Forest.misc _ r => r.depth

/-! ## What the decoders compute on well-nested content

The value that each decoder of the parser leaves when it is started behind
the start tag of an element whose content is well nested.  The definitions
follow the decoders case by case; `Refines` states that a decoder computes
such a value, reads the content and the end tag, and stops there. -/

/-- The value of the struct loop on the content `c`: the fields mapped to the
child elements are updated in document order. -/
def Forest.structLoopValue {α : Type}
    (elemValue : String → Option (α → List Attr → Forest → α)) : Forest → α → α
  | Forest.nil, sv => sv
  | Forest.elem n a c r, sv =>
    match elemValue n.Local with
    | some val => Forest.structLoopValue elemValue r (val sv a c)
    | none => Forest.structLoopValue elemValue r sv
  | Forest.misc _ r, sv => Forest.structLoopValue elemValue r sv

/-- The value of a struct decoded from an element with attributes `attrs` and
content `c`. -/
def structValue {α : Type} (assignAttr : α → Attr → α)
    (elemValue : String → Option (α → List Attr → Forest → α))
    (sv : α) (attrs : List Attr) (c : Forest) : α :=
  Forest.structLoopValue elemValue c (attrs.foldl assignAttr sv)

/-- The character data directly in the content `c`, appended to `data`. -/
def Forest.charData : Forest → String → String
  | Forest.nil, data => data
  | Forest.elem _ _ _ r, data => Forest.charData r data
  | Forest.misc (Misc.CharData s) r, data => Forest.charData r (data ++ s)
  | Forest.misc _ r, data => Forest.charData r data

/-- The value of a string decoded from an element with content `c`. -/
def stringValue (_v : String) (_attrs : List Attr) (c : Forest) : String :=
  c.charData ""

/-- The value of a slice after an element has been decoded into it. -/
def sliceValue {β : Type} (zero : β) (val : β → List Attr → Forest → β)
    (v : List β) (attrs : List Attr) (c : Forest) : List β :=
  v ++ [val zero attrs c]

/-- The value of a struct after an element has been decoded into one field. -/
def onFieldValue {α β : Type} (get : α → β) (set : α → β → α)
    (val : β → List Attr → Forest → β) (sv : α) (attrs : List Attr) (c : Forest) : α :=
  set sv (val (get sv) attrs c)

/-- No element field, no value. -/
def noElemValue {α : Type} : String → Option (α → List Attr → Forest → α) :=
  fun _ => none

/-- The value of `unmarshalDetReport`. -/
def DetReport.value : DetReport → List Attr → Forest → DetReport :=
  structValue DetReport.assignAttr noElemValue

/-- The value of `unmarshalCustomField`. -/
def CustomField.value : CustomField → List Attr → Forest → CustomField :=
  structValue CustomField.assignAttr noElemValue

/-- The value of `unmarshalMitigation`. -/
def Mitigation.value : Mitigation → List Attr → Forest → Mitigation :=
  structValue Mitigation.assignAttr noElemValue

/-- The value of `unmarshalAnnotation`. -/
def Annotation.value : Annotation → List Attr → Forest → Annotation :=
  structValue Annotation.assignAttr noElemValue

/-- The values of the element field of `Mitigations`. -/
def Mitigations.elemValue (name : String) :
    Option (Mitigations → List Attr → Forest → Mitigations) :=
  if name = "mitigation" then
    some (onFieldValue (fun s => s.Mitigation) (fun s v => { s with Mitigation := v })
      (sliceValue {} Mitigation.value))
  else none

/-- The values of the element field of `Annotations`. -/
def Annotations.elemValue (name : String) :
    Option (Annotations → List Attr → Forest → Annotations) :=
  if name = "annotation" then
    some (onFieldValue (fun s => s.Annotation) (fun s v => { s with Annotation := v })
      (sliceValue {} Annotation.value))
  else none

/-- The value of `unmarshalMitigations`. -/
def Mitigations.value : Mitigations → List Attr → Forest → Mitigations :=
  structValue (fun s _ => s) Mitigations.elemValue

/-- The value of `unmarshalAnnotations`. -/
def Annotations.value : Annotations → List Attr → Forest → Annotations :=
  structValue (fun s _ => s) Annotations.elemValue

/-- The values of the element fields of `Flaw`. -/
def Flaw.elemValue (name : String) : Option (Flaw → List Attr → Forest → Flaw) :=
  if name = "CategoryName" then
    some (onFieldValue (fun f => f.CategoryName) (fun f v => { f with CategoryName := v })
      stringValue)
  else if name = "PolicyName" then
    some (onFieldValue (fun f => f.PolicyName) (fun f v => { f with PolicyName := v })
      stringValue)
  else if name = "mitigations" then
    some (onFieldValue (fun f => f.Mitigations) (fun f v => { f with Mitigations := v })
      Mitigations.value)
  else if name = "annotations" then
    some (onFieldValue (fun f => f.Annotations) (fun f v => { f with Annotations := v })
      Annotations.value)
  else none

/-- The value of `unmarshalFlaw`. -/
def Flaw.value : Flaw → List Attr → Forest → Flaw :=
  structValue Flaw.assignAttr Flaw.elemValue

/-- A decoder refines a value on well-nested content: started behind the start
tag of an element `n` with content `c`, with the rest of the document following,
and with no element of `c` nested deeper than `maxUnmarshalDepth`, it returns
the value without an error and leaves the decoder behind the end tag of the
element. -/
def Refines {α : Type} (dec : Nat → α → List Attr → Decoder → Option (α × Bool × Decoder))
    (val : α → List Attr → Forest → α) : Prop :=
  ∀ (fuel : Nat) (v : α) (attrs : List Attr) (c : Forest) (n : Name) (rest : List Token)
    (stk : List Name), c.tokens.length + rest.length + 1 < fuel →
    stk.length + 1 + c.depth ≤ maxUnmarshalDepth →
    dec fuel v attrs ⟨c.tokens ++ Token.EndElement n :: rest, n :: stk⟩ =
      some (val v attrs c, false, ⟨rest, stk⟩)

/-- The element fields of a struct and their values go together. -/
def FieldsRefine {α : Type}
    (elemField : String → Option (Nat → α → List Attr → Decoder → Option (α × Bool × Decoder)))
    (elemValue : String → Option (α → List Attr → Forest → α)) : Prop :=
  ∀ name : String, (elemField name = none ∧ elemValue name = none) ∨
    ∃ dec val, elemField name = some dec ∧ elemValue name = some val ∧ Refines dec val

/-! ## Notions of the specification -/

/-- The value of the attribute named `name` among the attributes of a start
element, and the empty string when there is no such attribute.  Attributes are
named by their local name, as elements are; should the name occur more than
once, the last occurrence counts. -/
def attrValue (attrs : List Attr) (name : String) : String :=
  match attrs.reverse.find? (fun a => a.Name.Local = name) with
  | some a => a.Value
  | none => ""

/-- The document contains an element named `name`: one of its tokens is the
start tag of such an element. -/
def containsElement (name : String) (doc : List Token) : Bool :=
  doc.any (fun t =>
    match t with
    | Token.StartElement n _ => decide (n.Local = name)
    | _ => false)

/-- An element of well-nested content. -/
structure Element where
  name : Name
  attrs : List Attr
  children : Forest
deriving DecidableEq, Repr

/-- All elements of the content, at any depth, in document order. -/
def Forest.elements : Forest → List Element
  | Forest.nil => []
  | Forest.elem n a c r => ⟨n, a, c⟩ :: (c.elements ++ r.elements)
  | Forest.misc _ r => r.elements

/-- The elements named `name`, at any depth, in document order. -/
def Forest.elementsNamed (name : String) (F : Forest) : List Element :=
  F.elements.filter (fun e => decide (e.name.Local = name))

/-- The elements that are not inside a `flaw` or `customfield` element, in
document order. -/
def Forest.scanned : Forest → List Element
  | Forest.nil => []
  | Forest.elem n a c r =>
    ⟨n, a, c⟩ ::
      ((if n.Local = "flaw" ∨ n.Local = "customfield" then [] else c.scanned) ++ r.scanned)
  | Forest.misc _ r => r.scanned

/-- The elements named `name` that are not inside a `flaw` or `customfield`
element, in document order. -/
def Forest.scannedNamed (name : String) (F : Forest) : List Element :=
  F.scanned.filter (fun e => decide (e.name.Local = name))

/-- The top-level elements of the content.  A well-formed document has exactly
one, its root element. -/
def Forest.roots : Forest → List Element
  | Forest.nil => []
  | Forest.elem n a c r => ⟨n, a, c⟩ :: r.roots
  | Forest.misc _ r => r.roots

/-- The flaw that the `flaw` block of the second loop makes of one element taken
alone: the decoder stands behind the start tag of the element and has its
content and its end tag to read. -/
def decodeFlawElement (categoryMap : String → Option String) (detRep : DetReport)
    (e : Element) : Option Flaw :=
  (flawBlock categoryMap detRep (e.children.tokens.length + 2) e.attrs
    ⟨e.children.tokens ++ [Token.EndElement e.name], [e.name]⟩).map Prod.fst

/-- The tokens of an empty element `<error/>`. -/
def emptyError : List Token :=
  [Token.StartElement ⟨"", "error"⟩ [], Token.EndElement ⟨"", "error"⟩]

/-- The content `F'` is the content `F` with an empty `<error/>` element added
at a place that is not inside a `flaw` or `customfield` element. -/
inductive AddedOutside : Forest → Forest → Prop where
  | here (F : Forest) : AddedOutside F (Forest.elem ⟨"", "error"⟩ [] Forest.nil F)
  | inChildren (n : Name) (a : List Attr) (c c' r : Forest) :
      ¬ (n.Local = "flaw" ∨ n.Local = "customfield") → AddedOutside c c' →
      AddedOutside (Forest.elem n a c r) (Forest.elem n a c' r)
  | inRest (n : Name) (a : List Attr) (c r r' : Forest) :
      AddedOutside r r' → AddedOutside (Forest.elem n a c r) (Forest.elem n a c r')
  | afterMisc (t : Misc) (r r' : Forest) :
      AddedOutside r r' → AddedOutside (Forest.misc t r) (Forest.misc t r')

/-- The flaw that the `flaw` block appends for an element with attributes
`attrs` and well-nested content `c`. -/
def flawValue (categoryMap : String → Option String) (detRep : DetReport)
    (attrs : List Attr) (c : Forest) : Flaw :=
  let flaw := Flaw.value {} attrs c
  { flaw with CategoryName := (categoryMap flaw.CategoryID).getD "",
              PolicyName := detRep.PolicyName }

/-- The state of the second loop after the start tag of the element `e` of
well-nested content, and after the content too if `e` is a `flaw` or a
`customfield`. -/
def Findings.afterElement (categoryMap : String → Option String) (detRep : DetReport)
    (st : Findings) (e : Element) : Findings :=
  { flaws :=
      if e.name.Local = "flaw" then
        st.flaws ++ [flawValue categoryMap detRep e.attrs e.children]
      else st.flaws
    customFields :=
      if e.name.Local = "customfield" then
        st.customFields ++ [CustomField.value {} e.attrs e.children]
      else st.customFields
    errMsg :=
      if e.name.Local = "error" then
        some "api for GetDetailedReport returned with an error element"
      else st.errMsg }

/-- The `DetReport` of the first loop after well-nested content. -/
def Forest.metadata : Forest → DetReport → DetReport
  | Forest.nil, detRep => detRep
  | Forest.elem n a c r, detRep =>
    if n.Local = "detailedreport" then r.metadata (DetReport.value detRep a c)
    else r.metadata (c.metadata detRep)
  | Forest.misc _ r, detRep => r.metadata detRep

/-! ## Example documents -/

/-- The name `s` without a name-space prefix. -/
def localName (s : String) : Name := ⟨"", s⟩

/-- The attribute `name="value"`. -/
def attr (name value : String) : Attr := ⟨localName name, value⟩

/-- The document
`<detailedreport policy_name="P1"><flaw categoryid="10" issueid="1"/>`
`<customfield name="x" value="y"/></detailedreport>`. -/
def exampleReport : Forest :=
  Forest.elem (localName "detailedreport") [attr "policy_name" "P1"]
    (Forest.elem (localName "flaw") [attr "categoryid" "10", attr "issueid" "1"] Forest.nil
      (Forest.elem (localName "customfield") [attr "name" "x", attr "value" "y"] Forest.nil
        Forest.nil))
    Forest.nil

/-- The document
`<detailedreport><flaw issueid="1"><flaw issueid="2"/></flaw></detailedreport>`. -/
def flawInFlaw : Forest :=
  Forest.elem (localName "detailedreport") []
    (Forest.elem (localName "flaw") [attr "issueid" "1"]
      (Forest.elem (localName "flaw") [attr "issueid" "2"] Forest.nil Forest.nil)
      Forest.nil)
    Forest.nil

/-- The document `<detailedreport><flaw issueid="1">`
`<customfield name="x" value="y"/></flaw></detailedreport>`. -/
def customFieldInFlaw : Forest :=
  Forest.elem (localName "detailedreport") []
    (Forest.elem (localName "flaw") [attr "issueid" "1"]
      (Forest.elem (localName "customfield") [attr "name" "x", attr "value" "y"] Forest.nil
        Forest.nil)
      Forest.nil)
    Forest.nil

/-- The document `<detailedreport><flaw issueid="1"><error/></flaw></detailedreport>`. -/
def errorInFlaw : Forest :=
  Forest.elem (localName "detailedreport") []
    (Forest.elem (localName "flaw") [attr "issueid" "1"]
      (Forest.elem (localName "error") [] Forest.nil Forest.nil)
      Forest.nil)
    Forest.nil

/-- The document `<report policy_name="P1"><flaw issueid="1"/></report>`. -/
def otherRoot : Forest :=
  Forest.elem (localName "report") [attr "policy_name" "P1"]
    (Forest.elem (localName "flaw") [attr "issueid" "1"] Forest.nil Forest.nil)
    Forest.nil

/-- The document `<detailedreport policy_name=""><flaw issueid="1"/></detailedreport>`. -/
def emptyPolicyName : Forest :=
  Forest.elem (localName "detailedreport") [attr "policy_name" ""]
    (Forest.elem (localName "flaw") [attr "issueid" "1"] Forest.nil Forest.nil)
    Forest.nil

/-- The truncated document `<detailedreport><flaw issueid="1"><mitigations>`: the
input ends inside the `flaw` element. -/
def truncatedFlaw : List Token :=
  [Token.StartElement (localName "detailedreport") [],
   Token.StartElement (localName "flaw") [attr "issueid" "1"],
   Token.StartElement (localName "mitigations") []]

/-- A fetcher that returns the document `doc` and no error. -/
def fetched (doc : List Token) : String → String → String → List Token × Option String :=
  fun _ _ _ => (doc, none)

/-- A category table with the single entry `10 ↦ "Cat10"`. -/
def exampleCategoryMap : String → Option String :=
  fun k => if k = "10" then some "Cat10" else none

/-- The document
`<detailedreport><error/><flaw issueid="1"/></detailedreport>`. -/
def errorBesideFlaw : Forest :=
  Forest.elem (localName "detailedreport") []
    (Forest.elem (localName "error") [] Forest.nil
      (Forest.elem (localName "flaw") [attr "issueid" "1"] Forest.nil Forest.nil))
    Forest.nil

/-- A fetcher that fails: it returns no document and the error `401`. -/
def failingFetch : String → String → String → List Token × Option String :=
  fun _ _ _ => ([], some "401")

/-- The flaw `f` with its category name looked up in `categoryMap` again. -/
def Flaw.withCategoryName (categoryMap : String → Option String) (f : Flaw) : Flaw :=
  { f with CategoryName := (categoryMap f.CategoryID).getD "" }

/-- The findings `st` with the category name of every flaw looked up in
`categoryMap` again. -/
def Findings.withCategoryNames (categoryMap : String → Option String) (st : Findings) :
    Findings :=
  { st with flaws := st.flaws.map (Flaw.withCategoryName categoryMap) }

/-- A category table without entries: every category ID is unmapped. -/
def emptyCategoryMap : String → Option String :=
  fun _ => none

/-- The decoder `d1` is the decoder `d` with an empty `<error/>` element added
somewhere in the input that is still to be read. -/
def Added (d d1 : Decoder) : Prop :=
  ∃ pre post, d.input = pre ++ post ∧ d1.input = pre ++ emptyError ++ post ∧ d1.stk = d.stk

/-- The decoders `d` and `d1` are the same, or `d1` is `d` with an empty
`<error/>` element added. -/
def Related (d d1 : Decoder) : Prop :=
  d1 = d ∨ Added d d1

/-- A decoder of a value is stable when an empty `<error/>` element added to the
input does not change the value it returns nor its error, and leaves related
decoders behind. -/
def Stable {α : Type} (dec : Nat → α → List Attr → Decoder → Option (α × Bool × Decoder)) :
    Prop :=
  ∀ (fuel fuel1 : Nat) (v : α) (attrs : List Attr) (d d1 : Decoder), Related d d1 →
    d.input.length < fuel → d1.input.length < fuel1 →
    ∃ v1 e x x1, dec fuel v attrs d = some (v1, e, x) ∧ dec fuel1 v attrs d1 = some (v1, e, x1) ∧
      Related x x1 ∧ x.input <:+ d.input ∧ x1.input <:+ d1.input

/-- The character data that the string loop has collected after the token `m`. -/
def Misc.collect (data : String) : Misc → String
  | Misc.CharData s => data ++ s
  | _ => data

/-- The tokens `<detailedreport><flaw issueid="1">`. -/
def flawOpened : List Token :=
  [Token.StartElement (localName "detailedreport") [],
   Token.StartElement (localName "flaw") [attr "issueid" "1"]]

/-- The tokens `</flaw></detailedreport>`. -/
def flawClosed : List Token :=
  [Token.EndElement (localName "flaw"), Token.EndElement (localName "detailedreport")]

/-- The tokens `<detailedreport policy_name="P1">`. -/
def reportOpened : List Token :=
  [Token.StartElement (localName "detailedreport") [attr "policy_name" "P1"]]

/-- The tokens `<flaw categoryid="10" issueid="1"/><customfield name="x" value="y"/>`
`</detailedreport>`. -/
def reportContent : List Token :=
  [Token.StartElement (localName "flaw") [attr "categoryid" "10", attr "issueid" "1"],
   Token.EndElement (localName "flaw"),
   Token.StartElement (localName "customfield") [attr "name" "x", attr "value" "y"],
   Token.EndElement (localName "customfield"),
   Token.EndElement (localName "detailedreport")]

/-- A decoder of a value is well behaved when enough fuel always gives a result,
the decoder it leaves has a suffix of the input left, and the result does not
depend on how much fuel there was. -/
structure WellBehaved {α : Type}
    (dec : Nat → α → List Attr → Decoder → Option (α × Bool × Decoder)) : Prop where
  total : ∀ fuel v attrs d, d.input.length < fuel →
    ∃ v1 e d1, dec fuel v attrs d = some (v1, e, d1) ∧ d1.input <:+ d.input
  fuel : ∀ fuel1 fuel2 v attrs d, d.input.length < fuel1 → d.input.length < fuel2 →
    dec fuel1 v attrs d = dec fuel2 v attrs d

/-- The children of the content named `name`, in document order. -/
def Forest.childrenNamed (name : String) (F : Forest) : List Element :=
  F.roots.filter (fun e => decide (e.name.Local = name))

/-- The `mitigation` elements of a `flaw` element with content `c`: the children
named `mitigation` of its children named `mitigations`, in document order. -/
def mitigationElements (c : Forest) : List Element :=
  (c.childrenNamed "mitigations").flatMap (fun e => e.children.childrenNamed "mitigation")

/-- The `annotation` elements of a `flaw` element with content `c`: the children
named `annotation` of its children named `annotations`, in document order. -/
def annotationElements (c : Forest) : List Element :=
  (c.childrenNamed "annotations").flatMap (fun e => e.children.childrenNamed "annotation")

/-- The `Mitigation` that carries the attributes `attrs`. -/
def Mitigation.ofAttrs (attrs : List Attr) : Mitigation :=
  { Action := attrValue attrs "action", Description := attrValue attrs "description",
    User := attrValue attrs "user", Date := attrValue attrs "date" }

/-- The `Annotation` that carries the attributes `attrs`. -/
def Annotation.ofAttrs (attrs : List Attr) : Annotation :=
  { Action := attrValue attrs "action", Description := attrValue attrs "description",
    User := attrValue attrs "user", Date := attrValue attrs "date" }

/-- The element `<flaw issueid="7"><mitigations><mitigation action="comment" user="u1"/>`
`<mitigation action="fp" date="d2"/></mitigations><annotations>`
`<annotation action="note" description="n1"/></annotations></flaw>`. -/
def flawWithHistory : Element :=
  ⟨localName "flaw", [attr "issueid" "7"],
    Forest.elem (localName "mitigations") []
      (Forest.elem (localName "mitigation") [attr "action" "comment", attr "user" "u1"]
        Forest.nil
        (Forest.elem (localName "mitigation") [attr "action" "fp", attr "date" "d2"] Forest.nil
          Forest.nil))
      (Forest.elem (localName "annotations") []
        (Forest.elem (localName "annotation") [attr "action" "note", attr "description" "n1"]
          Forest.nil Forest.nil)
        Forest.nil)⟩

/-- The element `<flaw issueid="1">text<!--c--><other/></flaw>`, which has no
`mitigation` and no `annotation` element. -/
def flawWithoutHistory : Element :=
  ⟨localName "flaw", [attr "issueid" "1"],
    Forest.misc (Misc.CharData "text")
      (Forest.misc (Misc.Comment "c")
        (Forest.elem (localName "other") [] Forest.nil Forest.nil))⟩

/-- The document `<detailedreport policy_name="P1">`, then the elements
`flawWithHistory` and `flawWithoutHistory`, then `</detailedreport>`. -/
def historyReport : Forest :=
  Forest.elem (localName "detailedreport") [attr "policy_name" "P1"]
    (Forest.elem flawWithHistory.name flawWithHistory.attrs flawWithHistory.children
      (Forest.elem flawWithoutHistory.name flawWithoutHistory.attrs flawWithoutHistory.children
        Forest.nil))
    Forest.nil

/-- The document `<detailedreport><flaw issueid="1"><error/><flaw issueid="2"/>`
`<customfield name="a" value="b"/></flaw><customfield name="x" value="y"><error/>`
`<flaw issueid="3"/><customfield name="c" value="d"/></customfield></detailedreport>`:
an `error`, a `flaw` and a `customfield` element inside a `flaw` element, and
again inside a `customfield` element. -/
def nestedInside : Forest :=
  Forest.elem (localName "detailedreport") []
    (Forest.elem (localName "flaw") [attr "issueid" "1"]
      (Forest.elem (localName "error") [] Forest.nil
        (Forest.elem (localName "flaw") [attr "issueid" "2"] Forest.nil
          (Forest.elem (localName "customfield") [attr "name" "a", attr "value" "b"] Forest.nil
            Forest.nil)))
      (Forest.elem (localName "customfield") [attr "name" "x", attr "value" "y"]
        (Forest.elem (localName "error") [] Forest.nil
          (Forest.elem (localName "flaw") [attr "issueid" "3"] Forest.nil
            (Forest.elem (localName "customfield") [attr "name" "c", attr "value" "d"]
              Forest.nil Forest.nil)))
        Forest.nil))
    Forest.nil

/-- The document `<detailedreport policy_name="P1">`
`<flaw categoryid="10" issueid="1" severity="5"><CategoryName>Evil</CategoryName>`
`<PolicyName>Other</PolicyName></flaw><flaw categoryid="10" issueid="2"/>`
`</detailedreport>`: two flaws of the same category, the first with child
elements named after the fields `CategoryName` and `PolicyName`. -/
def overwrittenNames : Forest :=
  Forest.elem (localName "detailedreport") [attr "policy_name" "P1"]
    (Forest.elem (localName "flaw")
      [attr "categoryid" "10", attr "issueid" "1", attr "severity" "5"]
      (Forest.elem (localName "CategoryName") [] (Forest.misc (Misc.CharData "Evil") Forest.nil)
        (Forest.elem (localName "PolicyName") []
          (Forest.misc (Misc.CharData "Other") Forest.nil) Forest.nil))
      (Forest.elem (localName "flaw") [attr "categoryid" "10", attr "issueid" "2"] Forest.nil
        Forest.nil))
    Forest.nil

/-- The malformed document `<detailedreport policy_name="P1"><flaw issueid="1">`
`<PolicyName>Other</PolicyName></flaw><flaw issueid="2">`: the input ends inside
the second `flaw` element. -/
def truncatedSecondFlaw : List Token :=
  [Token.StartElement (localName "detailedreport") [attr "policy_name" "P1"],
   Token.StartElement (localName "flaw") [attr "issueid" "1"],
   Token.StartElement (localName "PolicyName") [],
   Token.CharData "Other",
   Token.EndElement (localName "PolicyName"),
   Token.EndElement (localName "flaw"),
   Token.StartElement (localName "flaw") [attr "issueid" "2"]]

/-! ## The category table as package-level state

`categoryMap` is a variable of the package, so a statement of the function
could assign to it or to one of its keys.  The definitions below are the second
scan once more with the table threaded through as state: each step returns the
table it leaves. -/

/-- The index expression `categoryMap[key]`: the value stored under `key`, the
zero value `""` for a key that is absent, and the table afterwards.  Reading a
Go map inserts nothing, so the table is the one before. -/
def indexCategoryMap (categoryMap : String → Option String) (key : String) :
    String × (String → Option String) :=
  ((categoryMap key).getD "", categoryMap)

/-- The `flaw` block with the table as state: the only statement that mentions
`categoryMap` is `flaw.CategoryName = categoryMap[flaw.CategoryID]`. -/
def flawBlockWithTable (categoryMap : String → Option String) (detRep : DetReport) (fuel : Nat)
    (attrs : List Attr) (d : Decoder) : Option (Flaw × Decoder × (String → Option String)) :=
  match DecodeElement unmarshalFlaw fuel {} attrs d with
  | none => none
  | some (flaw, _, d1) =>
    let r := indexCategoryMap categoryMap flaw.CategoryID
    let flaw := { flaw with CategoryName := r.1 }
    let flaw := { flaw with PolicyName := detRep.PolicyName }
    some (flaw, d1, r.2)

/-- The `case xml.StartElement:` of the second loop with the table as state. -/
def startElementCaseWithTable (categoryMap : String → Option String) (detRep : DetReport)
    (fuel : Nat) (st : Findings) (n : Name) (a : List Attr) (d1 : Decoder) :
    Option (Findings × Decoder × (String → Option String)) :=
  let st1 : Findings :=
    if n.Local = "error" then
      { st with errMsg := some "api for GetDetailedReport returned with an error element" }
    else st
  let r2 : Option (Findings × Decoder × (String → Option String)) :=
    if n.Local = "flaw" then
      match flawBlockWithTable categoryMap detRep fuel a d1 with
      | none => none
      | some (flaw, d2, categoryMap1) =>
        some ({ st1 with flaws := st1.flaws ++ [flaw] }, d2, categoryMap1)
    else some (st1, d1, categoryMap)
  match r2 with
  | none => none
  | some (st2, d2, categoryMap2) =>
    if n.Local = "customfield" then
      match customFieldBlock fuel a d2 with
      | none => none
      | some (cField, d3) =>
        some ({ st2 with customFields := st2.customFields ++ [cField] }, d3, categoryMap2)
    else some (st2, d2, categoryMap2)

/-- The second loop with the table as state. -/
def findingsScanWithTable (detRep : DetReport) :
    Nat → Findings → (String → Option String) → Decoder →
      Option (Findings × (String → Option String))
  | 0, _, _, _ => none
  | fuel + 1, st, categoryMap, decoder2 =>
    match decoder2.Token with
    | (none, _) => some (st, categoryMap)
    | (some (Token.StartElement n a), d1) =>
      match startElementCaseWithTable categoryMap detRep fuel st n a d1 with
      | none => none
      | some (st1, d2, categoryMap1) => findingsScanWithTable detRep fuel st1 categoryMap1 d2
    | (some _, d1) => findingsScanWithTable detRep fuel st categoryMap d1

/-- The body of `ParseDetailedReport` after the fetch, with the table as state.
The first loop does not mention `categoryMap`. -/
def parseDocumentWithTable (categoryMap : String → Option String)
    (detailedReportAPI : List Token) : Option (Findings × (String → Option String)) :=
  let fuel := detailedReportAPI.length + 1
  match metadataScan fuel {} (NewDecoder detailedReportAPI) with
  | none => none
  | some detRep =>
    findingsScanWithTable detRep fuel {} categoryMap (NewDecoder detailedReportAPI)

/-- The function `ParseDetailedReport` with the table as state: how the call
ends, and the contents of `categoryMap` at that moment. -/
def ParseDetailedReportWithTable
    (detailedReport : String → String → String → List Token × Option String)
    (categoryMap : String → Option String)
    (username password build_id : String) : Option (Outcome × (String → Option String)) :=
  match detailedReport username password build_id with
  | (_, some err) => some (Outcome.fatal err, categoryMap)
  | (detailedReportAPI, none) =>
    match parseDocumentWithTable categoryMap detailedReportAPI with
    | none => none
    | some (st, categoryMap1) =>
      some (Outcome.returned st.flaws st.customFields st.errMsg, categoryMap1)

/-- The two ways a decoder fails.  Either the decoder state it leaves together
with an error has no input left: the error is the one of the tokenizer, which
is sticky, so every later call of `Token` returns the nil token.  Or that state
stands behind the start tag of an element with `maxUnmarshalDepth` or more open
ancestors, which was refused, and can be read further. -/
def FailsDeadOrDeep {α : Type}
    (dec : Nat → α → List Attr → Decoder → Option (α × Bool × Decoder)) : Prop :=
  ∀ (fuel : Nat) (v : α) (attrs : List Attr) (d : Decoder) (v1 : α) (d1 : Decoder),
    dec fuel v attrs d = some (v1, true, d1) →
    d1.input = [] ∨ maxUnmarshalDepth < d1.stk.length

/-- The malformed document `<detailedreport><flaw issueid="1"><mitigations></flaw>`
`<flaw issueid="2"/><customfield name="x" value="y"/></detailedreport>`: the
element `mitigations` of the first flaw is closed by `</flaw>`. -/
def mismatchedFlaw : List Token :=
  [Token.StartElement (localName "detailedreport") [],
   Token.StartElement (localName "flaw") [attr "issueid" "1"],
   Token.StartElement (localName "mitigations") [],
   Token.EndElement (localName "flaw"),
   Token.StartElement (localName "flaw") [attr "issueid" "2"],
   Token.EndElement (localName "flaw"),
   Token.StartElement (localName "customfield") [attr "name" "x", attr "value" "y"],
   Token.EndElement (localName "customfield"),
   Token.EndElement (localName "detailedreport")]

/-! ## How the second loop passes through content -/

/-- The second loop, started at the decoder `d`, comes to the decoder `d1`:
with any findings and enough fuel it goes on from `d1`, and an error that was
set stays set. -/
def ScansTo (categoryMap : String → Option String) (detRep : DetReport) (d d1 : Decoder) :
    Prop :=
  d1.input.length ≤ d.input.length ∧
  ∀ (st : Findings) (fuel : Nat), d.input.length < fuel →
    ∃ st1, findingsScan categoryMap detRep fuel st d =
        findingsScan categoryMap detRep fuel st1 d1 ∧
      (st.errMsg ≠ none → st1.errMsg ≠ none)

/-- The second loop gets through the well-nested content `F`, whatever follows
it and however deep it is nested, and it sets the error when `F` has an `error`
element that is not inside a `flaw` or `customfield` element. -/
def ScansThrough (categoryMap : String → Option String) (detRep : DetReport) (F : Forest) :
    Prop :=
  ∀ (rest : List Token) (stk : List Name) (st : Findings) (fuel : Nat),
    (F.tokens ++ rest).length < fuel →
    ∃ st1, findingsScan categoryMap detRep fuel st ⟨F.tokens ++ rest, stk⟩ =
        findingsScan categoryMap detRep fuel st1 ⟨rest, stk⟩ ∧
      (st.errMsg ≠ none → st1.errMsg ≠ none) ∧
      (F.scannedNamed "error" ≠ [] → st1.errMsg ≠ none)

/-- A decoder stays inside the element it decodes: on the well-nested content
`c` of at most `N` tokens it returns, without an error only behind the end tag
of the element, and with an error at a place from which the second loop comes
behind that end tag. -/
def StaysInside (categoryMap : String → Option String) (detRep : DetReport) (N : Nat)
    {α : Type} (dec : Nat → α → List Attr → Decoder → Option (α × Bool × Decoder)) : Prop :=
  ∀ (fuel : Nat) (v : α) (attrs : List Attr) (c : Forest) (n : Name) (rest : List Token)
    (stk : List Name), c.tokens.length ≤ N → c.tokens.length + rest.length + 1 < fuel →
    ∃ v1 e d2, dec fuel v attrs ⟨c.tokens ++ Token.EndElement n :: rest, n :: stk⟩ =
        some (v1, e, d2) ∧
      (e = false → d2 = ⟨rest, stk⟩) ∧ d2.input.length ≤ c.tokens.length + rest.length + 1 ∧
      ScansTo categoryMap detRep d2 ⟨rest, stk⟩

/-! ## Documents nested deeper than `maxUnmarshalDepth` -/

/-- The content `F` put inside `k` nested elements `<a>`. -/
def Forest.nest : Nat → Forest → Forest
  | 0, F => F
  | k + 1, F => Forest.elem (localName "a") [] (Forest.nest k F) Forest.nil

/-- The state of the second loop after the start tag of the element `e` when
`e` has `maxUnmarshalDepth` or more open ancestors: a `flaw` or `customfield`
element is refused by `DecodeElement`, and the record that is appended holds
nothing of the element. -/
def Findings.afterRefused (categoryMap : String → Option String) (detRep : DetReport)
    (st : Findings) (e : Element) : Findings :=
  { flaws :=
      if e.name.Local = "flaw" then
        st.flaws ++ [{ CategoryName := (categoryMap "").getD "",
                       PolicyName := detRep.PolicyName }]
      else st.flaws
    customFields :=
      if e.name.Local = "customfield" then st.customFields ++ [{}] else st.customFields
    errMsg :=
      if e.name.Local = "error" then
        some "api for GetDetailedReport returned with an error element"
      else st.errMsg }

/-- The element `<flaw categoryid="10" issueid="1"/>`. -/
def plainFlaw : Forest :=
  Forest.elem (localName "flaw") [attr "categoryid" "10", attr "issueid" "1"] Forest.nil
    Forest.nil

/-- The element `<flaw categoryid="10" issueid="1"/>` with `maxUnmarshalDepth`
open ancestors `<a>`. -/
def deepFlaw : Forest :=
  Forest.nest maxUnmarshalDepth plainFlaw

/-- The element `<flaw issueid="1"><error/><flaw issueid="2"/></flaw>`. -/
def flawAroundError : Forest :=
  Forest.elem (localName "flaw") [attr "issueid" "1"]
    (Forest.elem (localName "error") [] Forest.nil
      (Forest.elem (localName "flaw") [attr "issueid" "2"] Forest.nil Forest.nil))
    Forest.nil

/-- The element `flawAroundError` with `maxUnmarshalDepth` open ancestors `<a>`. -/
def deepFlawAroundError : Forest :=
  Forest.nest maxUnmarshalDepth flawAroundError

/-- The `mitigation` element of `mitigatedFlaw`. -/
def oneMitigation : Forest :=
  Forest.elem (localName "mitigation") [attr "action" "comment"] Forest.nil Forest.nil

/-- The element `<flaw issueid="7"><mitigations><mitigation action="comment"/>`
`</mitigations></flaw>`. -/
def mitigatedFlaw : Forest :=
  Forest.elem (localName "flaw") [attr "issueid" "7"]
    (Forest.elem (localName "mitigations") [] oneMitigation Forest.nil)
    Forest.nil

/-- The element `mitigatedFlaw` with `maxUnmarshalDepth - 1` open ancestors
`<a>`: its `mitigations` child has `maxUnmarshalDepth` open ancestors. -/
def deepMitigatedFlaw : Forest :=
  Forest.nest (maxUnmarshalDepth - 1) mitigatedFlaw

/-- The element `<flaw categoryid="10" issueid="2"/>`. -/
def secondFlaw : Forest :=
  Forest.elem (localName "flaw") [attr "categoryid" "10", attr "issueid" "2"] Forest.nil
    Forest.nil

/-- The content `<flaw categoryid="10" issueid="1"/><b><flaw categoryid="10"`
`issueid="2"/></b>`: two flaws of the same category, the second one level
deeper than the first. -/
def sameCategoryFlaws : Forest :=
  Forest.elem (localName "flaw") [attr "categoryid" "10", attr "issueid" "1"] Forest.nil
    (Forest.elem (localName "b") [] secondFlaw Forest.nil)

/-- The content `sameCategoryFlaws` with `maxUnmarshalDepth - 1` open ancestors
`<a>`: the second flaw has `maxUnmarshalDepth` open ancestors. -/
def deepSameCategoryFlaws : Forest :=
  Forest.nest (maxUnmarshalDepth - 1) sameCategoryFlaws

/-! ## The decoder reads forward and never runs out of fuel -/

theorem Decoder.Token_cases (d : Decoder) :
    (∃ d1, d.Token = (none, d1) ∧ d1.input <:+ d.input) ∨
    (∃ t d1, d.Token = (some t, d1) ∧ d.input = t :: d1.input) := by
  rcases d with ⟨inp, stk⟩
  cases inp with
  | nil => left; exact ⟨_, rfl, List.suffix_refl _⟩
  | cons t r =>
    cases t with
    | EndElement n =>
      cases stk with
      | nil => left; exact ⟨_, rfl, List.nil_suffix⟩
      | cons s stk =>
        by_cases h : s = n
        · right; exact ⟨Token.EndElement n, ⟨r, stk⟩, by simp [Decoder.Token, h], rfl⟩
        · left; exact ⟨⟨[], stk⟩, by simp [Decoder.Token, h], List.nil_suffix⟩
    | _ => right; exact ⟨_, _, rfl, rfl⟩

theorem Decoder.Skip_total : ∀ (fuel depth : Nat) (d : Decoder), d.input.length < fuel →
    ∃ e d1, d.Skip fuel depth = some (e, d1) ∧ d1.input <:+ d.input := by
  intro fuel
  induction fuel with
  | zero => intro _ d h; omega
  | succ fuel ih =>
    intro depth d h
    rcases d.Token_cases with ⟨d1, ht, hs⟩ | ⟨t, d1, ht, hi⟩
    · exact ⟨true, d1, by simp [Decoder.Skip, ht], hs⟩
    · have hl : d1.input.length < fuel := by rw [hi] at h; simpa using h
      have hsuf : d1.input <:+ d.input := by rw [hi]; exact List.suffix_cons _ _
      cases t with
      | StartElement n a =>
        obtain ⟨e, d2, h2, hs2⟩ := ih (depth + 1) d1 hl
        exact ⟨e, d2, by simp [Decoder.Skip, ht, h2], hs2.trans hsuf⟩
      | EndElement n =>
        by_cases hd : depth = 0
        · exact ⟨false, d1, by simp [Decoder.Skip, ht, hd], hsuf⟩
        · obtain ⟨e, d2, h2, hs2⟩ := ih (depth - 1) d1 hl
          exact ⟨e, d2, by simp [Decoder.Skip, ht, hd, h2], hs2.trans hsuf⟩
      | _ =>
        obtain ⟨e, d2, h2, hs2⟩ := ih depth d1 hl
        exact ⟨e, d2, by simp [Decoder.Skip, ht, h2], hs2.trans hsuf⟩

theorem Decoder.Skip_fuel : ∀ (fuel1 fuel2 depth : Nat) (d : Decoder), d.input.length < fuel1 →
    d.input.length < fuel2 → d.Skip fuel1 depth = d.Skip fuel2 depth := by
  intro fuel1
  induction fuel1 with
  | zero => intro _ _ d h; omega
  | succ fuel1 ih =>
    intro fuel2 depth d h1 h2
    cases fuel2 with
    | zero => omega
    | succ fuel2 =>
      rcases d.Token_cases with ⟨d1, ht, hs⟩ | ⟨t, d1, ht, hi⟩
      · simp [Decoder.Skip, ht]
      · have hl1 : d1.input.length < fuel1 := by rw [hi] at h1; simpa using h1
        have hl2 : d1.input.length < fuel2 := by rw [hi] at h2; simpa using h2
        cases t with
        | StartElement n a => simp [Decoder.Skip, ht, ih fuel2 (depth + 1) d1 hl1 hl2]
        | EndElement n =>
          by_cases hd : depth = 0
          · simp [Decoder.Skip, ht, hd]
          · simp [Decoder.Skip, ht, hd, ih fuel2 (depth - 1) d1 hl1 hl2]
        | _ => simp [Decoder.Skip, ht, ih fuel2 depth d1 hl1 hl2]

theorem suffix_length_lt {d1 d2 : Decoder} {n : Nat} (hs : d2.input <:+ d1.input)
    (h : d1.input.length < n) : d2.input.length < n :=
  lt_of_le_of_lt hs.length_le h

theorem unmarshalStructLoop_total {α : Type}
    (elemField : String → Option (Nat → α → List Attr → Decoder → Option (α × Bool × Decoder)))
    (hf : ∀ name dec, elemField name = some dec → WellBehaved dec) :
    ∀ (fuel : Nat) (sv : α) (d : Decoder), d.input.length < fuel →
    ∃ v1 e d1, unmarshalStructLoop elemField fuel sv d = some (v1, e, d1) ∧
      d1.input <:+ d.input := by
  intro fuel
  induction fuel with
  | zero => intro _ d h; omega
  | succ fuel ih =>
    intro sv d h
    rcases d.Token_cases with ⟨d1, ht, hs⟩ | ⟨t, d1, ht, hi⟩
    · exact ⟨sv, true, d1, by simp [unmarshalStructLoop, ht], hs⟩
    · have hl : d1.input.length < fuel := by rw [hi] at h; simpa using h
      have hsuf : d1.input <:+ d.input := by rw [hi]; exact List.suffix_cons _ _
      cases t with
      | StartElement n a =>
        cases hfd : elemField n.Local with
        | some dec =>
          obtain ⟨sv1, e, d2, h2, hs2⟩ := (hf _ _ hfd).total fuel sv a d1 hl
          cases e with
          | true => exact ⟨sv1, true, d2, by simp [unmarshalStructLoop, ht, hfd, h2], hs2.trans hsuf⟩
          | false =>
            obtain ⟨v3, e3, d3, h3, hs3⟩ := ih sv1 d2 (suffix_length_lt hs2 hl)
            exact ⟨v3, e3, d3, by simp [unmarshalStructLoop, ht, hfd, h2, h3],
              (hs3.trans hs2).trans hsuf⟩
        | none =>
          obtain ⟨e, d2, h2, hs2⟩ := Decoder.Skip_total fuel 0 d1 hl
          cases e with
          | true => exact ⟨sv, true, d2, by simp [unmarshalStructLoop, ht, hfd, h2], hs2.trans hsuf⟩
          | false =>
            obtain ⟨v3, e3, d3, h3, hs3⟩ := ih sv d2 (suffix_length_lt hs2 hl)
            exact ⟨v3, e3, d3, by simp [unmarshalStructLoop, ht, hfd, h2, h3],
              (hs3.trans hs2).trans hsuf⟩
      | EndElement n => exact ⟨sv, false, d1, by simp [unmarshalStructLoop, ht], hsuf⟩
      | _ =>
        obtain ⟨v3, e3, d3, h3, hs3⟩ := ih sv d1 hl
        exact ⟨v3, e3, d3, by simp [unmarshalStructLoop, ht, h3], hs3.trans hsuf⟩

theorem unmarshalStructLoop_fuel {α : Type}
    (elemField : String → Option (Nat → α → List Attr → Decoder → Option (α × Bool × Decoder)))
    (hf : ∀ name dec, elemField name = some dec → WellBehaved dec) :
    ∀ (fuel1 fuel2 : Nat) (sv : α) (d : Decoder), d.input.length < fuel1 →
    d.input.length < fuel2 →
    unmarshalStructLoop elemField fuel1 sv d = unmarshalStructLoop elemField fuel2 sv d := by
  intro fuel1
  induction fuel1 with
  | zero => intro _ _ d h; omega
  | succ fuel1 ih =>
    intro fuel2 sv d h1 h2
    cases fuel2 with
    | zero => omega
    | succ fuel2 =>
      rcases d.Token_cases with ⟨d1, ht, hs⟩ | ⟨t, d1, ht, hi⟩
      · simp [unmarshalStructLoop, ht]
      · have hl1 : d1.input.length < fuel1 := by rw [hi] at h1; simpa using h1
        have hl2 : d1.input.length < fuel2 := by rw [hi] at h2; simpa using h2
        cases t with
        | StartElement n a =>
          cases hfd : elemField n.Local with
          | some dec =>
            obtain ⟨sv1, e, d2, hd2, hs2⟩ := (hf _ _ hfd).total fuel1 sv a d1 hl1
            have hd2' := hd2
            rw [(hf _ _ hfd).fuel fuel1 fuel2 sv a d1 hl1 hl2] at hd2'
            cases e with
            | true => simp [unmarshalStructLoop, ht, hfd, hd2, hd2']
            | false =>
              simp [unmarshalStructLoop, ht, hfd, hd2, hd2',
                ih fuel2 sv1 d2 (suffix_length_lt hs2 hl1) (suffix_length_lt hs2 hl2)]
          | none =>
            obtain ⟨e, d2, hd2, hs2⟩ := Decoder.Skip_total fuel1 0 d1 hl1
            have hd2' := hd2
            rw [Decoder.Skip_fuel fuel1 fuel2 0 d1 hl1 hl2] at hd2'
            cases e with
            | true => simp [unmarshalStructLoop, ht, hfd, hd2, hd2']
            | false =>
              simp [unmarshalStructLoop, ht, hfd, hd2, hd2',
                ih fuel2 sv d2 (suffix_length_lt hs2 hl1) (suffix_length_lt hs2 hl2)]
        | EndElement n => simp [unmarshalStructLoop, ht]
        | _ => simp [unmarshalStructLoop, ht, ih fuel2 sv d1 hl1 hl2]

theorem unmarshalStruct_wellBehaved {α : Type} (assignAttr : α → Attr → α)
    (elemField : String → Option (Nat → α → List Attr → Decoder → Option (α × Bool × Decoder)))
    (hf : ∀ name dec, elemField name = some dec → WellBehaved dec) :
    WellBehaved (unmarshalStruct assignAttr elemField) := by
  constructor
  · intro fuel v attrs d h
    unfold unmarshalStruct
    by_cases hd : maxUnmarshalDepth < d.stk.length
    · rw [if_pos hd]
      exact ⟨v, true, d, rfl, List.suffix_refl _⟩
    · rw [if_neg hd]
      exact unmarshalStructLoop_total elemField hf fuel _ d h
  · intro fuel1 fuel2 v attrs d h1 h2
    unfold unmarshalStruct
    by_cases hd : maxUnmarshalDepth < d.stk.length
    · rw [if_pos hd, if_pos hd]
    · rw [if_neg hd, if_neg hd]
      exact unmarshalStructLoop_fuel elemField hf fuel1 fuel2 _ d h1 h2

theorem unmarshalStringLoop_total : ∀ (fuel : Nat) (data : String) (d : Decoder),
    d.input.length < fuel →
    ∃ v1 e d1, unmarshalStringLoop fuel data d = some (v1, e, d1) ∧ d1.input <:+ d.input := by
  intro fuel
  induction fuel with
  | zero => intro _ d h; omega
  | succ fuel ih =>
    intro data d h
    rcases d.Token_cases with ⟨d1, ht, hs⟩ | ⟨t, d1, ht, hi⟩
    · exact ⟨data, true, d1, by simp [unmarshalStringLoop, ht], hs⟩
    · have hl : d1.input.length < fuel := by rw [hi] at h; simpa using h
      have hsuf : d1.input <:+ d.input := by rw [hi]; exact List.suffix_cons _ _
      cases t with
      | StartElement n a =>
        obtain ⟨e, d2, h2, hs2⟩ := Decoder.Skip_total fuel 0 d1 hl
        cases e with
        | true => exact ⟨data, true, d2, by simp [unmarshalStringLoop, ht, h2], hs2.trans hsuf⟩
        | false =>
          obtain ⟨v3, e3, d3, h3, hs3⟩ := ih data d2 (suffix_length_lt hs2 hl)
          exact ⟨v3, e3, d3, by simp [unmarshalStringLoop, ht, h2, h3],
            (hs3.trans hs2).trans hsuf⟩
      | EndElement n => exact ⟨data, false, d1, by simp [unmarshalStringLoop, ht], hsuf⟩
      | CharData s =>
        obtain ⟨v3, e3, d3, h3, hs3⟩ := ih (data ++ s) d1 hl
        exact ⟨v3, e3, d3, by simp [unmarshalStringLoop, ht, h3], hs3.trans hsuf⟩
      | _ =>
        obtain ⟨v3, e3, d3, h3, hs3⟩ := ih data d1 hl
        exact ⟨v3, e3, d3, by simp [unmarshalStringLoop, ht, h3], hs3.trans hsuf⟩

theorem unmarshalStringLoop_fuel : ∀ (fuel1 fuel2 : Nat) (data : String) (d : Decoder),
    d.input.length < fuel1 → d.input.length < fuel2 →
    unmarshalStringLoop fuel1 data d = unmarshalStringLoop fuel2 data d := by
  intro fuel1
  induction fuel1 with
  | zero => intro _ _ d h; omega
  | succ fuel1 ih =>
    intro fuel2 data d h1 h2
    cases fuel2 with
    | zero => omega
    | succ fuel2 =>
      rcases d.Token_cases with ⟨d1, ht, hs⟩ | ⟨t, d1, ht, hi⟩
      · simp [unmarshalStringLoop, ht]
      · have hl1 : d1.input.length < fuel1 := by rw [hi] at h1; simpa using h1
        have hl2 : d1.input.length < fuel2 := by rw [hi] at h2; simpa using h2
        cases t with
        | StartElement n a =>
          obtain ⟨e, d2, hd2, hs2⟩ := Decoder.Skip_total fuel1 0 d1 hl1
          have hd2' := hd2
          rw [Decoder.Skip_fuel fuel1 fuel2 0 d1 hl1 hl2] at hd2'
          cases e with
          | true => simp [unmarshalStringLoop, ht, hd2, hd2']
          | false =>
            simp [unmarshalStringLoop, ht, hd2, hd2',
              ih fuel2 data d2 (suffix_length_lt hs2 hl1) (suffix_length_lt hs2 hl2)]
        | EndElement n => simp [unmarshalStringLoop, ht]
        | CharData s => simp [unmarshalStringLoop, ht, ih fuel2 (data ++ s) d1 hl1 hl2]
        | _ => simp [unmarshalStringLoop, ht, ih fuel2 data d1 hl1 hl2]

theorem unmarshalString_wellBehaved : WellBehaved unmarshalString := by
  constructor
  · intro fuel v attrs d h
    unfold unmarshalString
    by_cases hd : maxUnmarshalDepth < d.stk.length
    · rw [if_pos hd]
      exact ⟨v, true, d, rfl, List.suffix_refl _⟩
    · rw [if_neg hd]
      obtain ⟨v1, e, d1, h1, hs⟩ := unmarshalStringLoop_total fuel "" d h
      cases e with
      | true => exact ⟨v, true, d1, by simp [h1], hs⟩
      | false => exact ⟨v1, false, d1, by simp [h1], hs⟩
  · intro fuel1 fuel2 v attrs d h1 h2
    simp [unmarshalString, unmarshalStringLoop_fuel fuel1 fuel2 "" d h1 h2]

theorem unmarshalSlice_wellBehaved {β : Type} (zero : β)
    (dec : Nat → β → List Attr → Decoder → Option (β × Bool × Decoder))
    (hd : WellBehaved dec) : WellBehaved (unmarshalSlice zero dec) := by
  constructor
  · intro fuel v attrs d h
    obtain ⟨v1, e, d1, h1, hs⟩ := hd.total fuel zero attrs d h
    cases e with
    | true => exact ⟨v, true, d1, by simp [unmarshalSlice, h1], hs⟩
    | false => exact ⟨v ++ [v1], false, d1, by simp [unmarshalSlice, h1], hs⟩
  · intro fuel1 fuel2 v attrs d h1 h2
    simp [unmarshalSlice, hd.fuel fuel1 fuel2 zero attrs d h1 h2]

theorem onField_wellBehaved {α β : Type} (get : α → β) (set : α → β → α)
    (dec : Nat → β → List Attr → Decoder → Option (β × Bool × Decoder))
    (hd : WellBehaved dec) : WellBehaved (onField get set dec) := by
  constructor
  · intro fuel v attrs d h
    obtain ⟨v1, e, d1, h1, hs⟩ := hd.total fuel (get v) attrs d h
    exact ⟨set v v1, e, d1, by simp [onField, h1], hs⟩
  · intro fuel1 fuel2 v attrs d h1 h2
    simp [onField, hd.fuel fuel1 fuel2 (get v) attrs d h1 h2]

theorem noElemField_wellBehaved {α : Type} :
    ∀ (name : String) (dec : Nat → α → List Attr → Decoder → Option (α × Bool × Decoder)),
    noElemField name = some dec → WellBehaved dec := by
  intro name dec h
  simp [noElemField] at h

theorem unmarshalDetReport_wellBehaved : WellBehaved unmarshalDetReport :=
  unmarshalStruct_wellBehaved _ _ noElemField_wellBehaved

theorem unmarshalCustomField_wellBehaved : WellBehaved unmarshalCustomField :=
  unmarshalStruct_wellBehaved _ _ noElemField_wellBehaved

theorem unmarshalMitigation_wellBehaved : WellBehaved unmarshalMitigation :=
  unmarshalStruct_wellBehaved _ _ noElemField_wellBehaved

theorem unmarshalAnnotation_wellBehaved : WellBehaved unmarshalAnnotation :=
  unmarshalStruct_wellBehaved _ _ noElemField_wellBehaved

theorem mitigationsElemField_wellBehaved :
    ∀ (name : String)
      (dec : Nat → Mitigations → List Attr → Decoder → Option (Mitigations × Bool × Decoder)),
    Mitigations.elemField name = some dec → WellBehaved dec := by
  intro name dec h
  unfold Mitigations.elemField at h
  split at h
  · cases h
    exact onField_wellBehaved _ _ _ (unmarshalSlice_wellBehaved _ _ unmarshalMitigation_wellBehaved)
  · cases h

theorem annotationsElemField_wellBehaved :
    ∀ (name : String)
      (dec : Nat → Annotations → List Attr → Decoder → Option (Annotations × Bool × Decoder)),
    Annotations.elemField name = some dec → WellBehaved dec := by
  intro name dec h
  unfold Annotations.elemField at h
  split at h
  · cases h
    exact onField_wellBehaved _ _ _ (unmarshalSlice_wellBehaved _ _ unmarshalAnnotation_wellBehaved)
  · cases h

theorem unmarshalMitigations_wellBehaved : WellBehaved unmarshalMitigations :=
  unmarshalStruct_wellBehaved _ _ mitigationsElemField_wellBehaved

theorem unmarshalAnnotations_wellBehaved : WellBehaved unmarshalAnnotations :=
  unmarshalStruct_wellBehaved _ _ annotationsElemField_wellBehaved

theorem flawElemField_wellBehaved :
    ∀ (name : String) (dec : Nat → Flaw → List Attr → Decoder → Option (Flaw × Bool × Decoder)),
    Flaw.elemField name = some dec → WellBehaved dec := by
  intro name dec h
  unfold Flaw.elemField at h
  split at h
  · cases h; exact onField_wellBehaved _ _ _ unmarshalString_wellBehaved
  · split at h
    · cases h; exact onField_wellBehaved _ _ _ unmarshalString_wellBehaved
    · split at h
      · cases h; exact onField_wellBehaved _ _ _ unmarshalMitigations_wellBehaved
      · split at h
        · cases h; exact onField_wellBehaved _ _ _ unmarshalAnnotations_wellBehaved
        · cases h

theorem unmarshalFlaw_wellBehaved : WellBehaved unmarshalFlaw :=
  unmarshalStruct_wellBehaved _ _ flawElemField_wellBehaved

theorem flawBlock_total (categoryMap : String → Option String) (detRep : DetReport)
    (fuel : Nat) (attrs : List Attr) (d : Decoder) (h : d.input.length < fuel) :
    ∃ flaw e d1, unmarshalFlaw fuel {} attrs d = some (flaw, e, d1) ∧
      flawBlock categoryMap detRep fuel attrs d =
        some ({ flaw with CategoryName := (categoryMap flaw.CategoryID).getD "",
                          PolicyName := detRep.PolicyName }, d1) ∧
      d1.input <:+ d.input := by
  obtain ⟨flaw, e, d1, h1, hs⟩ := unmarshalFlaw_wellBehaved.total fuel {} attrs d h
  exact ⟨flaw, e, d1, h1, by simp [flawBlock, DecodeElement, h1], hs⟩

theorem customFieldBlock_total (fuel : Nat) (attrs : List Attr) (d : Decoder)
    (h : d.input.length < fuel) :
    ∃ cField e d1, unmarshalCustomField fuel {} attrs d = some (cField, e, d1) ∧
      customFieldBlock fuel attrs d = some (cField, d1) ∧ d1.input <:+ d.input := by
  obtain ⟨c, e, d1, h1, hs⟩ := unmarshalCustomField_wellBehaved.total fuel {} attrs d h
  exact ⟨c, e, d1, h1, by simp [customFieldBlock, DecodeElement, h1], hs⟩

theorem flawBlock_fuel (categoryMap : String → Option String) (detRep : DetReport)
    (fuel1 fuel2 : Nat) (attrs : List Attr) (d : Decoder) (h1 : d.input.length < fuel1)
    (h2 : d.input.length < fuel2) :
    flawBlock categoryMap detRep fuel1 attrs d = flawBlock categoryMap detRep fuel2 attrs d := by
  simp [flawBlock, DecodeElement, unmarshalFlaw_wellBehaved.fuel fuel1 fuel2 {} attrs d h1 h2]

theorem customFieldBlock_fuel (fuel1 fuel2 : Nat) (attrs : List Attr) (d : Decoder)
    (h1 : d.input.length < fuel1) (h2 : d.input.length < fuel2) :
    customFieldBlock fuel1 attrs d = customFieldBlock fuel2 attrs d := by
  simp [customFieldBlock, DecodeElement,
    unmarshalCustomField_wellBehaved.fuel fuel1 fuel2 {} attrs d h1 h2]

theorem startElementCase_flaw (categoryMap : String → Option String) (detRep : DetReport)
    (fuel : Nat) (st : Findings) (n : Name) (a : List Attr) (d1 : Decoder)
    (hn : n.Local = "flaw") :
    startElementCase categoryMap detRep fuel st n a d1 =
      (flawBlock categoryMap detRep fuel a d1).map
        (fun r => ({ st with flaws := st.flaws ++ [r.1] }, r.2)) := by
  have hc : ¬ n.Local = "customfield" := by rw [hn]; decide
  have he : ¬ n.Local = "error" := by rw [hn]; decide
  cases h : flawBlock categoryMap detRep fuel a d1 <;> simp [startElementCase, hn, h]

theorem startElementCase_customfield (categoryMap : String → Option String)
    (detRep : DetReport) (fuel : Nat) (st : Findings) (n : Name) (a : List Attr) (d1 : Decoder)
    (hn : n.Local = "customfield") :
    startElementCase categoryMap detRep fuel st n a d1 =
      (customFieldBlock fuel a d1).map
        (fun r => ({ st with customFields := st.customFields ++ [r.1] }, r.2)) := by
  have hc : ¬ n.Local = "flaw" := by rw [hn]; decide
  have he : ¬ n.Local = "error" := by rw [hn]; decide
  cases h : customFieldBlock fuel a d1 <;> simp [startElementCase, hn, h]

theorem startElementCase_error (categoryMap : String → Option String)
    (detRep : DetReport) (fuel : Nat) (st : Findings) (n : Name) (a : List Attr) (d1 : Decoder)
    (hn : n.Local = "error") :
    startElementCase categoryMap detRep fuel st n a d1 =
      some ({ st with errMsg := some "api for GetDetailedReport returned with an error element" },
        d1) := by
  have hc : ¬ n.Local = "flaw" := by rw [hn]; decide
  have he : ¬ n.Local = "customfield" := by rw [hn]; decide
  simp [startElementCase, hn]

theorem startElementCase_other (categoryMap : String → Option String)
    (detRep : DetReport) (fuel : Nat) (st : Findings) (n : Name) (a : List Attr) (d1 : Decoder)
    (h1 : ¬ n.Local = "error") (h2 : ¬ n.Local = "flaw") (h3 : ¬ n.Local = "customfield") :
    startElementCase categoryMap detRep fuel st n a d1 = some (st, d1) := by
  simp [startElementCase, h1, h2, h3]

theorem startElementCase_total (categoryMap : String → Option String) (detRep : DetReport)
    (fuel : Nat) (st : Findings) (n : Name) (a : List Attr) (d1 : Decoder)
    (hl : d1.input.length < fuel) :
    ∃ st1 d2, startElementCase categoryMap detRep fuel st n a d1 = some (st1, d2) ∧
      d2.input <:+ d1.input := by
  by_cases hf : n.Local = "flaw"
  · obtain ⟨flaw, e, d2, _, h2, hs⟩ := flawBlock_total categoryMap detRep fuel a d1 hl
    exact ⟨_, d2, by rw [startElementCase_flaw _ _ _ _ _ _ _ hf, h2]; rfl, hs⟩
  · by_cases hc : n.Local = "customfield"
    · obtain ⟨c, e, d2, _, h2, hs⟩ := customFieldBlock_total fuel a d1 hl
      exact ⟨_, d2, by rw [startElementCase_customfield _ _ _ _ _ _ _ hc, h2]; rfl, hs⟩
    · by_cases he : n.Local = "error"
      · exact ⟨_, d1, startElementCase_error _ _ _ _ _ _ _ he, List.suffix_refl _⟩
      · exact ⟨_, d1, startElementCase_other _ _ _ _ _ _ _ he hf hc, List.suffix_refl _⟩

theorem startElementCase_fuel (categoryMap : String → Option String) (detRep : DetReport)
    (fuel1 fuel2 : Nat) (st : Findings) (n : Name) (a : List Attr) (d1 : Decoder)
    (h1 : d1.input.length < fuel1) (h2 : d1.input.length < fuel2) :
    startElementCase categoryMap detRep fuel1 st n a d1 =
      startElementCase categoryMap detRep fuel2 st n a d1 := by
  by_cases hf : n.Local = "flaw"
  · rw [startElementCase_flaw _ _ _ _ _ _ _ hf, startElementCase_flaw _ _ _ _ _ _ _ hf,
      flawBlock_fuel _ _ fuel1 fuel2 _ _ h1 h2]
  · by_cases hc : n.Local = "customfield"
    · rw [startElementCase_customfield _ _ _ _ _ _ _ hc,
        startElementCase_customfield _ _ _ _ _ _ _ hc, customFieldBlock_fuel fuel1 fuel2 _ _ h1 h2]
    · simp [startElementCase, hf, hc]

theorem findingsScan_total (categoryMap : String → Option String) (detRep : DetReport) :
    ∀ (fuel : Nat) (st : Findings) (d : Decoder), d.input.length < fuel →
    ∃ st1, findingsScan categoryMap detRep fuel st d = some st1 := by
  intro fuel
  induction fuel with
  | zero => intro _ d h; omega
  | succ fuel ih =>
    intro st d h
    rcases d.Token_cases with ⟨d1, ht, hs⟩ | ⟨t, d1, ht, hi⟩
    · exact ⟨st, by simp [findingsScan, ht]⟩
    · have hl : d1.input.length < fuel := by rw [hi] at h; simpa using h
      cases t with
      | StartElement n a =>
        obtain ⟨st1, d2, h2, hs2⟩ := startElementCase_total categoryMap detRep fuel st n a d1 hl
        obtain ⟨st3, h3⟩ := ih st1 d2 (suffix_length_lt hs2 hl)
        exact ⟨st3, by simp [findingsScan, ht, h2, h3]⟩
      | _ =>
        obtain ⟨st3, h3⟩ := ih st d1 hl
        exact ⟨st3, by simp [findingsScan, ht, h3]⟩

theorem findingsScan_fuel (categoryMap : String → Option String) (detRep : DetReport) :
    ∀ (fuel1 fuel2 : Nat) (st : Findings) (d : Decoder), d.input.length < fuel1 →
    d.input.length < fuel2 →
    findingsScan categoryMap detRep fuel1 st d = findingsScan categoryMap detRep fuel2 st d := by
  intro fuel1
  induction fuel1 with
  | zero => intro _ _ d h; omega
  | succ fuel1 ih =>
    intro fuel2 st d h1 h2
    cases fuel2 with
    | zero => omega
    | succ fuel2 =>
      rcases d.Token_cases with ⟨d1, ht, hs⟩ | ⟨t, d1, ht, hi⟩
      · simp [findingsScan, ht]
      · have hl1 : d1.input.length < fuel1 := by rw [hi] at h1; simpa using h1
        have hl2 : d1.input.length < fuel2 := by rw [hi] at h2; simpa using h2
        cases t with
        | StartElement n a =>
          obtain ⟨st1, d2, hd2, hs2⟩ :=
            startElementCase_total categoryMap detRep fuel1 st n a d1 hl1
          have hd2' := hd2
          rw [startElementCase_fuel _ _ fuel1 fuel2 _ _ _ _ hl1 hl2] at hd2'
          simp [findingsScan, ht, hd2, hd2',
            ih fuel2 st1 d2 (suffix_length_lt hs2 hl1) (suffix_length_lt hs2 hl2)]
        | _ => simp [findingsScan, ht, ih fuel2 st d1 hl1 hl2]

theorem metadataScan_total : ∀ (fuel : Nat) (detRep : DetReport) (d : Decoder),
    d.input.length < fuel → ∃ r, metadataScan fuel detRep d = some r := by
  intro fuel
  induction fuel with
  | zero => intro _ d h; omega
  | succ fuel ih =>
    intro detRep d h
    rcases d.Token_cases with ⟨d1, ht, hs⟩ | ⟨t, d1, ht, hi⟩
    · exact ⟨detRep, by simp [metadataScan, ht]⟩
    · have hl : d1.input.length < fuel := by rw [hi] at h; simpa using h
      cases t with
      | StartElement n a =>
        by_cases hn : n.Local = "detailedreport"
        · obtain ⟨r1, e, d2, h2, hs2⟩ := unmarshalDetReport_wellBehaved.total fuel detRep a d1 hl
          obtain ⟨r3, h3⟩ := ih r1 d2 (suffix_length_lt hs2 hl)
          exact ⟨r3, by simp [metadataScan, ht, hn, DecodeElement, h2, h3]⟩
        · obtain ⟨r3, h3⟩ := ih detRep d1 hl
          exact ⟨r3, by simp [metadataScan, ht, hn, h3]⟩
      | _ =>
        obtain ⟨r3, h3⟩ := ih detRep d1 hl
        exact ⟨r3, by simp [metadataScan, ht, h3]⟩

theorem metadataScan_fuel : ∀ (fuel1 fuel2 : Nat) (detRep : DetReport) (d : Decoder),
    d.input.length < fuel1 → d.input.length < fuel2 →
    metadataScan fuel1 detRep d = metadataScan fuel2 detRep d := by
  intro fuel1
  induction fuel1 with
  | zero => intro _ _ d h; omega
  | succ fuel1 ih =>
    intro fuel2 detRep d h1 h2
    cases fuel2 with
    | zero => omega
    | succ fuel2 =>
      rcases d.Token_cases with ⟨d1, ht, hs⟩ | ⟨t, d1, ht, hi⟩
      · simp [metadataScan, ht]
      · have hl1 : d1.input.length < fuel1 := by rw [hi] at h1; simpa using h1
        have hl2 : d1.input.length < fuel2 := by rw [hi] at h2; simpa using h2
        cases t with
        | StartElement n a =>
          by_cases hn : n.Local = "detailedreport"
          · obtain ⟨r1, e, d2, hd2, hs2⟩ :=
              unmarshalDetReport_wellBehaved.total fuel1 detRep a d1 hl1
            have hd2' := hd2
            rw [unmarshalDetReport_wellBehaved.fuel fuel1 fuel2 _ _ _ hl1 hl2] at hd2'
            simp [metadataScan, ht, hn, DecodeElement, hd2, hd2',
              ih fuel2 r1 d2 (suffix_length_lt hs2 hl1) (suffix_length_lt hs2 hl2)]
          · simp [metadataScan, ht, hn, ih fuel2 detRep d1 hl1 hl2]
        | _ => simp [metadataScan, ht, ih fuel2 detRep d1 hl1 hl2]

/-- Both scans finish within the fuel that `parseDocument` gives them. -/
theorem parseDocument_isSome (categoryMap : String → Option String) (doc : List Token) :
    ∃ detRep st, metadataScan (doc.length + 1) {} (NewDecoder doc) = some detRep ∧
      findingsScan categoryMap detRep (doc.length + 1) {} (NewDecoder doc) = some st ∧
      parseDocument categoryMap doc = some st := by
  obtain ⟨detRep, h1⟩ := metadataScan_total (doc.length + 1) {} (NewDecoder doc)
    (by simp [NewDecoder])
  obtain ⟨st, h2⟩ := findingsScan_total categoryMap detRep (doc.length + 1) {} (NewDecoder doc)
    (by simp [NewDecoder])
  exact ⟨detRep, st, h1, h2, by simp [parseDocument, h1, h2]⟩

theorem token_kind (t : Token) :
    (∃ n a, t = Token.StartElement n a) ∨ (∃ n, t = Token.EndElement n) ∨
      (∃ m : Misc, t = m.toToken) := by
  cases t with
  | StartElement n a => exact Or.inl ⟨n, a, rfl⟩
  | EndElement n => exact Or.inr (Or.inl ⟨n, rfl⟩)
  | CharData s => exact Or.inr (Or.inr ⟨Misc.CharData s, rfl⟩)
  | Comment s => exact Or.inr (Or.inr ⟨Misc.Comment s, rfl⟩)
  | ProcInst s i => exact Or.inr (Or.inr ⟨Misc.ProcInst s i, rfl⟩)
  | Directive s => exact Or.inr (Or.inr ⟨Misc.Directive s, rfl⟩)

theorem skip_none (fuel depth : Nat) (d x : Decoder) (h : d.Token = (none, x)) :
    d.Skip (fuel + 1) depth = some (true, x) := by
  simp [Decoder.Skip, h]

theorem skip_start (fuel depth : Nat) (d x : Decoder) (n : Name) (a : List Attr)
    (h : d.Token = (some (Token.StartElement n a), x)) :
    d.Skip (fuel + 1) depth = x.Skip fuel (depth + 1) := by
  simp [Decoder.Skip, h]

theorem skip_end (fuel depth : Nat) (d x : Decoder) (n : Name)
    (h : d.Token = (some (Token.EndElement n), x)) :
    d.Skip (fuel + 1) depth = if depth = 0 then some (false, x) else x.Skip fuel (depth - 1) := by
  simp [Decoder.Skip, h]

theorem skip_misc (fuel depth : Nat) (d x : Decoder) (m : Misc)
    (h : d.Token = (some m.toToken, x)) :
    d.Skip (fuel + 1) depth = x.Skip fuel depth := by
  cases m <;> simp [Decoder.Skip, h, Misc.toToken]

theorem structLoop_none {α : Type}
    (elemField : String → Option (Nat → α → List Attr → Decoder → Option (α × Bool × Decoder)))
    (fuel : Nat) (sv : α) (d x : Decoder) (h : d.Token = (none, x)) :
    unmarshalStructLoop elemField (fuel + 1) sv d = some (sv, true, x) := by
  simp [unmarshalStructLoop, h]

theorem structLoop_field {α : Type}
    (elemField : String → Option (Nat → α → List Attr → Decoder → Option (α × Bool × Decoder)))
    (fuel : Nat) (sv : α) (d x : Decoder) (n : Name) (a : List Attr)
    (dec : Nat → α → List Attr → Decoder → Option (α × Bool × Decoder))
    (h : d.Token = (some (Token.StartElement n a), x)) (hf : elemField n.Local = some dec) :
    unmarshalStructLoop elemField (fuel + 1) sv d =
      match dec fuel sv a x with
      | none => none
      | some (sv1, true, d2) => some (sv1, true, d2)
      | some (sv1, false, d2) => unmarshalStructLoop elemField fuel sv1 d2 := by
  simp [unmarshalStructLoop, h, hf]

theorem structLoop_skip {α : Type}
    (elemField : String → Option (Nat → α → List Attr → Decoder → Option (α × Bool × Decoder)))
    (fuel : Nat) (sv : α) (d x : Decoder) (n : Name) (a : List Attr)
    (h : d.Token = (some (Token.StartElement n a), x)) (hf : elemField n.Local = none) :
    unmarshalStructLoop elemField (fuel + 1) sv d =
      match x.Skip fuel 0 with
      | none => none
      | some (true, d2) => some (sv, true, d2)
      | some (false, d2) => unmarshalStructLoop elemField fuel sv d2 := by
  simp [unmarshalStructLoop, h, hf]

theorem structLoop_end {α : Type}
    (elemField : String → Option (Nat → α → List Attr → Decoder → Option (α × Bool × Decoder)))
    (fuel : Nat) (sv : α) (d x : Decoder) (n : Name)
    (h : d.Token = (some (Token.EndElement n), x)) :
    unmarshalStructLoop elemField (fuel + 1) sv d = some (sv, false, x) := by
  simp [unmarshalStructLoop, h]

theorem structLoop_misc {α : Type}
    (elemField : String → Option (Nat → α → List Attr → Decoder → Option (α × Bool × Decoder)))
    (fuel : Nat) (sv : α) (d x : Decoder) (m : Misc) (h : d.Token = (some m.toToken, x)) :
    unmarshalStructLoop elemField (fuel + 1) sv d = unmarshalStructLoop elemField fuel sv x := by
  cases m <;> simp [unmarshalStructLoop, h, Misc.toToken]

theorem stringLoop_none (fuel : Nat) (data : String) (d x : Decoder)
    (h : d.Token = (none, x)) :
    unmarshalStringLoop (fuel + 1) data d = some (data, true, x) := by
  simp [unmarshalStringLoop, h]

theorem stringLoop_start (fuel : Nat) (data : String) (d x : Decoder) (n : Name)
    (a : List Attr) (h : d.Token = (some (Token.StartElement n a), x)) :
    unmarshalStringLoop (fuel + 1) data d =
      match x.Skip fuel 0 with
      | none => none
      | some (true, d2) => some (data, true, d2)
      | some (false, d2) => unmarshalStringLoop fuel data d2 := by
  simp [unmarshalStringLoop, h]

theorem stringLoop_end (fuel : Nat) (data : String) (d x : Decoder) (n : Name)
    (h : d.Token = (some (Token.EndElement n), x)) :
    unmarshalStringLoop (fuel + 1) data d = some (data, false, x) := by
  simp [unmarshalStringLoop, h]

theorem stringLoop_misc (fuel : Nat) (data : String) (d x : Decoder) (m : Misc)
    (h : d.Token = (some m.toToken, x)) :
    unmarshalStringLoop (fuel + 1) data d =
      unmarshalStringLoop fuel (m.collect data) x := by
  cases m <;> simp [unmarshalStringLoop, h, Misc.toToken, Misc.collect]

theorem metadataScan_none (fuel : Nat) (detRep : DetReport) (d x : Decoder)
    (h : d.Token = (none, x)) : metadataScan (fuel + 1) detRep d = some detRep := by
  simp [metadataScan, h]

theorem metadataScan_start (fuel : Nat) (detRep : DetReport) (d x : Decoder) (n : Name)
    (a : List Attr) (h : d.Token = (some (Token.StartElement n a), x)) :
    metadataScan (fuel + 1) detRep d =
      if n.Local = "detailedreport" then
        match unmarshalDetReport fuel detRep a x with
        | none => none
        | some (detRep1, _, d2) => metadataScan fuel detRep1 d2
      else metadataScan fuel detRep x := by
  simp [metadataScan, h, DecodeElement]

theorem metadataScan_end (fuel : Nat) (detRep : DetReport) (d x : Decoder) (n : Name)
    (h : d.Token = (some (Token.EndElement n), x)) :
    metadataScan (fuel + 1) detRep d = metadataScan fuel detRep x := by
  simp [metadataScan, h]

theorem metadataScan_misc (fuel : Nat) (detRep : DetReport) (d x : Decoder) (m : Misc)
    (h : d.Token = (some m.toToken, x)) :
    metadataScan (fuel + 1) detRep d = metadataScan fuel detRep x := by
  cases m <;> simp [metadataScan, h, Misc.toToken]

theorem findingsScan_none (categoryMap : String → Option String) (detRep : DetReport)
    (fuel : Nat) (st : Findings) (d x : Decoder) (h : d.Token = (none, x)) :
    findingsScan categoryMap detRep (fuel + 1) st d = some st := by
  simp [findingsScan, h]

theorem findingsScan_start (categoryMap : String → Option String) (detRep : DetReport)
    (fuel : Nat) (st : Findings) (d x : Decoder) (n : Name) (a : List Attr)
    (h : d.Token = (some (Token.StartElement n a), x)) :
    findingsScan categoryMap detRep (fuel + 1) st d =
      match startElementCase categoryMap detRep fuel st n a x with
      | none => none
      | some (st1, d2) => findingsScan categoryMap detRep fuel st1 d2 := by
  simp [findingsScan, h]

theorem findingsScan_end (categoryMap : String → Option String) (detRep : DetReport)
    (fuel : Nat) (st : Findings) (d x : Decoder) (n : Name)
    (h : d.Token = (some (Token.EndElement n), x)) :
    findingsScan categoryMap detRep (fuel + 1) st d =
      findingsScan categoryMap detRep fuel st x := by
  simp [findingsScan, h]

theorem findingsScan_misc (categoryMap : String → Option String) (detRep : DetReport)
    (fuel : Nat) (st : Findings) (d x : Decoder) (m : Misc)
    (h : d.Token = (some m.toToken, x)) :
    findingsScan categoryMap detRep (fuel + 1) st d =
      findingsScan categoryMap detRep fuel st x := by
  cases m <;> simp [findingsScan, h, Misc.toToken]

/-! ## The decoders on well-nested content -/

theorem token_start (n : Name) (a : List Attr) (r : List Token) (stk : List Name) :
    Decoder.Token ⟨Token.StartElement n a :: r, stk⟩ =
      (some (Token.StartElement n a), ⟨r, n :: stk⟩) := rfl

theorem token_end (n : Name) (r : List Token) (stk : List Name) :
    Decoder.Token ⟨Token.EndElement n :: r, n :: stk⟩ =
      (some (Token.EndElement n), ⟨r, stk⟩) := by
  simp [Decoder.Token]

theorem token_misc (t : Misc) (r : List Token) (stk : List Name) :
    Decoder.Token ⟨t.toToken :: r, stk⟩ = (some t.toToken, ⟨r, stk⟩) := by
  cases t <;> rfl

theorem Forest.tokens_elem_append (n : Name) (a : List Attr) (c r : Forest)
    (rest : List Token) :
    (Forest.elem n a c r).tokens ++ rest =
      Token.StartElement n a :: (c.tokens ++ Token.EndElement n :: (r.tokens ++ rest)) := by
  simp [Forest.tokens]

theorem Forest.tokens_misc_append (t : Misc) (r : Forest) (rest : List Token) :
    (Forest.misc t r).tokens ++ rest = t.toToken :: (r.tokens ++ rest) := by
  simp [Forest.tokens]

/-- Skipping runs through well-nested content without a change of depth. -/
theorem skip_forest : ∀ (c : Forest) (fuel depth : Nat) (rest : List Token)
    (stk : List Name), (c.tokens ++ rest).length < fuel →
    Decoder.Skip fuel depth ⟨c.tokens ++ rest, stk⟩ = Decoder.Skip fuel depth ⟨rest, stk⟩ := by
  intro c
  induction c with
  | nil => intro fuel depth rest stk _; simp [Forest.tokens]
  | elem n a c r ihc ihr =>
    intro fuel depth rest stk h
    rw [Forest.tokens_elem_append] at h ⊢
    cases fuel with
    | zero => omega
    | succ fuel =>
      have h1 : (c.tokens ++ Token.EndElement n :: (r.tokens ++ rest)).length < fuel := by
        simpa using h
      rw [Decoder.Skip, token_start]
      simp only []
      rw [ihc fuel (depth + 1) _ (n :: stk) h1]
      cases fuel with
      | zero => omega
      | succ fuel =>
        have h2 : (r.tokens ++ rest).length < fuel := by
          simp only [List.length_append, List.length_cons] at h1 ⊢; omega
        rw [Decoder.Skip, token_end]
        simp only [Nat.add_one_ne_zero, if_false, Nat.add_sub_cancel]
        rw [ihr fuel depth rest stk h2]
        exact Decoder.Skip_fuel _ _ _ _ (by simp at h2 ⊢; omega) (by simp at h2 ⊢; omega)
  | misc t r ih =>
    intro fuel depth rest stk h
    rw [Forest.tokens_misc_append] at h ⊢
    cases fuel with
    | zero => omega
    | succ fuel =>
      have h1 : (r.tokens ++ rest).length < fuel := by simpa using h
      have hs : Decoder.Skip (fuel + 1) depth ⟨t.toToken :: (r.tokens ++ rest), stk⟩ =
          Decoder.Skip fuel depth ⟨r.tokens ++ rest, stk⟩ := by
        cases t <;> rfl
      rw [hs, ih fuel depth rest stk h1]
      exact Decoder.Skip_fuel _ _ _ _ (by simp at h1 ⊢; omega) (by simp at h1 ⊢; omega)

/-- Skipping an element: the content and the end tag are read. -/
theorem skip_elem (c : Forest) (fuel : Nat) (n : Name) (rest : List Token)
    (stk : List Name) (h : c.tokens.length + rest.length + 1 < fuel) :
    Decoder.Skip fuel 0 ⟨c.tokens ++ Token.EndElement n :: rest, n :: stk⟩ =
      some (false, ⟨rest, stk⟩) := by
  rw [skip_forest c fuel 0 _ _ (by simp; omega)]
  cases fuel with
  | zero => omega
  | succ fuel => rw [Decoder.Skip, token_end]; simp

theorem depth_elem_children (n : Name) (a : List Attr) (c r : Forest) :
    c.depth + 1 ≤ (Forest.elem n a c r).depth := by
  simp only [Forest.depth]
  exact Nat.le_max_left _ _

theorem depth_elem_rest (n : Name) (a : List Attr) (c r : Forest) :
    r.depth ≤ (Forest.elem n a c r).depth := by
  simp only [Forest.depth]
  exact Nat.le_max_right _ _

theorem unmarshalStructLoop_forest {α : Type}
    (elemField : String → Option (Nat → α → List Attr → Decoder → Option (α × Bool × Decoder)))
    (elemValue : String → Option (α → List Attr → Forest → α))
    (hf : FieldsRefine elemField elemValue) :
    ∀ (c : Forest) (fuel : Nat) (sv : α) (n : Name) (rest : List Token) (stk : List Name),
    c.tokens.length + rest.length + 1 < fuel →
    stk.length + 1 + c.depth ≤ maxUnmarshalDepth →
    unmarshalStructLoop elemField fuel sv ⟨c.tokens ++ Token.EndElement n :: rest, n :: stk⟩ =
      some (Forest.structLoopValue elemValue c sv, false, ⟨rest, stk⟩) := by
  intro c
  induction c with
  | nil =>
    intro fuel sv n rest stk h _
    cases fuel with
    | zero => omega
    | succ fuel =>
      simp only [Forest.tokens, List.nil_append]
      rw [unmarshalStructLoop, token_end]
      rfl
  | elem m a c r _ ihr =>
    intro fuel sv n rest stk h hdep
    have hdc := depth_elem_children m a c r
    have hdr := depth_elem_rest m a c r
    rw [Forest.tokens_elem_append]
    cases fuel with
    | zero => omega
    | succ fuel =>
      have hlen : c.tokens.length + (r.tokens ++ Token.EndElement n :: rest).length + 1 < fuel := by
        simp only [Forest.tokens, List.length_cons, List.length_append] at h ⊢; omega
      have hr : r.tokens.length + rest.length + 1 < fuel := by
        simp only [Forest.tokens, List.length_cons, List.length_append] at h ⊢; omega
      rw [unmarshalStructLoop, token_start]
      simp only []
      rcases hf m.Local with ⟨h1, h2⟩ | ⟨dec, val, h1, h2, href⟩
      · simp only [h1]
        rw [skip_elem c fuel m _ _ hlen]
        simp only [Forest.structLoopValue, h2]
        exact ihr fuel sv n rest stk hr (by omega)
      · simp only [h1]
        rw [href fuel sv a c m _ _ hlen (by simp only [List.length_cons]; omega)]
        simp only [Forest.structLoopValue, h2]
        exact ihr fuel (val sv a c) n rest stk hr (by omega)
  | misc t r ih =>
    intro fuel sv n rest stk h hdep
    rw [Forest.tokens_misc_append]
    cases fuel with
    | zero => omega
    | succ fuel =>
      have hr : r.tokens.length + rest.length + 1 < fuel := by
        simp only [Forest.tokens, List.length_cons, List.length_append] at h ⊢; omega
      have hs : unmarshalStructLoop elemField (fuel + 1) sv
          ⟨t.toToken :: (r.tokens ++ Token.EndElement n :: rest), n :: stk⟩ =
          unmarshalStructLoop elemField fuel sv
            ⟨r.tokens ++ Token.EndElement n :: rest, n :: stk⟩ := by
        cases t <;> rfl
      rw [hs]
      exact ih fuel sv n rest stk hr hdep

theorem not_too_deep (stk : List Name) (n : Name) (k : Nat)
    (h : stk.length + 1 + k ≤ maxUnmarshalDepth) :
    ¬ maxUnmarshalDepth < (n :: stk).length := by
  simp only [List.length_cons]
  omega

theorem unmarshalStruct_refines {α : Type} (assignAttr : α → Attr → α)
    (elemField : String → Option (Nat → α → List Attr → Decoder → Option (α × Bool × Decoder)))
    (elemValue : String → Option (α → List Attr → Forest → α))
    (hf : FieldsRefine elemField elemValue) :
    Refines (unmarshalStruct assignAttr elemField) (structValue assignAttr elemValue) := by
  intro fuel v attrs c n rest stk h hdep
  unfold unmarshalStruct
  rw [if_neg (not_too_deep stk n _ hdep)]
  exact unmarshalStructLoop_forest elemField elemValue hf c fuel _ n rest stk h hdep

theorem unmarshalStringLoop_forest :
    ∀ (c : Forest) (fuel : Nat) (data : String) (n : Name) (rest : List Token) (stk : List Name),
    c.tokens.length + rest.length + 1 < fuel →
    unmarshalStringLoop fuel data ⟨c.tokens ++ Token.EndElement n :: rest, n :: stk⟩ =
      some (c.charData data, false, ⟨rest, stk⟩) := by
  intro c
  induction c with
  | nil =>
    intro fuel data n rest stk h
    cases fuel with
    | zero => omega
    | succ fuel =>
      simp only [Forest.tokens, List.nil_append]
      rw [unmarshalStringLoop, token_end]
      rfl
  | elem m a c r _ ihr =>
    intro fuel data n rest stk h
    rw [Forest.tokens_elem_append]
    cases fuel with
    | zero => omega
    | succ fuel =>
      have hlen : c.tokens.length + (r.tokens ++ Token.EndElement n :: rest).length + 1 < fuel := by
        simp only [Forest.tokens, List.length_cons, List.length_append] at h ⊢; omega
      have hr : r.tokens.length + rest.length + 1 < fuel := by
        simp only [Forest.tokens, List.length_cons, List.length_append] at h ⊢; omega
      rw [unmarshalStringLoop, token_start]
      simp only []
      rw [skip_elem c fuel m _ _ hlen]
      simp only [Forest.charData]
      exact ihr fuel data n rest stk hr
  | misc t r ih =>
    intro fuel data n rest stk h
    rw [Forest.tokens_misc_append]
    cases fuel with
    | zero => omega
    | succ fuel =>
      have hr : r.tokens.length + rest.length + 1 < fuel := by
        simp only [Forest.tokens, List.length_cons, List.length_append] at h ⊢; omega
      cases t with
      | CharData s =>
        have hs : unmarshalStringLoop (fuel + 1) data
            ⟨(Misc.CharData s).toToken :: (r.tokens ++ Token.EndElement n :: rest), n :: stk⟩ =
            unmarshalStringLoop fuel (data ++ s)
              ⟨r.tokens ++ Token.EndElement n :: rest, n :: stk⟩ := rfl
        rw [hs]
        exact ih fuel (data ++ s) n rest stk hr
      | Comment s =>
        have hs : unmarshalStringLoop (fuel + 1) data
            ⟨(Misc.Comment s).toToken :: (r.tokens ++ Token.EndElement n :: rest), n :: stk⟩ =
            unmarshalStringLoop fuel data
              ⟨r.tokens ++ Token.EndElement n :: rest, n :: stk⟩ := rfl
        rw [hs]
        exact ih fuel data n rest stk hr
      | ProcInst s i =>
        have hs : unmarshalStringLoop (fuel + 1) data
            ⟨(Misc.ProcInst s i).toToken :: (r.tokens ++ Token.EndElement n :: rest), n :: stk⟩ =
            unmarshalStringLoop fuel data
              ⟨r.tokens ++ Token.EndElement n :: rest, n :: stk⟩ := rfl
        rw [hs]
        exact ih fuel data n rest stk hr
      | Directive s =>
        have hs : unmarshalStringLoop (fuel + 1) data
            ⟨(Misc.Directive s).toToken :: (r.tokens ++ Token.EndElement n :: rest), n :: stk⟩ =
            unmarshalStringLoop fuel data
              ⟨r.tokens ++ Token.EndElement n :: rest, n :: stk⟩ := rfl
        rw [hs]
        exact ih fuel data n rest stk hr

theorem unmarshalString_refines : Refines unmarshalString stringValue := by
  intro fuel v attrs c n rest stk h hdep
  unfold unmarshalString
  rw [if_neg (not_too_deep stk n _ hdep)]
  simp [unmarshalStringLoop_forest c fuel "" n rest stk h, stringValue]

theorem unmarshalSlice_refines {β : Type} (zero : β)
    (dec : Nat → β → List Attr → Decoder → Option (β × Bool × Decoder))
    (val : β → List Attr → Forest → β) (hd : Refines dec val) :
    Refines (unmarshalSlice zero dec) (sliceValue zero val) := by
  intro fuel v attrs c n rest stk h hdep
  simp [unmarshalSlice, hd fuel zero attrs c n rest stk h hdep, sliceValue]

theorem onField_refines {α β : Type} (get : α → β) (set : α → β → α)
    (dec : Nat → β → List Attr → Decoder → Option (β × Bool × Decoder))
    (val : β → List Attr → Forest → β) (hd : Refines dec val) :
    Refines (onField get set dec) (onFieldValue get set val) := by
  intro fuel v attrs c n rest stk h hdep
  simp [onField, hd fuel (get v) attrs c n rest stk h hdep, onFieldValue]

theorem noElemField_refines {α : Type} :
    FieldsRefine (noElemField : String → Option (Nat → α → List Attr → Decoder →
      Option (α × Bool × Decoder))) noElemValue :=
  fun _ => Or.inl ⟨rfl, rfl⟩

theorem unmarshalDetReport_refines : Refines unmarshalDetReport DetReport.value :=
  unmarshalStruct_refines _ _ _ noElemField_refines

theorem unmarshalCustomField_refines : Refines unmarshalCustomField CustomField.value :=
  unmarshalStruct_refines _ _ _ noElemField_refines

theorem unmarshalMitigation_refines : Refines unmarshalMitigation Mitigation.value :=
  unmarshalStruct_refines _ _ _ noElemField_refines

theorem unmarshalAnnotation_refines : Refines unmarshalAnnotation Annotation.value :=
  unmarshalStruct_refines _ _ _ noElemField_refines

theorem mitigationsElemField_refines :
    FieldsRefine Mitigations.elemField Mitigations.elemValue := by
  intro name
  by_cases h : name = "mitigation"
  · right
    exact ⟨_, _, if_pos h, if_pos h,
      onField_refines _ _ _ _ (unmarshalSlice_refines _ _ _ unmarshalMitigation_refines)⟩
  · left
    exact ⟨if_neg h, if_neg h⟩

theorem annotationsElemField_refines :
    FieldsRefine Annotations.elemField Annotations.elemValue := by
  intro name
  by_cases h : name = "annotation"
  · right
    exact ⟨_, _, if_pos h, if_pos h,
      onField_refines _ _ _ _ (unmarshalSlice_refines _ _ _ unmarshalAnnotation_refines)⟩
  · left
    exact ⟨if_neg h, if_neg h⟩

theorem unmarshalMitigations_refines : Refines unmarshalMitigations Mitigations.value :=
  unmarshalStruct_refines _ _ _ mitigationsElemField_refines

theorem unmarshalAnnotations_refines : Refines unmarshalAnnotations Annotations.value :=
  unmarshalStruct_refines _ _ _ annotationsElemField_refines

theorem flawElemField_refines : FieldsRefine Flaw.elemField Flaw.elemValue := by
  intro name
  by_cases h1 : name = "CategoryName"
  · right
    exact ⟨_, _, if_pos h1, if_pos h1, onField_refines _ _ _ _ unmarshalString_refines⟩
  · by_cases h2 : name = "PolicyName"
    · right
      exact ⟨_, _, (if_neg h1).trans (if_pos h2), (if_neg h1).trans (if_pos h2),
        onField_refines _ _ _ _ unmarshalString_refines⟩
    · by_cases h3 : name = "mitigations"
      · right
        exact ⟨_, _, (if_neg h1).trans ((if_neg h2).trans (if_pos h3)),
          (if_neg h1).trans ((if_neg h2).trans (if_pos h3)),
          onField_refines _ _ _ _ unmarshalMitigations_refines⟩
      · by_cases h4 : name = "annotations"
        · right
          exact ⟨_, _, (if_neg h1).trans ((if_neg h2).trans ((if_neg h3).trans (if_pos h4))),
            (if_neg h1).trans ((if_neg h2).trans ((if_neg h3).trans (if_pos h4))),
            onField_refines _ _ _ _ unmarshalAnnotations_refines⟩
        · left
          exact ⟨by simp [Flaw.elemField, h1, h2, h3, h4],
            by simp [Flaw.elemValue, h1, h2, h3, h4]⟩

theorem unmarshalFlaw_refines : Refines unmarshalFlaw Flaw.value :=
  unmarshalStruct_refines _ _ _ flawElemField_refines

/-! ## Attributes -/

theorem attrValue_concat (l : List Attr) (a : Attr) (name : String) :
    attrValue (l ++ [a]) name = if a.Name.Local = name then a.Value else attrValue l name := by
  by_cases h : a.Name.Local = name <;> simp [attrValue, List.find?_cons, h]

theorem foldl_assign_attrValue {α : Type} (assign : α → Attr → α) (proj : α → String)
    (name : String)
    (hstep : ∀ s a, proj (assign s a) = if a.Name.Local = name then a.Value else proj s)
    (s : α) (hs : proj s = "") (attrs : List Attr) :
    proj (attrs.foldl assign s) = attrValue attrs name := by
  induction attrs using List.reverseRecOn with
  | nil => simpa [attrValue] using hs
  | append_singleton l a ih => rw [List.foldl_append, attrValue_concat]; simp [hstep, ih]

theorem assignAttrs_proj {α : Type} (proj : α → String) (name : String) (a : Attr) :
    ∀ (fields : List (String × (α → String → α))),
    (∀ fld ∈ fields, ∀ s v, proj (fld.2 s v) = if fld.1 = name then v else proj s) →
    ∀ s, proj (assignAttrs fields s a) =
      if a.Name.Local = name ∧ name ∈ fields.map Prod.fst then a.Value else proj s := by
  intro fields
  induction fields with
  | nil => intro _ s; simp [assignAttrs]
  | cons fld rest ih =>
    intro h s
    have hrest := ih (fun f hf => h f (List.mem_cons_of_mem _ hf))
    have hfld := h fld (List.mem_cons_self _ _)
    simp only [assignAttrs, List.foldl_cons] at hrest ⊢
    rw [hrest]
    by_cases h1 : a.Name.Local = name
    · by_cases h2 : name ∈ rest.map Prod.fst
      · simp [h1, h2]
      · by_cases h3 : fld.1 = name
        · simp [h1, h2, h3, hfld]
        · have h3' : ¬ name = fld.1 := fun h => h3 h.symm
          simp [h1, h2, h3, h3', hfld]
    · by_cases h3 : a.Name.Local = fld.1
      · have h4 : ¬ fld.1 = name := fun h => h1 (h3.trans h)
        simp [h1, h3, h4, hfld]
      · simp [h1, h3]

/-- The attribute fields of a `Flaw` after "Assign attributes". -/
theorem flaw_foldl_assignAttr (attrs : List Attr) :
    (attrs.foldl Flaw.assignAttr {}).Issueid = attrValue attrs "issueid" ∧
    (attrs.foldl Flaw.assignAttr {}).CweName = attrValue attrs "categoryname" ∧
    (attrs.foldl Flaw.assignAttr {}).CategoryID = attrValue attrs "categoryid" ∧
    (attrs.foldl Flaw.assignAttr {}).Cweid = attrValue attrs "cweid" ∧
    (attrs.foldl Flaw.assignAttr {}).Remediation_status =
      attrValue attrs "remediation_status" ∧
    (attrs.foldl Flaw.assignAttr {}).Mitigation_status = attrValue attrs "mitigation_status" ∧
    (attrs.foldl Flaw.assignAttr {}).Affects_policy_compliance =
      attrValue attrs "affects_policy_compliance" ∧
    (attrs.foldl Flaw.assignAttr {}).Date_first_occurrence =
      attrValue attrs "date_first_occurrence" ∧
    (attrs.foldl Flaw.assignAttr {}).Severity = attrValue attrs "severity" ∧
    (attrs.foldl Flaw.assignAttr {}).ExploitLevel = attrValue attrs "exploitLevel" ∧
    (attrs.foldl Flaw.assignAttr {}).Module = attrValue attrs "module" ∧
    (attrs.foldl Flaw.assignAttr {}).Sourcefile = attrValue attrs "sourcefile" ∧
    (attrs.foldl Flaw.assignAttr {}).Line = attrValue attrs "line" ∧
    (attrs.foldl Flaw.assignAttr {}).Description = attrValue attrs "description" := by
  refine ⟨?_, ?_, ?_, ?_, ?_, ?_, ?_, ?_, ?_, ?_, ?_, ?_, ?_, ?_⟩
  · exact foldl_assign_attrValue _ Flaw.Issueid _ (fun f a => by
      have h := assignAttrs_proj Flaw.Issueid "issueid" a Flaw.attrFields
        (by simp [Flaw.attrFields]) f
      simpa [Flaw.attrFields] using h) _ rfl _
  · exact foldl_assign_attrValue _ Flaw.CweName _ (fun f a => by
      have h := assignAttrs_proj Flaw.CweName "categoryname" a Flaw.attrFields
        (by simp [Flaw.attrFields]) f
      simpa [Flaw.attrFields] using h) _ rfl _
  · exact foldl_assign_attrValue _ Flaw.CategoryID _ (fun f a => by
      have h := assignAttrs_proj Flaw.CategoryID "categoryid" a Flaw.attrFields
        (by simp [Flaw.attrFields]) f
      simpa [Flaw.attrFields] using h) _ rfl _
  · exact foldl_assign_attrValue _ Flaw.Cweid _ (fun f a => by
      have h := assignAttrs_proj Flaw.Cweid "cweid" a Flaw.attrFields
        (by simp [Flaw.attrFields]) f
      simpa [Flaw.attrFields] using h) _ rfl _
  · exact foldl_assign_attrValue _ Flaw.Remediation_status _ (fun f a => by
      have h := assignAttrs_proj Flaw.Remediation_status "remediation_status" a
        Flaw.attrFields (by simp [Flaw.attrFields]) f
      simpa [Flaw.attrFields] using h) _ rfl _
  · exact foldl_assign_attrValue _ Flaw.Mitigation_status _ (fun f a => by
      have h := assignAttrs_proj Flaw.Mitigation_status "mitigation_status" a
        Flaw.attrFields (by simp [Flaw.attrFields]) f
      simpa [Flaw.attrFields] using h) _ rfl _
  · exact foldl_assign_attrValue _ Flaw.Affects_policy_compliance _ (fun f a => by
      have h := assignAttrs_proj Flaw.Affects_policy_compliance "affects_policy_compliance" a
        Flaw.attrFields (by simp [Flaw.attrFields]) f
      simpa [Flaw.attrFields] using h) _ rfl _
  · exact foldl_assign_attrValue _ Flaw.Date_first_occurrence _ (fun f a => by
      have h := assignAttrs_proj Flaw.Date_first_occurrence "date_first_occurrence" a
        Flaw.attrFields (by simp [Flaw.attrFields]) f
      simpa [Flaw.attrFields] using h) _ rfl _
  · exact foldl_assign_attrValue _ Flaw.Severity _ (fun f a => by
      have h := assignAttrs_proj Flaw.Severity "severity" a Flaw.attrFields
        (by simp [Flaw.attrFields]) f
      simpa [Flaw.attrFields] using h) _ rfl _
  · exact foldl_assign_attrValue _ Flaw.ExploitLevel _ (fun f a => by
      have h := assignAttrs_proj Flaw.ExploitLevel "exploitLevel" a Flaw.attrFields
        (by simp [Flaw.attrFields]) f
      simpa [Flaw.attrFields] using h) _ rfl _
  · exact foldl_assign_attrValue _ Flaw.Module _ (fun f a => by
      have h := assignAttrs_proj Flaw.Module "module" a Flaw.attrFields
        (by simp [Flaw.attrFields]) f
      simpa [Flaw.attrFields] using h) _ rfl _
  · exact foldl_assign_attrValue _ Flaw.Sourcefile _ (fun f a => by
      have h := assignAttrs_proj Flaw.Sourcefile "sourcefile" a Flaw.attrFields
        (by simp [Flaw.attrFields]) f
      simpa [Flaw.attrFields] using h) _ rfl _
  · exact foldl_assign_attrValue _ Flaw.Line _ (fun f a => by
      have h := assignAttrs_proj Flaw.Line "line" a Flaw.attrFields
        (by simp [Flaw.attrFields]) f
      simpa [Flaw.attrFields] using h) _ rfl _
  · exact foldl_assign_attrValue _ Flaw.Description _ (fun f a => by
      have h := assignAttrs_proj Flaw.Description "description" a Flaw.attrFields
        (by simp [Flaw.attrFields]) f
      simpa [Flaw.attrFields] using h) _ rfl _

/-- The fields of a `CustomField` after "Assign attributes". -/
theorem customField_foldl_assignAttr (attrs : List Attr) :
    attrs.foldl CustomField.assignAttr {} =
      { Name := attrValue attrs "name", Value := attrValue attrs "value" } := by
  have h1 : (attrs.foldl CustomField.assignAttr {}).Name = attrValue attrs "name" :=
    foldl_assign_attrValue _ CustomField.Name _ (fun f a => by
      have h := assignAttrs_proj CustomField.Name "name" a CustomField.attrFields
        (by simp [CustomField.attrFields]) f
      simpa [CustomField.attrFields] using h) _ rfl _
  have h2 : (attrs.foldl CustomField.assignAttr {}).Value = attrValue attrs "value" :=
    foldl_assign_attrValue _ CustomField.Value _ (fun f a => by
      have h := assignAttrs_proj CustomField.Value "value" a CustomField.attrFields
        (by simp [CustomField.attrFields]) f
      simpa [CustomField.attrFields] using h) _ rfl _
  cases hc : attrs.foldl CustomField.assignAttr {} with
  | mk n v => rw [hc] at h1 h2; simp only at h1 h2; rw [h1, h2]

/-- The policy name of a `DetReport` after "Assign attributes": the attribute
`policy_name` if there is one, and the former policy name otherwise. -/
theorem DetReport.assignAttr_PolicyName (r : DetReport) (a : Attr) :
    (DetReport.assignAttr r a).PolicyName =
      if a.Name.Local = "policy_name" then a.Value else r.PolicyName := by
  have h := assignAttrs_proj DetReport.PolicyName "policy_name" a DetReport.attrFields
    (by simp [DetReport.attrFields]) r
  simpa [DetReport.attrFields] using h

theorem DetReport.foldl_assignAttr_PolicyName (r : DetReport) (hr : r.PolicyName = "")
    (attrs : List Attr) :
    (attrs.foldl DetReport.assignAttr r).PolicyName = attrValue attrs "policy_name" :=
  foldl_assign_attrValue _ DetReport.PolicyName _ DetReport.assignAttr_PolicyName r hr attrs

/-! ## What a struct loop leaves alone -/

theorem unmarshalStructLoop_preserves {α β : Type} (proj : α → β)
    (elemField : String → Option (Nat → α → List Attr → Decoder → Option (α × Bool × Decoder)))
    (hf : ∀ name dec, elemField name = some dec →
      ∀ fuel sv a d r, dec fuel sv a d = some r → proj r.1 = proj sv) :
    ∀ (fuel : Nat) (sv : α) (d : Decoder) (r : α × Bool × Decoder),
    unmarshalStructLoop elemField fuel sv d = some r → proj r.1 = proj sv := by
  intro fuel
  induction fuel with
  | zero => intro sv d r h; simp [unmarshalStructLoop] at h
  | succ fuel ih =>
    intro sv d r h
    rcases d.Token_cases with ⟨d1, ht, _⟩ | ⟨t, d1, ht, _⟩
    · simp [unmarshalStructLoop, ht] at h
      rw [← h]
    · cases t with
      | StartElement n a =>
        cases hfd : elemField n.Local with
        | some dec =>
          cases hdec : dec fuel sv a d1 with
          | none => simp [unmarshalStructLoop, ht, hfd, hdec] at h
          | some r1 =>
            obtain ⟨sv1, e, d2⟩ := r1
            have h1 : proj sv1 = proj sv := hf _ _ hfd fuel sv a d1 _ hdec
            cases e with
            | true =>
              simp [unmarshalStructLoop, ht, hfd, hdec] at h
              rw [← h]; exact h1
            | false =>
              simp [unmarshalStructLoop, ht, hfd, hdec] at h
              exact (ih sv1 d2 r h).trans h1
        | none =>
          cases hsk : d1.Skip fuel 0 with
          | none => simp [unmarshalStructLoop, ht, hfd, hsk] at h
          | some r1 =>
            obtain ⟨e, d2⟩ := r1
            cases e with
            | true =>
              simp [unmarshalStructLoop, ht, hfd, hsk] at h
              rw [← h]
            | false =>
              simp [unmarshalStructLoop, ht, hfd, hsk] at h
              exact ih sv d2 r h
      | EndElement n =>
        simp [unmarshalStructLoop, ht] at h
        rw [← h]
      | CharData s =>
        simp [unmarshalStructLoop, ht] at h
        exact ih sv d1 r h
      | Comment s =>
        simp [unmarshalStructLoop, ht] at h
        exact ih sv d1 r h
      | ProcInst s i =>
        simp [unmarshalStructLoop, ht] at h
        exact ih sv d1 r h
      | Directive s =>
        simp [unmarshalStructLoop, ht] at h
        exact ih sv d1 r h

theorem onField_preserves {α β γ : Type} (proj : α → γ) (get : α → β) (set : α → β → α)
    (dec : Nat → β → List Attr → Decoder → Option (β × Bool × Decoder))
    (hset : ∀ s x, proj (set s x) = proj s) :
    ∀ fuel sv a d r, onField get set dec fuel sv a d = some r → proj r.1 = proj sv := by
  intro fuel sv a d r h
  unfold onField at h
  cases hdec : dec fuel (get sv) a d with
  | none => simp [hdec] at h
  | some r1 =>
    obtain ⟨x, e, d1⟩ := r1
    simp [hdec] at h
    rw [← h]
    exact hset sv x

/-- The part of a `Flaw` that the attributes of the `flaw` element fill. -/
theorem flawElemField_preserves {γ : Type} (proj : Flaw → γ)
    (h1 : ∀ (f : Flaw) (v : String), proj { f with CategoryName := v } = proj f)
    (h2 : ∀ (f : Flaw) (v : String), proj { f with PolicyName := v } = proj f)
    (h3 : ∀ (f : Flaw) (v : Mitigations), proj { f with Mitigations := v } = proj f)
    (h4 : ∀ (f : Flaw) (v : Annotations), proj { f with Annotations := v } = proj f) :
    ∀ name dec, Flaw.elemField name = some dec →
      ∀ fuel sv a d r, dec fuel sv a d = some r → proj r.1 = proj sv := by
  intro name dec h
  unfold Flaw.elemField at h
  split at h
  · cases h; exact onField_preserves proj _ _ _ h1
  · split at h
    · cases h; exact onField_preserves proj _ _ _ h2
    · split at h
      · cases h; exact onField_preserves proj _ _ _ h3
      · split at h
        · cases h; exact onField_preserves proj _ _ _ h4
        · cases h

theorem unmarshalFlaw_preserves {γ : Type} (proj : Flaw → γ)
    (h1 : ∀ (f : Flaw) (v : String), proj { f with CategoryName := v } = proj f)
    (h2 : ∀ (f : Flaw) (v : String), proj { f with PolicyName := v } = proj f)
    (h3 : ∀ (f : Flaw) (v : Mitigations), proj { f with Mitigations := v } = proj f)
    (h4 : ∀ (f : Flaw) (v : Annotations), proj { f with Annotations := v } = proj f)
    (fuel : Nat) (f : Flaw) (attrs : List Attr) (d : Decoder) (r : Flaw × Bool × Decoder)
    (hd : d.stk.length ≤ maxUnmarshalDepth)
    (h : unmarshalFlaw fuel f attrs d = some r) :
    proj r.1 = proj (attrs.foldl Flaw.assignAttr f) := by
  unfold unmarshalFlaw unmarshalStruct at h
  rw [if_neg (Nat.not_lt.mpr hd)] at h
  exact unmarshalStructLoop_preserves proj _ (flawElemField_preserves proj h1 h2 h3 h4) fuel _ d r h

/-! ## The two scans on well-nested content -/

theorem flawBlock_forest (categoryMap : String → Option String) (detRep : DetReport)
    (fuel : Nat) (a : List Attr) (c : Forest) (n : Name) (rest : List Token) (stk : List Name)
    (h : c.tokens.length + rest.length + 1 < fuel)
    (hdep : stk.length + 1 + c.depth ≤ maxUnmarshalDepth) :
    flawBlock categoryMap detRep fuel a ⟨c.tokens ++ Token.EndElement n :: rest, n :: stk⟩ =
      some (flawValue categoryMap detRep a c, ⟨rest, stk⟩) := by
  simp [flawBlock, DecodeElement, unmarshalFlaw_refines fuel {} a c n rest stk h hdep, flawValue]

theorem customFieldBlock_forest (fuel : Nat) (a : List Attr) (c : Forest) (n : Name)
    (rest : List Token) (stk : List Name) (h : c.tokens.length + rest.length + 1 < fuel)
    (hdep : stk.length + 1 + c.depth ≤ maxUnmarshalDepth) :
    customFieldBlock fuel a ⟨c.tokens ++ Token.EndElement n :: rest, n :: stk⟩ =
      some (CustomField.value {} a c, ⟨rest, stk⟩) := by
  simp [customFieldBlock, DecodeElement,
    unmarshalCustomField_refines fuel {} a c n rest stk h hdep]

theorem afterElement_flaw (categoryMap : String → Option String) (detRep : DetReport)
    (st : Findings) (e : Element) (h : e.name.Local = "flaw") :
    Findings.afterElement categoryMap detRep st e =
      { st with flaws := st.flaws ++ [flawValue categoryMap detRep e.attrs e.children] } := by
  simp [Findings.afterElement, h]

theorem afterElement_customfield (categoryMap : String → Option String) (detRep : DetReport)
    (st : Findings) (e : Element) (h : e.name.Local = "customfield") :
    Findings.afterElement categoryMap detRep st e =
      { st with customFields :=
          st.customFields ++ [CustomField.value {} e.attrs e.children] } := by
  simp [Findings.afterElement, h]

theorem afterElement_error (categoryMap : String → Option String) (detRep : DetReport)
    (st : Findings) (e : Element) (h : e.name.Local = "error") :
    Findings.afterElement categoryMap detRep st e =
      { st with errMsg := some "api for GetDetailedReport returned with an error element" } := by
  simp [Findings.afterElement, h]

theorem afterElement_other (categoryMap : String → Option String) (detRep : DetReport)
    (st : Findings) (e : Element) (h1 : ¬ e.name.Local = "error")
    (h2 : ¬ e.name.Local = "flaw") (h3 : ¬ e.name.Local = "customfield") :
    Findings.afterElement categoryMap detRep st e = st := by
  simp [Findings.afterElement, h1, h2, h3]

theorem findingsScan_forest (categoryMap : String → Option String) (detRep : DetReport) :
    ∀ (F : Forest) (fuel : Nat) (st : Findings) (rest : List Token) (stk : List Name),
    (F.tokens ++ rest).length < fuel → stk.length + F.depth ≤ maxUnmarshalDepth →
    findingsScan categoryMap detRep fuel st ⟨F.tokens ++ rest, stk⟩ =
      findingsScan categoryMap detRep fuel
        (F.scanned.foldl (Findings.afterElement categoryMap detRep) st) ⟨rest, stk⟩ := by
  intro F
  induction F with
  | nil => intro fuel st rest stk _ _; simp [Forest.tokens, Forest.scanned]
  | elem n a c r ihc ihr =>
    intro fuel st rest stk h hdep
    have hdc := depth_elem_children n a c r
    have hdr := depth_elem_rest n a c r
    have hdc1 : stk.length + 1 + c.depth ≤ maxUnmarshalDepth := by omega
    have hdc2 : (n :: stk).length + c.depth ≤ maxUnmarshalDepth := by
      simp only [List.length_cons]; omega
    have hdr1 : stk.length + r.depth ≤ maxUnmarshalDepth := by omega
    rw [Forest.tokens_elem_append] at h ⊢
    cases fuel with
    | zero => omega
    | succ fuel =>
      have h1 : (c.tokens ++ Token.EndElement n :: (r.tokens ++ rest)).length < fuel := by
        simpa using h
      have hr : (r.tokens ++ rest).length < fuel := by
        simp only [List.length_append, List.length_cons] at h1 ⊢; omega
      have hc : c.tokens.length + (r.tokens ++ rest).length + 1 < fuel := by
        simp only [List.length_append, List.length_cons] at h1 ⊢; omega
      have hrest : rest.length < fuel := by
        simp only [List.length_append] at hr; omega
      rw [findingsScan, token_start]
      simp only []
      by_cases hf : n.Local = "flaw"
      · rw [startElementCase_flaw _ _ _ _ _ _ _ hf, flawBlock_forest _ _ _ _ _ _ _ _ hc hdc1]
        simp only [Option.map_some']
        rw [ihr fuel _ rest stk hr hdr1, findingsScan_fuel _ _ fuel (fuel + 1) _ _ hrest (by simp; omega)]
        simp only [Forest.scanned, hf, true_or, if_true, List.nil_append, List.foldl_cons]
        rw [afterElement_flaw _ _ _ _ hf]
      · by_cases hcf : n.Local = "customfield"
        · rw [startElementCase_customfield _ _ _ _ _ _ _ hcf,
            customFieldBlock_forest _ _ _ _ _ _ hc hdc1]
          simp only [Option.map_some']
          rw [ihr fuel _ rest stk hr hdr1,
            findingsScan_fuel _ _ fuel (fuel + 1) _ _ hrest (by simp; omega)]
          simp only [Forest.scanned, hcf, or_true, if_true, List.nil_append, List.foldl_cons]
          rw [afterElement_customfield _ _ _ _ hcf]
        · have hst : startElementCase categoryMap detRep fuel st n a
              ⟨c.tokens ++ Token.EndElement n :: (r.tokens ++ rest), n :: stk⟩ =
              some (Findings.afterElement categoryMap detRep st ⟨n, a, c⟩,
                ⟨c.tokens ++ Token.EndElement n :: (r.tokens ++ rest), n :: stk⟩) := by
            by_cases he : n.Local = "error"
            · rw [startElementCase_error _ _ _ _ _ _ _ he, afterElement_error _ _ _ _ he]
            · rw [startElementCase_other _ _ _ _ _ _ _ he hf hcf,
                afterElement_other _ _ _ _ he hf hcf]
          rw [hst]
          simp only []
          rw [ihc fuel _ _ (n :: stk) h1 hdc2]
          cases fuel with
          | zero => omega
          | succ fuel =>
            have hr' : (r.tokens ++ rest).length < fuel := by
              simp only [List.length_append, List.length_cons] at h1 ⊢; omega
            have hrest' : rest.length < fuel := by
              simp only [List.length_append] at hr'; omega
            rw [findingsScan, token_end]
            simp only []
            rw [ihr fuel _ rest stk hr' hdr1,
              findingsScan_fuel _ _ fuel (fuel + 1 + 1) _ _ hrest' (by simp; omega)]
            simp only [Forest.scanned, hf, hcf, or_self, if_false, List.foldl_cons,
              List.foldl_append]
  | misc t r ih =>
    intro fuel st rest stk h hdep
    rw [Forest.tokens_misc_append] at h ⊢
    cases fuel with
    | zero => omega
    | succ fuel =>
      have h1 : (r.tokens ++ rest).length < fuel := by simpa using h
      have hrest : rest.length < fuel := by
        simp only [List.length_append] at h1; omega
      have hs : findingsScan categoryMap detRep (fuel + 1) st
          ⟨t.toToken :: (r.tokens ++ rest), stk⟩ =
          findingsScan categoryMap detRep fuel st ⟨r.tokens ++ rest, stk⟩ := by
        cases t <;> rfl
      rw [hs, ih fuel st rest stk h1 hdep,
        findingsScan_fuel _ _ fuel (fuel + 1) _ _ hrest (by simp; omega)]
      simp only [Forest.scanned]

theorem metadataScan_forest :
    ∀ (F : Forest) (fuel : Nat) (detRep : DetReport) (rest : List Token) (stk : List Name),
    (F.tokens ++ rest).length < fuel → stk.length + F.depth ≤ maxUnmarshalDepth →
    metadataScan fuel detRep ⟨F.tokens ++ rest, stk⟩ =
      metadataScan fuel (F.metadata detRep) ⟨rest, stk⟩ := by
  intro F
  induction F with
  | nil => intro fuel st rest stk _ _; simp [Forest.tokens, Forest.metadata]
  | elem n a c r ihc ihr =>
    intro fuel detRep rest stk h hdep
    have hdc := depth_elem_children n a c r
    have hdr := depth_elem_rest n a c r
    have hdc1 : stk.length + 1 + c.depth ≤ maxUnmarshalDepth := by omega
    have hdc2 : (n :: stk).length + c.depth ≤ maxUnmarshalDepth := by
      simp only [List.length_cons]; omega
    have hdr1 : stk.length + r.depth ≤ maxUnmarshalDepth := by omega
    rw [Forest.tokens_elem_append] at h ⊢
    cases fuel with
    | zero => omega
    | succ fuel =>
      have h1 : (c.tokens ++ Token.EndElement n :: (r.tokens ++ rest)).length < fuel := by
        simpa using h
      have hr : (r.tokens ++ rest).length < fuel := by
        simp only [List.length_append, List.length_cons] at h1 ⊢; omega
      have hc : c.tokens.length + (r.tokens ++ rest).length + 1 < fuel := by
        simp only [List.length_append, List.length_cons] at h1 ⊢; omega
      have hrest : rest.length < fuel := by
        simp only [List.length_append] at hr; omega
      rw [metadataScan, token_start]
      simp only []
      by_cases hn : n.Local = "detailedreport"
      · simp only [hn, if_true, DecodeElement]
        rw [unmarshalDetReport_refines fuel detRep a c n _ stk hc hdc1]
        simp only []
        rw [ihr fuel _ rest stk hr hdr1, metadataScan_fuel fuel (fuel + 1) _ _ hrest (by simp; omega)]
        simp only [Forest.metadata, hn, if_true]
      · simp only [hn, if_false]
        rw [ihc fuel _ _ (n :: stk) h1 hdc2]
        cases fuel with
        | zero => omega
        | succ fuel =>
          have hr' : (r.tokens ++ rest).length < fuel := by
            simp only [List.length_append, List.length_cons] at h1 ⊢; omega
          have hrest' : rest.length < fuel := by
            simp only [List.length_append] at hr'; omega
          rw [metadataScan, token_end]
          simp only []
          rw [ihr fuel _ rest stk hr' hdr1,
            metadataScan_fuel fuel (fuel + 1 + 1) _ _ hrest' (by simp; omega)]
          simp only [Forest.metadata, hn, if_false]
  | misc t r ih =>
    intro fuel detRep rest stk h hdep
    rw [Forest.tokens_misc_append] at h ⊢
    cases fuel with
    | zero => omega
    | succ fuel =>
      have h1 : (r.tokens ++ rest).length < fuel := by simpa using h
      have hrest : rest.length < fuel := by
        simp only [List.length_append] at h1; omega
      have hs : metadataScan (fuel + 1) detRep ⟨t.toToken :: (r.tokens ++ rest), stk⟩ =
          metadataScan fuel detRep ⟨r.tokens ++ rest, stk⟩ := by
        cases t <;> rfl
      rw [hs, ih fuel detRep rest stk h1 hdep,
        metadataScan_fuel fuel (fuel + 1) _ _ hrest (by simp; omega)]
      simp only [Forest.metadata]

/-- Both scans on a document with well-nested content. -/
theorem parseDocument_forest (categoryMap : String → Option String) (F : Forest)
    (hdep : F.depth ≤ maxUnmarshalDepth) :
    metadataScan (F.tokens.length + 1) {} (NewDecoder F.tokens) = some (F.metadata {}) ∧
    parseDocument categoryMap F.tokens =
      some (F.scanned.foldl (Findings.afterElement categoryMap (F.metadata {})) {}) := by
  have hm : metadataScan (F.tokens.length + 1) {} (NewDecoder F.tokens) =
      some (F.metadata {}) := by
    have h := metadataScan_forest F (F.tokens.length + 1) {} [] [] (by simp)
      (by simpa using hdep)
    simp only [List.append_nil] at h
    rw [NewDecoder, h]
    simp [metadataScan, Decoder.Token]
  refine ⟨hm, ?_⟩
  have h := findingsScan_forest categoryMap (F.metadata {}) F (F.tokens.length + 1) {} [] []
    (by simp) (by simpa using hdep)
  simp only [List.append_nil] at h
  simp only [parseDocument, hm]
  rw [NewDecoder, h]
  simp [findingsScan, Decoder.Token]

theorem foldl_afterElement_flaws (categoryMap : String → Option String) (detRep : DetReport) :
    ∀ (es : List Element) (st : Findings),
    (es.foldl (Findings.afterElement categoryMap detRep) st).flaws =
      st.flaws ++ (es.filter (fun e => decide (e.name.Local = "flaw"))).map
        (fun e => flawValue categoryMap detRep e.attrs e.children) := by
  intro es
  induction es with
  | nil => intro st; simp
  | cons e es ih =>
    intro st
    rw [List.foldl_cons, ih]
    by_cases h : e.name.Local = "flaw" <;> simp [Findings.afterElement, h]

theorem foldl_afterElement_customFields (categoryMap : String → Option String)
    (detRep : DetReport) :
    ∀ (es : List Element) (st : Findings),
    (es.foldl (Findings.afterElement categoryMap detRep) st).customFields =
      st.customFields ++ (es.filter (fun e => decide (e.name.Local = "customfield"))).map
        (fun e => CustomField.value {} e.attrs e.children) := by
  intro es
  induction es with
  | nil => intro st; simp
  | cons e es ih =>
    intro st
    rw [List.foldl_cons, ih]
    by_cases h : e.name.Local = "customfield" <;> simp [Findings.afterElement, h]

theorem foldl_afterElement_errMsg (categoryMap : String → Option String) (detRep : DetReport) :
    ∀ (es : List Element) (st : Findings),
    (es.foldl (Findings.afterElement categoryMap detRep) st).errMsg =
      if (es.filter (fun e => decide (e.name.Local = "error"))) = [] then st.errMsg
      else some "api for GetDetailedReport returned with an error element" := by
  intro es
  induction es using List.reverseRecOn with
  | nil => intro st; simp
  | append_singleton es e ih =>
    intro st
    rw [List.foldl_append, List.foldl_cons, List.foldl_nil]
    by_cases h : e.name.Local = "error"
    · simp [Findings.afterElement, h]
    · simp [Findings.afterElement, h, ih]

/-! ## Facts about the whole parser -/

theorem ParseDetailedReport_fetched
    (detailedReport : String → String → String → List Token × Option String)
    (categoryMap : String → Option String) (username password build_id : String)
    (doc : List Token) (h : detailedReport username password build_id = (doc, none)) :
    ParseDetailedReport detailedReport categoryMap username password build_id =
      (parseDocument categoryMap doc).map
        (fun st => Outcome.returned st.flaws st.customFields st.errMsg) := by
  unfold ParseDetailedReport
  rw [h]
  simp only []
  cases parseDocument categoryMap doc <;> rfl

theorem ParseDetailedReport_returned
    (detailedReport : String → String → String → List Token × Option String)
    (categoryMap : String → Option String) (username password build_id : String)
    (flaws : List Flaw) (customFields : List CustomField) (err : Option String)
    (h : ParseDetailedReport detailedReport categoryMap username password build_id =
      some (Outcome.returned flaws customFields err)) :
    ∃ doc st, detailedReport username password build_id = (doc, none) ∧
      parseDocument categoryMap doc = some st ∧ st.flaws = flaws ∧
      st.customFields = customFields ∧ st.errMsg = err := by
  unfold ParseDetailedReport at h
  cases hd : detailedReport username password build_id with
  | mk doc e =>
    rw [hd] at h
    cases e with
    | some e => simp at h
    | none =>
      simp only [] at h
      cases hp : parseDocument categoryMap doc with
      | none => simp [hp] at h
      | some st =>
        simp [hp] at h
        exact ⟨doc, st, rfl, hp, h.1, h.2.1, h.2.2⟩

theorem decodeFlawElement_eq (categoryMap : String → Option String) (detRep : DetReport)
    (e : Element) (hdep : e.children.depth + 1 ≤ maxUnmarshalDepth) :
    decodeFlawElement categoryMap detRep e =
      some (flawValue categoryMap detRep e.attrs e.children) := by
  unfold decodeFlawElement
  rw [flawBlock_forest categoryMap detRep _ e.attrs e.children e.name [] [] (by simp)
    (by simp only [List.length_nil]; omega)]
  rfl

theorem structLoopValue_noElemValue {α : Type} :
    ∀ (c : Forest) (sv : α), Forest.structLoopValue noElemValue c sv = sv := by
  intro c
  induction c with
  | nil => intro sv; rfl
  | elem n a c r _ ihr => intro sv; simp [Forest.structLoopValue, noElemValue, ihr]
  | misc t r ih => intro sv; simp [Forest.structLoopValue, ih]

theorem customField_value_eq (attrs : List Attr) (c : Forest) :
    CustomField.value {} attrs c =
      { Name := attrValue attrs "name", Value := attrValue attrs "value" } := by
  unfold CustomField.value structValue
  rw [structLoopValue_noElemValue, customField_foldl_assignAttr]

theorem detReport_value_eq (r : DetReport) (attrs : List Attr) (c : Forest) :
    DetReport.value r attrs c = attrs.foldl DetReport.assignAttr r := by
  unfold DetReport.value structValue
  rw [structLoopValue_noElemValue]

/-- The results of the parser on a document with well-nested content that is
not nested deeper than `maxUnmarshalDepth`. -/
theorem ParseDetailedReport_forest
    (detailedReport : String → String → String → List Token × Option String)
    (categoryMap : String → Option String) (username password build_id : String)
    (F : Forest) (h : detailedReport username password build_id = (F.tokens, none))
    (hdep : F.depth ≤ maxUnmarshalDepth) :
    ParseDetailedReport detailedReport categoryMap username password build_id =
      some (Outcome.returned
        ((F.scannedNamed "flaw").map
          (fun e => flawValue categoryMap (F.metadata {}) e.attrs e.children))
        ((F.scannedNamed "customfield").map
          (fun e => CustomField.value {} e.attrs e.children))
        (if F.scannedNamed "error" = [] then none
         else some "api for GetDetailedReport returned with an error element")) := by
  rw [ParseDetailedReport_fetched _ _ _ _ _ _ h, (parseDocument_forest categoryMap F hdep).2]
  simp only [Option.map_some', foldl_afterElement_flaws, foldl_afterElement_customFields,
    foldl_afterElement_errMsg, Forest.scannedNamed]
  rfl

theorem containsElement_cons (name : String) (t : Token) (l : List Token) :
    containsElement name (t :: l) =
      ((match t with
        | Token.StartElement n _ => decide (n.Local = name)
        | _ => false) || containsElement name l) := by
  simp [containsElement]

theorem containsElement_suffix (name : String) (l1 l2 : List Token) (hs : l1 <:+ l2)
    (h : containsElement name l2 = false) : containsElement name l1 = false := by
  unfold containsElement at h ⊢
  rw [List.any_eq_false] at h ⊢
  exact fun x hx => h x (hs.subset hx)

theorem startElementCase_errMsg (categoryMap : String → Option String) (detRep : DetReport)
    (fuel : Nat) (st st1 : Findings) (n : Name) (a : List Attr) (d1 d2 : Decoder)
    (hn : ¬ n.Local = "error")
    (h : startElementCase categoryMap detRep fuel st n a d1 = some (st1, d2)) :
    st1.errMsg = st.errMsg := by
  by_cases hf : n.Local = "flaw"
  · rw [startElementCase_flaw _ _ _ _ _ _ _ hf] at h
    cases hb : flawBlock categoryMap detRep fuel a d1 with
    | none => simp [hb] at h
    | some r => simp [hb] at h; rw [← h.1]
  · by_cases hc : n.Local = "customfield"
    · rw [startElementCase_customfield _ _ _ _ _ _ _ hc] at h
      cases hb : customFieldBlock fuel a d1 with
      | none => simp [hb] at h
      | some r => simp [hb] at h; rw [← h.1]
    · rw [startElementCase_other _ _ _ _ _ _ _ hn hf hc] at h
      simp at h
      rw [h.1]

theorem findingsScan_errMsg (categoryMap : String → Option String) (detRep : DetReport) :
    ∀ (fuel : Nat) (st : Findings) (d : Decoder), d.input.length < fuel →
    containsElement "error" d.input = false →
    ∃ st1, findingsScan categoryMap detRep fuel st d = some st1 ∧ st1.errMsg = st.errMsg := by
  intro fuel
  induction fuel with
  | zero => intro _ d h; omega
  | succ fuel ih =>
    intro st d h hc
    rcases d.Token_cases with ⟨d1, ht, hs⟩ | ⟨t, d1, ht, hi⟩
    · exact ⟨st, by simp [findingsScan, ht], rfl⟩
    · have hl : d1.input.length < fuel := by rw [hi] at h; simpa using h
      rw [hi, containsElement_cons, Bool.or_eq_false_iff] at hc
      cases t with
      | StartElement n a =>
        have hn : ¬ n.Local = "error" := by simpa using hc.1
        obtain ⟨st1, d2, h2, hs2⟩ := startElementCase_total categoryMap detRep fuel st n a d1 hl
        obtain ⟨st3, h3, he3⟩ := ih st1 d2 (suffix_length_lt hs2 hl)
          (containsElement_suffix _ _ _ hs2 hc.2)
        exact ⟨st3, by simp [findingsScan, ht, h2, h3],
          he3.trans (startElementCase_errMsg _ _ _ _ _ _ _ _ _ hn h2)⟩
      | EndElement n =>
        obtain ⟨st3, h3, he3⟩ := ih st d1 hl hc.2
        exact ⟨st3, by simp [findingsScan, ht, h3], he3⟩
      | CharData s =>
        obtain ⟨st3, h3, he3⟩ := ih st d1 hl hc.2
        exact ⟨st3, by simp [findingsScan, ht, h3], he3⟩
      | Comment s =>
        obtain ⟨st3, h3, he3⟩ := ih st d1 hl hc.2
        exact ⟨st3, by simp [findingsScan, ht, h3], he3⟩
      | ProcInst s i =>
        obtain ⟨st3, h3, he3⟩ := ih st d1 hl hc.2
        exact ⟨st3, by simp [findingsScan, ht, h3], he3⟩
      | Directive s =>
        obtain ⟨st3, h3, he3⟩ := ih st d1 hl hc.2
        exact ⟨st3, by simp [findingsScan, ht, h3], he3⟩

/-! ## What every returned flaw satisfies -/

theorem flawBlock_fields (categoryMap : String → Option String) (detRep : DetReport)
    (fuel : Nat) (a : List Attr) (d d1 : Decoder) (flaw : Flaw)
    (h : flawBlock categoryMap detRep fuel a d = some (flaw, d1)) :
    flaw.CategoryName = (categoryMap flaw.CategoryID).getD "" ∧
    flaw.PolicyName = detRep.PolicyName := by
  unfold flawBlock DecodeElement at h
  cases hu : unmarshalFlaw fuel {} a d with
  | none => simp [hu] at h
  | some x =>
    obtain ⟨f0, e, d2⟩ := x
    simp [hu] at h
    rw [← h.1]
    exact ⟨rfl, rfl⟩

theorem startElementCase_flaws (categoryMap : String → Option String) (detRep : DetReport)
    (fuel : Nat) (st st1 : Findings) (n : Name) (a : List Attr) (d1 d2 : Decoder)
    (h : startElementCase categoryMap detRep fuel st n a d1 = some (st1, d2)) :
    st1.flaws = st.flaws ∨
      ∃ flaw d3, flawBlock categoryMap detRep fuel a d1 = some (flaw, d3) ∧
        st1.flaws = st.flaws ++ [flaw] := by
  by_cases hf : n.Local = "flaw"
  · rw [startElementCase_flaw _ _ _ _ _ _ _ hf] at h
    cases hb : flawBlock categoryMap detRep fuel a d1 with
    | none => simp [hb] at h
    | some r =>
      simp [hb] at h
      right
      exact ⟨r.1, r.2, rfl, by rw [← h.1]⟩
  · left
    by_cases hc : n.Local = "customfield"
    · rw [startElementCase_customfield _ _ _ _ _ _ _ hc] at h
      cases hb : customFieldBlock fuel a d1 with
      | none => simp [hb] at h
      | some r => simp [hb] at h; rw [← h.1]
    · by_cases he : n.Local = "error"
      · rw [startElementCase_error _ _ _ _ _ _ _ he] at h
        simp at h
        rw [← h.1]
      · rw [startElementCase_other _ _ _ _ _ _ _ he hf hc] at h
        simp at h
        rw [h.1]

theorem findingsScan_flaws_forall (categoryMap : String → Option String) (detRep : DetReport)
    (Q : Flaw → Prop)
    (hQ : ∀ fuel a d flaw d1, flawBlock categoryMap detRep fuel a d = some (flaw, d1) → Q flaw) :
    ∀ (fuel : Nat) (st st1 : Findings) (d : Decoder),
    findingsScan categoryMap detRep fuel st d = some st1 →
    (∀ f ∈ st.flaws, Q f) → ∀ f ∈ st1.flaws, Q f := by
  intro fuel
  induction fuel with
  | zero => intro st st1 d h; simp [findingsScan] at h
  | succ fuel ih =>
    intro st st1 d h hst
    rcases d.Token_cases with ⟨d1, ht, _⟩ | ⟨t, d1, ht, _⟩
    · simp [findingsScan, ht] at h
      rw [← h]; exact hst
    · cases t with
      | StartElement n a =>
        cases hsc : startElementCase categoryMap detRep fuel st n a d1 with
        | none => simp [findingsScan, ht, hsc] at h
        | some r =>
          obtain ⟨st2, d2⟩ := r
          simp [findingsScan, ht, hsc] at h
          refine ih st2 st1 d2 h ?_
          rcases startElementCase_flaws _ _ _ _ _ _ _ _ _ hsc with h1 | ⟨flaw, d3, hb, h1⟩
          · rw [h1]; exact hst
          · rw [h1]
            intro f hf
            rcases List.mem_append.1 hf with hf | hf
            · exact hst f hf
            · rw [List.mem_singleton.1 hf]; exact hQ _ _ _ _ _ hb
      | EndElement n => simp [findingsScan, ht] at h; exact ih st st1 d1 h hst
      | CharData s => simp [findingsScan, ht] at h; exact ih st st1 d1 h hst
      | Comment s => simp [findingsScan, ht] at h; exact ih st st1 d1 h hst
      | ProcInst s i => simp [findingsScan, ht] at h; exact ih st st1 d1 h hst
      | Directive s => simp [findingsScan, ht] at h; exact ih st st1 d1 h hst

/-- Every flaw that the parser returns has the category name of the table and
the policy name that the metadata scan found. -/
theorem parseDocument_flaws (categoryMap : String → Option String) (doc : List Token)
    (st : Findings) (h : parseDocument categoryMap doc = some st) :
    ∃ detRep, metadataScan (doc.length + 1) {} (NewDecoder doc) = some detRep ∧
      ∀ f ∈ st.flaws, f.CategoryName = (categoryMap f.CategoryID).getD "" ∧
        f.PolicyName = detRep.PolicyName := by
  obtain ⟨detRep, st1, hm, hf, hp⟩ := parseDocument_isSome categoryMap doc
  rw [h] at hp
  cases hp
  exact ⟨detRep, hm, findingsScan_flaws_forall categoryMap detRep _
    (fun fuel a d flaw d1 hb => flawBlock_fields _ _ _ _ _ _ _ hb) _ _ _ _ hf
    (by simp)⟩

/-! ## The category table only decides the category names -/

theorem flawBlock_categoryMap (categoryMap categoryMap1 : String → Option String)
    (detRep : DetReport) (fuel : Nat) (a : List Attr) (d : Decoder) :
    flawBlock categoryMap1 detRep fuel a d =
      (flawBlock categoryMap detRep fuel a d).map
        (fun x => (x.1.withCategoryName categoryMap1, x.2)) := by
  unfold flawBlock DecodeElement
  cases unmarshalFlaw fuel {} a d with
  | none => rfl
  | some x => rfl

theorem startElementCase_categoryMap (categoryMap categoryMap1 : String → Option String)
    (detRep : DetReport) (fuel : Nat) (st : Findings) (n : Name) (a : List Attr) (d : Decoder) :
    startElementCase categoryMap1 detRep fuel (st.withCategoryNames categoryMap1) n a d =
      (startElementCase categoryMap detRep fuel st n a d).map
        (fun x => (x.1.withCategoryNames categoryMap1, x.2)) := by
  by_cases hf : n.Local = "flaw"
  · rw [startElementCase_flaw _ _ _ _ _ _ _ hf, startElementCase_flaw _ _ _ _ _ _ _ hf,
      flawBlock_categoryMap categoryMap categoryMap1]
    cases flawBlock categoryMap detRep fuel a d with
    | none => rfl
    | some x => simp [Findings.withCategoryNames]
  · by_cases hc : n.Local = "customfield"
    · rw [startElementCase_customfield _ _ _ _ _ _ _ hc,
        startElementCase_customfield _ _ _ _ _ _ _ hc]
      cases customFieldBlock fuel a d with
      | none => rfl
      | some x => simp [Findings.withCategoryNames]
    · by_cases he : n.Local = "error"
      · rw [startElementCase_error _ _ _ _ _ _ _ he, startElementCase_error _ _ _ _ _ _ _ he]
        simp [Findings.withCategoryNames]
      · rw [startElementCase_other _ _ _ _ _ _ _ he hf hc,
          startElementCase_other _ _ _ _ _ _ _ he hf hc]
        simp

theorem findingsScan_categoryMap (categoryMap categoryMap1 : String → Option String)
    (detRep : DetReport) :
    ∀ (fuel : Nat) (st : Findings) (d : Decoder),
    findingsScan categoryMap1 detRep fuel (st.withCategoryNames categoryMap1) d =
      (findingsScan categoryMap detRep fuel st d).map
        (fun x => x.withCategoryNames categoryMap1) := by
  intro fuel
  induction fuel with
  | zero => intro st d; rfl
  | succ fuel ih =>
    intro st d
    rcases d.Token_cases with ⟨d1, ht, _⟩ | ⟨t, d1, ht, _⟩
    · simp [findingsScan, ht]
    · cases t with
      | StartElement n a =>
        simp only [findingsScan, ht]
        rw [startElementCase_categoryMap categoryMap categoryMap1]
        cases startElementCase categoryMap detRep fuel st n a d1 with
        | none => rfl
        | some r => simp [ih]
      | EndElement n => simp [findingsScan, ht, ih]
      | CharData s => simp [findingsScan, ht, ih]
      | Comment s => simp [findingsScan, ht, ih]
      | ProcInst s i => simp [findingsScan, ht, ih]
      | Directive s => simp [findingsScan, ht, ih]

theorem parseDocument_categoryMap (categoryMap categoryMap1 : String → Option String)
    (doc : List Token) :
    parseDocument categoryMap1 doc =
      (parseDocument categoryMap doc).map (fun x => x.withCategoryNames categoryMap1) := by
  unfold parseDocument
  simp only []
  cases metadataScan (doc.length + 1) {} (NewDecoder doc) with
  | none => rfl
  | some detRep =>
    simp only []
    rw [← findingsScan_categoryMap categoryMap categoryMap1]
    rfl

/-! ## The attribute fields of a decoded flaw -/

theorem attrValue_absent (attrs : List Attr) (name : String)
    (h : ∀ a ∈ attrs, a.Name.Local ≠ name) : attrValue attrs name = "" := by
  unfold attrValue
  have : attrs.reverse.find? (fun a => decide (a.Name.Local = name)) = none := by
    rw [List.find?_eq_none]
    intro a ha
    simpa using h a (List.mem_reverse.1 ha)
  rw [this]

theorem attrValue_present (pre post : List Attr) (a : Attr) (name : String)
    (ha : a.Name.Local = name) (h : ∀ b ∈ post, b.Name.Local ≠ name) :
    attrValue (pre ++ a :: post) name = a.Value := by
  induction post using List.reverseRecOn with
  | nil => rw [attrValue_concat, if_pos ha]
  | append_singleton post b ih =>
    have hb : ¬ b.Name.Local = name := h b (by simp)
    have : pre ++ a :: (post ++ [b]) = (pre ++ a :: post) ++ [b] := by simp
    rw [this, attrValue_concat, if_neg hb]
    exact ih (fun c hc => h c (by simp [hc]))

/-! ## The policy name -/

theorem Forest.metadata_no_roots : ∀ (F : Forest) (detRep : DetReport),
    F.roots = [] → F.metadata detRep = detRep := by
  intro F
  induction F with
  | nil => intro _ _; rfl
  | elem n a c r _ _ => intro _ h; simp [Forest.roots] at h
  | misc t r ih => intro detRep h; exact ih detRep h

theorem Forest.metadata_root : ∀ (F : Forest) (detRep : DetReport) (root : Element),
    F.roots = [root] → root.name.Local = "detailedreport" →
    F.metadata detRep = root.attrs.foldl DetReport.assignAttr detRep := by
  intro F
  induction F with
  | nil => intro _ _ h; simp [Forest.roots] at h
  | elem n a c r _ _ =>
    intro detRep root h hn
    simp only [Forest.roots, List.cons.injEq] at h
    obtain ⟨h1, h2⟩ := h
    subst h1
    simp only at hn
    simp only [Forest.metadata, hn, if_true]
    rw [Forest.metadata_no_roots r _ h2, detReport_value_eq]
  | misc t r ih => intro detRep root h hn; exact ih detRep root h hn

/-- The policy name that the metadata scan finds in a well-formed document
whose root element is `detailedreport`. -/
theorem metadata_PolicyName (F : Forest) (root : Element) (hroot : F.roots = [root])
    (hname : root.name.Local = "detailedreport") :
    (F.metadata {}).PolicyName = attrValue root.attrs "policy_name" := by
  rw [Forest.metadata_root F {} root hroot hname]
  exact DetReport.foldl_assignAttr_PolicyName {} rfl root.attrs

/-- The struct loop on well-nested content none of whose children is mapped to
a field: every child is skipped, however deep the content is nested. -/
theorem unmarshalStructLoop_skipAll {α : Type}
    (elemField : String → Option (Nat → α → List Attr → Decoder → Option (α × Bool × Decoder))) :
    ∀ (c : Forest) (fuel : Nat) (sv : α) (n : Name) (rest : List Token) (stk : List Name),
    (∀ e ∈ c.roots, elemField e.name.Local = none) →
    c.tokens.length + rest.length + 1 < fuel →
    unmarshalStructLoop elemField fuel sv ⟨c.tokens ++ Token.EndElement n :: rest, n :: stk⟩ =
      some (sv, false, ⟨rest, stk⟩) := by
  intro c
  induction c with
  | nil =>
    intro fuel sv n rest stk _ h
    cases fuel with
    | zero => omega
    | succ fuel =>
      simp only [Forest.tokens, List.nil_append]
      rw [unmarshalStructLoop, token_end]
  | elem m a c r _ ihr =>
    intro fuel sv n rest stk hnone h
    rw [Forest.tokens_elem_append]
    cases fuel with
    | zero => omega
    | succ fuel =>
      have hlen : c.tokens.length + (r.tokens ++ Token.EndElement n :: rest).length + 1 < fuel := by
        simp only [Forest.tokens, List.length_cons, List.length_append] at h ⊢; omega
      have hr : r.tokens.length + rest.length + 1 < fuel := by
        simp only [Forest.tokens, List.length_cons, List.length_append] at h ⊢; omega
      have hm : elemField m.Local = none := hnone ⟨m, a, c⟩ (by simp [Forest.roots])
      rw [unmarshalStructLoop, token_start]
      simp only [hm]
      rw [skip_elem c fuel m _ _ hlen]
      exact ihr fuel sv n rest stk (fun e he => hnone e (by simp [Forest.roots, he])) hr
  | misc t r ih =>
    intro fuel sv n rest stk hnone h
    rw [Forest.tokens_misc_append]
    cases fuel with
    | zero => omega
    | succ fuel =>
      have hr : r.tokens.length + rest.length + 1 < fuel := by
        simp only [Forest.tokens, List.length_cons, List.length_append] at h ⊢; omega
      have hs : unmarshalStructLoop elemField (fuel + 1) sv
          ⟨t.toToken :: (r.tokens ++ Token.EndElement n :: rest), n :: stk⟩ =
          unmarshalStructLoop elemField fuel sv
            ⟨r.tokens ++ Token.EndElement n :: rest, n :: stk⟩ := by
        cases t <;> rfl
      rw [hs]
      exact ih fuel sv n rest stk (fun e he => hnone e (by simpa [Forest.roots] using he)) hr

/-- An element that has fewer than `maxUnmarshalDepth` open ancestors is decoded
into a struct without element fields, however deep its content is nested. -/
theorem unmarshalStruct_noElemField {α : Type} (assignAttr : α → Attr → α) (fuel : Nat)
    (sv : α) (attrs : List Attr) (c : Forest) (n : Name) (rest : List Token) (stk : List Name)
    (h : c.tokens.length + rest.length + 1 < fuel) (hd : stk.length < maxUnmarshalDepth) :
    unmarshalStruct assignAttr noElemField fuel sv attrs
        ⟨c.tokens ++ Token.EndElement n :: rest, n :: stk⟩ =
      some (attrs.foldl assignAttr sv, false, ⟨rest, stk⟩) := by
  unfold unmarshalStruct
  rw [if_neg (by simp only [List.length_cons]; omega)]
  exact unmarshalStructLoop_skipAll noElemField c fuel _ n rest stk (fun _ _ => rfl) h

theorem metadataScan_no_roots : ∀ (F : Forest) (fuel : Nat) (detRep : DetReport)
    (stk : List Name), F.roots = [] → F.tokens.length < fuel →
    metadataScan fuel detRep ⟨F.tokens, stk⟩ = some detRep := by
  intro F
  induction F with
  | nil =>
    intro fuel detRep stk _ h
    cases fuel with
    | zero => omega
    | succ fuel => rfl
  | elem n a c r _ _ => intro _ _ _ h; simp [Forest.roots] at h
  | misc t r ih =>
    intro fuel detRep stk hroots h
    cases fuel with
    | zero => omega
    | succ fuel =>
      have h1 : r.tokens.length < fuel := by simpa [Forest.tokens] using h
      rw [Forest.tokens, metadataScan_misc fuel detRep _ ⟨r.tokens, stk⟩ t (token_misc t _ stk)]
      exact ih fuel detRep stk hroots h1

/-- The metadata scan of a well-formed document whose root element is named
`detailedreport`, however deep the document is nested: the attributes of the
root element are assigned. -/
theorem metadataScan_root : ∀ (F : Forest) (fuel : Nat) (detRep : DetReport) (root : Element),
    F.roots = [root] → root.name.Local = "detailedreport" → F.tokens.length < fuel →
    metadataScan fuel detRep ⟨F.tokens, []⟩ =
      some (root.attrs.foldl DetReport.assignAttr detRep) := by
  intro F
  induction F with
  | nil => intro _ _ _ h; simp [Forest.roots] at h
  | elem n a c r _ _ =>
    intro fuel detRep root hroots hname h
    simp only [Forest.roots, List.cons.injEq] at hroots
    obtain ⟨h1, h2⟩ := hroots
    subst h1
    simp only at hname
    cases fuel with
    | zero => omega
    | succ fuel =>
      have hc : c.tokens.length + r.tokens.length + 1 < fuel := by
        simp only [Forest.tokens, List.length_cons, List.length_append] at h; omega
      have hr : r.tokens.length < fuel := by omega
      rw [Forest.tokens, metadataScan_start fuel detRep _ _ n a (token_start n a _ [])]
      rw [if_pos hname, unmarshalDetReport,
        unmarshalStruct_noElemField _ fuel detRep a c n r.tokens [] hc (by decide)]
      exact metadataScan_no_roots r fuel _ [] h2 hr
  | misc t r ih =>
    intro fuel detRep root hroots hname h
    cases fuel with
    | zero => omega
    | succ fuel =>
      have h1 : r.tokens.length < fuel := by simpa [Forest.tokens] using h
      rw [Forest.tokens, metadataScan_misc fuel detRep _ ⟨r.tokens, []⟩ t (token_misc t _ [])]
      exact ih fuel detRep root hroots hname h1

theorem ParseDetailedReport_policyName
    (detailedReport : String → String → String → List Token × Option String)
    (categoryMap : String → Option String) (username password build_id : String)
    (F : Forest) (root : Element)
    (hfetch : detailedReport username password build_id = (F.tokens, none))
    (hroot : F.roots = [root]) (hname : root.name.Local = "detailedreport") :
    ∃ flaws customFields err,
      ParseDetailedReport detailedReport categoryMap username password build_id =
        some (Outcome.returned flaws customFields err) ∧
      ∀ f ∈ flaws, f.PolicyName = attrValue root.attrs "policy_name" := by
  obtain ⟨_, st, _, _, hp⟩ := parseDocument_isSome categoryMap F.tokens
  obtain ⟨detRep, hm, hall⟩ := parseDocument_flaws categoryMap F.tokens st hp
  rw [NewDecoder, metadataScan_root F _ {} root hroot hname (Nat.lt_succ_self _)] at hm
  refine ⟨st.flaws, st.customFields, st.errMsg, ?_, ?_⟩
  · rw [ParseDetailedReport_fetched _ _ _ _ _ _ hfetch, hp]
    rfl
  · intro f hf
    rw [(hall f hf).2, ← Option.some.inj hm]
    exact DetReport.foldl_assignAttr_PolicyName {} rfl root.attrs

/-! ## Adding an empty `error` element to a document -/

theorem added_token (t : Token) (pre post : List Token) (stk : List Name) :
    (∃ x, Decoder.Token ⟨(t :: pre) ++ post, stk⟩ = (none, x) ∧
      Decoder.Token ⟨(t :: pre) ++ emptyError ++ post, stk⟩ = (none, x) ∧ x.input = []) ∨
    (∃ stk1, Decoder.Token ⟨(t :: pre) ++ post, stk⟩ = (some t, ⟨pre ++ post, stk1⟩) ∧
      Decoder.Token ⟨(t :: pre) ++ emptyError ++ post, stk⟩ =
        (some t, ⟨pre ++ emptyError ++ post, stk1⟩)) := by
  cases t with
  | EndElement n =>
    cases stk with
    | nil => left; exact ⟨⟨[], []⟩, rfl, rfl, rfl⟩
    | cons s stk =>
      by_cases h : s = n
      · right; exact ⟨stk, by simp [Decoder.Token, h], by simp [Decoder.Token, h]⟩
      · left; exact ⟨⟨[], stk⟩, by simp [Decoder.Token, h], by simp [Decoder.Token, h], rfl⟩
  | StartElement n a => right; exact ⟨n :: stk, rfl, rfl⟩
  | CharData s => right; exact ⟨stk, rfl, rfl⟩
  | Comment s => right; exact ⟨stk, rfl, rfl⟩
  | ProcInst s i => right; exact ⟨stk, rfl, rfl⟩
  | Directive s => right; exact ⟨stk, rfl, rfl⟩

theorem skip_emptyError (fuel depth : Nat) (post : List Token) (stk : List Name) :
    Decoder.Skip (fuel + 2) depth ⟨emptyError ++ post, stk⟩ =
      Decoder.Skip fuel depth ⟨post, stk⟩ := by
  simp [emptyError, Decoder.Skip, Decoder.Token]

theorem skip_stable : ∀ (fuel fuel1 depth : Nat) (d d1 : Decoder), Related d d1 →
    d.input.length < fuel → d1.input.length < fuel1 →
    ∃ e x x1, d.Skip fuel depth = some (e, x) ∧ d1.Skip fuel1 depth = some (e, x1) ∧
      Related x x1 ∧ x.input <:+ d.input ∧ x1.input <:+ d1.input := by
  intro fuel
  induction fuel with
  | zero => intro _ _ d _ _ h; omega
  | succ fuel ih =>
    intro fuel1 depth d d1 hrel hl hl1
    rcases hrel with rfl | ⟨pre, post, hd, hd1, hs⟩
    · obtain ⟨e, x, h, hsuf⟩ := Decoder.Skip_total (fuel + 1) depth d1 hl
      exact ⟨e, x, x, h, by rw [Decoder.Skip_fuel fuel1 (fuel + 1) depth d1 hl1 hl]; exact h,
        Or.inl rfl, hsuf, hsuf⟩
    · obtain ⟨inp, stk⟩ := d
      obtain ⟨inp1, stk1⟩ := d1
      simp only at hd hd1 hs hl hl1
      subst hd hd1 hs
      cases pre with
      | nil =>
        simp only [List.nil_append] at hl hl1 ⊢
        obtain ⟨e, x, h, hsuf⟩ := Decoder.Skip_total (fuel + 1) depth ⟨post, stk1⟩ hl
        have hlen : post.length + 2 < fuel1 := by simpa [emptyError] using hl1
        obtain ⟨k, rfl⟩ : ∃ k, fuel1 = k + 2 := ⟨fuel1 - 2, by omega⟩
        refine ⟨e, x, x, h, ?_, Or.inl rfl, hsuf, hsuf.trans (List.suffix_append _ _)⟩
        rw [skip_emptyError,
          Decoder.Skip_fuel k (fuel + 1) depth ⟨post, stk1⟩ (by simp; omega) hl]
        exact h
      | cons t pre =>
        cases fuel1 with
        | zero => omega
        | succ fuel1 =>
          have hl' : (pre ++ post).length < fuel := by simpa using hl
          have hl1' : (pre ++ emptyError ++ post).length < fuel1 := by simpa using hl1
          rcases added_token t pre post stk1 with ⟨x, h1, h2, hx⟩ | ⟨stk2, h1, h2⟩
          · refine ⟨true, x, x, skip_none _ _ _ _ h1, skip_none _ _ _ _ h2,
              Or.inl rfl, ?_, ?_⟩ <;> rw [hx] <;> exact List.nil_suffix
          · have hrel : Related ⟨pre ++ post, stk2⟩ ⟨pre ++ emptyError ++ post, stk2⟩ :=
              Or.inr ⟨pre, post, rfl, rfl, rfl⟩
            have hsuf : (pre ++ post) <:+ (t :: pre) ++ post := List.suffix_cons _ _
            have hsuf1 : (pre ++ emptyError ++ post) <:+ (t :: pre) ++ emptyError ++ post :=
              List.suffix_cons _ _
            rcases token_kind t with ⟨n, a, rfl⟩ | ⟨n, rfl⟩ | ⟨m, rfl⟩
            · obtain ⟨e, x, x1, g, g1, gr, gs, gs1⟩ := ih fuel1 (depth + 1) _ _ hrel hl' hl1'
              exact ⟨e, x, x1, by rw [skip_start _ _ _ _ _ _ h1]; exact g,
                by rw [skip_start _ _ _ _ _ _ h2]; exact g1, gr, gs.trans hsuf, gs1.trans hsuf1⟩
            · by_cases hdep : depth = 0
              · exact ⟨false, _, _, by rw [skip_end _ _ _ _ _ h1, if_pos hdep],
                  by rw [skip_end _ _ _ _ _ h2, if_pos hdep], hrel, hsuf, hsuf1⟩
              · obtain ⟨e, x, x1, g, g1, gr, gs, gs1⟩ := ih fuel1 (depth - 1) _ _ hrel hl' hl1'
                exact ⟨e, x, x1, by rw [skip_end _ _ _ _ _ h1, if_neg hdep]; exact g,
                  by rw [skip_end _ _ _ _ _ h2, if_neg hdep]; exact g1, gr, gs.trans hsuf,
                  gs1.trans hsuf1⟩
            · obtain ⟨e, x, x1, g, g1, gr, gs, gs1⟩ := ih fuel1 depth _ _ hrel hl' hl1'
              exact ⟨e, x, x1, by rw [skip_misc _ _ _ _ _ h1]; exact g,
                by rw [skip_misc _ _ _ _ _ h2]; exact g1, gr, gs.trans hsuf, gs1.trans hsuf1⟩

theorem structLoop_emptyError {α : Type}
    (elemField : String → Option (Nat → α → List Attr → Decoder → Option (α × Bool × Decoder)))
    (herr : elemField "error" = none) (fuel : Nat) (sv : α) (post : List Token)
    (stk : List Name) :
    unmarshalStructLoop elemField (fuel + 2) sv ⟨emptyError ++ post, stk⟩ =
      unmarshalStructLoop elemField (fuel + 1) sv ⟨post, stk⟩ := by
  rw [structLoop_skip elemField (fuel + 1) sv ⟨emptyError ++ post, stk⟩
    ⟨Token.EndElement ⟨"", "error"⟩ :: post, ⟨"", "error"⟩ :: stk⟩ ⟨"", "error"⟩ [] rfl herr]
  simp [Decoder.Skip, Decoder.Token]

theorem unmarshalStructLoop_stable {α : Type}
    (elemField : String → Option (Nat → α → List Attr → Decoder → Option (α × Bool × Decoder)))
    (hwb : ∀ name dec, elemField name = some dec → WellBehaved dec)
    (hst : ∀ name dec, elemField name = some dec → Stable dec)
    (herr : elemField "error" = none) :
    ∀ (fuel fuel1 : Nat) (sv : α) (d d1 : Decoder), Related d d1 →
    d.input.length < fuel → d1.input.length < fuel1 →
    ∃ v1 e x x1, unmarshalStructLoop elemField fuel sv d = some (v1, e, x) ∧
      unmarshalStructLoop elemField fuel1 sv d1 = some (v1, e, x1) ∧
      Related x x1 ∧ x.input <:+ d.input ∧ x1.input <:+ d1.input := by
  intro fuel
  induction fuel with
  | zero => intro _ _ d _ _ h; omega
  | succ fuel ih =>
    intro fuel1 sv d d1 hrel hl hl1
    rcases hrel with rfl | ⟨pre, post, hd, hd1, hs⟩
    · obtain ⟨v1, e, x, h, hsuf⟩ := unmarshalStructLoop_total elemField hwb (fuel + 1) sv d1 hl
      exact ⟨v1, e, x, x, h,
        by rw [unmarshalStructLoop_fuel elemField hwb fuel1 (fuel + 1) sv d1 hl1 hl]; exact h,
        Or.inl rfl, hsuf, hsuf⟩
    · obtain ⟨inp, stk⟩ := d
      obtain ⟨inp1, stk1⟩ := d1
      simp only at hd hd1 hs hl hl1
      subst hd hd1 hs
      cases pre with
      | nil =>
        simp only [List.nil_append] at hl hl1 ⊢
        obtain ⟨v1, e, x, h, hsuf⟩ :=
          unmarshalStructLoop_total elemField hwb (fuel + 1) sv ⟨post, stk1⟩ hl
        have hlen : post.length + 2 < fuel1 := by simpa [emptyError] using hl1
        obtain ⟨k, rfl⟩ : ∃ k, fuel1 = k + 2 := ⟨fuel1 - 2, by omega⟩
        refine ⟨v1, e, x, x, h, ?_, Or.inl rfl, hsuf, hsuf.trans (List.suffix_append _ _)⟩
        rw [structLoop_emptyError elemField herr,
          unmarshalStructLoop_fuel elemField hwb (k + 1) (fuel + 1) sv ⟨post, stk1⟩
            (by simp; omega) hl]
        exact h
      | cons t pre =>
        cases fuel1 with
        | zero => omega
        | succ fuel1 =>
          have hl' : (pre ++ post).length < fuel := by simpa using hl
          have hl1' : (pre ++ emptyError ++ post).length < fuel1 := by simpa using hl1
          rcases added_token t pre post stk1 with ⟨x, h1, h2, hx⟩ | ⟨stk2, h1, h2⟩
          · refine ⟨sv, true, x, x, structLoop_none _ _ _ _ _ h1, structLoop_none _ _ _ _ _ h2,
              Or.inl rfl, ?_, ?_⟩ <;> rw [hx] <;> exact List.nil_suffix
          · have hrel : Related ⟨pre ++ post, stk2⟩ ⟨pre ++ emptyError ++ post, stk2⟩ :=
              Or.inr ⟨pre, post, rfl, rfl, rfl⟩
            have hsuf : (pre ++ post) <:+ (t :: pre) ++ post := List.suffix_cons _ _
            have hsuf1 : (pre ++ emptyError ++ post) <:+ (t :: pre) ++ emptyError ++ post :=
              List.suffix_cons _ _
            rcases token_kind t with ⟨n, a, rfl⟩ | ⟨n, rfl⟩ | ⟨m, rfl⟩
            · cases hfd : elemField n.Local with
              | some dec =>
                obtain ⟨v1, e, x, x1, g, g1, gr, gs, gs1⟩ :=
                  hst _ _ hfd fuel fuel1 sv a _ _ hrel hl' hl1'
                cases e with
                | true =>
                  exact ⟨v1, true, x, x1, by rw [structLoop_field _ _ _ _ _ _ _ _ h1 hfd, g],
                    by rw [structLoop_field _ _ _ _ _ _ _ _ h2 hfd, g1], gr, gs.trans hsuf,
                    gs1.trans hsuf1⟩
                | false =>
                  obtain ⟨v2, e2, y, y1, k, k1, kr, ks, ks1⟩ := ih fuel1 v1 x x1 gr
                    (lt_of_le_of_lt gs.length_le hl') (lt_of_le_of_lt gs1.length_le hl1')
                  exact ⟨v2, e2, y, y1,
                    by rw [structLoop_field _ _ _ _ _ _ _ _ h1 hfd, g]; exact k,
                    by rw [structLoop_field _ _ _ _ _ _ _ _ h2 hfd, g1]; exact k1, kr,
                    (ks.trans gs).trans hsuf, (ks1.trans gs1).trans hsuf1⟩
              | none =>
                obtain ⟨e, x, x1, g, g1, gr, gs, gs1⟩ :=
                  skip_stable fuel fuel1 0 _ _ hrel hl' hl1'
                cases e with
                | true =>
                  exact ⟨sv, true, x, x1, by rw [structLoop_skip _ _ _ _ _ _ _ h1 hfd, g],
                    by rw [structLoop_skip _ _ _ _ _ _ _ h2 hfd, g1], gr, gs.trans hsuf,
                    gs1.trans hsuf1⟩
                | false =>
                  obtain ⟨v2, e2, y, y1, k, k1, kr, ks, ks1⟩ := ih fuel1 sv x x1 gr
                    (lt_of_le_of_lt gs.length_le hl') (lt_of_le_of_lt gs1.length_le hl1')
                  exact ⟨v2, e2, y, y1,
                    by rw [structLoop_skip _ _ _ _ _ _ _ h1 hfd, g]; exact k,
                    by rw [structLoop_skip _ _ _ _ _ _ _ h2 hfd, g1]; exact k1, kr,
                    (ks.trans gs).trans hsuf, (ks1.trans gs1).trans hsuf1⟩
            · exact ⟨sv, false, _, _, structLoop_end _ _ _ _ _ _ h1,
                structLoop_end _ _ _ _ _ _ h2, hrel, hsuf, hsuf1⟩
            · obtain ⟨v2, e2, y, y1, k, k1, kr, ks, ks1⟩ := ih fuel1 sv _ _ hrel hl' hl1'
              exact ⟨v2, e2, y, y1, by rw [structLoop_misc _ _ _ _ _ _ h1]; exact k,
                by rw [structLoop_misc _ _ _ _ _ _ h2]; exact k1, kr, ks.trans hsuf,
                ks1.trans hsuf1⟩

theorem unmarshalStruct_stable {α : Type} (assignAttr : α → Attr → α)
    (elemField : String → Option (Nat → α → List Attr → Decoder → Option (α × Bool × Decoder)))
    (hwb : ∀ name dec, elemField name = some dec → WellBehaved dec)
    (hst : ∀ name dec, elemField name = some dec → Stable dec)
    (herr : elemField "error" = none) :
    Stable (unmarshalStruct assignAttr elemField) := by
  intro fuel fuel1 v attrs d d1 hrel hl hl1
  have hstk : d1.stk = d.stk := by
    rcases hrel with h | ⟨_, _, _, _, h⟩
    · rw [h]
    · exact h
  unfold unmarshalStruct
  rw [hstk]
  by_cases hd : maxUnmarshalDepth < d.stk.length
  · rw [if_pos hd, if_pos hd]
    exact ⟨v, true, d, d1, rfl, rfl, hrel, List.suffix_refl _, List.suffix_refl _⟩
  · rw [if_neg hd, if_neg hd]
    exact unmarshalStructLoop_stable elemField hwb hst herr fuel fuel1 _ d d1 hrel hl hl1

theorem stringLoop_emptyError (fuel : Nat) (data : String) (post : List Token)
    (stk : List Name) :
    unmarshalStringLoop (fuel + 2) data ⟨emptyError ++ post, stk⟩ =
      unmarshalStringLoop (fuel + 1) data ⟨post, stk⟩ := by
  rw [stringLoop_start (fuel + 1) data ⟨emptyError ++ post, stk⟩
    ⟨Token.EndElement ⟨"", "error"⟩ :: post, ⟨"", "error"⟩ :: stk⟩ ⟨"", "error"⟩ [] rfl]
  simp [Decoder.Skip, Decoder.Token]

theorem unmarshalStringLoop_stable :
    ∀ (fuel fuel1 : Nat) (data : String) (d d1 : Decoder), Related d d1 →
    d.input.length < fuel → d1.input.length < fuel1 →
    ∃ v1 e x x1, unmarshalStringLoop fuel data d = some (v1, e, x) ∧
      unmarshalStringLoop fuel1 data d1 = some (v1, e, x1) ∧
      Related x x1 ∧ x.input <:+ d.input ∧ x1.input <:+ d1.input := by
  intro fuel
  induction fuel with
  | zero => intro _ _ d _ _ h; omega
  | succ fuel ih =>
    intro fuel1 data d d1 hrel hl hl1
    rcases hrel with rfl | ⟨pre, post, hd, hd1, hs⟩
    · obtain ⟨v1, e, x, h, hsuf⟩ := unmarshalStringLoop_total (fuel + 1) data d1 hl
      exact ⟨v1, e, x, x, h,
        by rw [unmarshalStringLoop_fuel fuel1 (fuel + 1) data d1 hl1 hl]; exact h,
        Or.inl rfl, hsuf, hsuf⟩
    · obtain ⟨inp, stk⟩ := d
      obtain ⟨inp1, stk1⟩ := d1
      simp only at hd hd1 hs hl hl1
      subst hd hd1 hs
      cases pre with
      | nil =>
        simp only [List.nil_append] at hl hl1 ⊢
        obtain ⟨v1, e, x, h, hsuf⟩ :=
          unmarshalStringLoop_total (fuel + 1) data ⟨post, stk1⟩ hl
        have hlen : post.length + 2 < fuel1 := by simpa [emptyError] using hl1
        obtain ⟨k, rfl⟩ : ∃ k, fuel1 = k + 2 := ⟨fuel1 - 2, by omega⟩
        refine ⟨v1, e, x, x, h, ?_, Or.inl rfl, hsuf, hsuf.trans (List.suffix_append _ _)⟩
        rw [stringLoop_emptyError,
          unmarshalStringLoop_fuel (k + 1) (fuel + 1) data ⟨post, stk1⟩ (by simp; omega) hl]
        exact h
      | cons t pre =>
        cases fuel1 with
        | zero => omega
        | succ fuel1 =>
          have hl' : (pre ++ post).length < fuel := by simpa using hl
          have hl1' : (pre ++ emptyError ++ post).length < fuel1 := by simpa using hl1
          rcases added_token t pre post stk1 with ⟨x, h1, h2, hx⟩ | ⟨stk2, h1, h2⟩
          · refine ⟨data, true, x, x, stringLoop_none _ _ _ _ h1, stringLoop_none _ _ _ _ h2,
              Or.inl rfl, ?_, ?_⟩ <;> rw [hx] <;> exact List.nil_suffix
          · have hrel : Related ⟨pre ++ post, stk2⟩ ⟨pre ++ emptyError ++ post, stk2⟩ :=
              Or.inr ⟨pre, post, rfl, rfl, rfl⟩
            have hsuf : (pre ++ post) <:+ (t :: pre) ++ post := List.suffix_cons _ _
            have hsuf1 : (pre ++ emptyError ++ post) <:+ (t :: pre) ++ emptyError ++ post :=
              List.suffix_cons _ _
            rcases token_kind t with ⟨n, a, rfl⟩ | ⟨n, rfl⟩ | ⟨m, rfl⟩
            · obtain ⟨e, x, x1, g, g1, gr, gs, gs1⟩ :=
                skip_stable fuel fuel1 0 _ _ hrel hl' hl1'
              cases e with
              | true =>
                exact ⟨data, true, x, x1, by rw [stringLoop_start _ _ _ _ _ _ h1, g],
                  by rw [stringLoop_start _ _ _ _ _ _ h2, g1], gr, gs.trans hsuf,
                  gs1.trans hsuf1⟩
              | false =>
                obtain ⟨v2, e2, y, y1, k, k1, kr, ks, ks1⟩ := ih fuel1 data x x1 gr
                  (lt_of_le_of_lt gs.length_le hl') (lt_of_le_of_lt gs1.length_le hl1')
                exact ⟨v2, e2, y, y1,
                  by rw [stringLoop_start _ _ _ _ _ _ h1, g]; exact k,
                  by rw [stringLoop_start _ _ _ _ _ _ h2, g1]; exact k1, kr,
                  (ks.trans gs).trans hsuf, (ks1.trans gs1).trans hsuf1⟩
            · exact ⟨data, false, _, _, stringLoop_end _ _ _ _ _ h1,
                stringLoop_end _ _ _ _ _ h2, hrel, hsuf, hsuf1⟩
            · obtain ⟨v2, e2, y, y1, k, k1, kr, ks, ks1⟩ := ih fuel1 _ _ _ hrel hl' hl1'
              exact ⟨v2, e2, y, y1, by rw [stringLoop_misc _ _ _ _ _ h1]; exact k,
                by rw [stringLoop_misc _ _ _ _ _ h2]; exact k1, kr, ks.trans hsuf,
                ks1.trans hsuf1⟩

theorem unmarshalString_stable : Stable unmarshalString := by
  intro fuel fuel1 v attrs d d1 hrel hl hl1
  have hstk : d1.stk = d.stk := by
    rcases hrel with h | ⟨_, _, _, _, h⟩
    · rw [h]
    · exact h
  unfold unmarshalString
  rw [hstk]
  by_cases hd : maxUnmarshalDepth < d.stk.length
  · rw [if_pos hd, if_pos hd]
    exact ⟨v, true, d, d1, rfl, rfl, hrel, List.suffix_refl _, List.suffix_refl _⟩
  · rw [if_neg hd, if_neg hd]
    obtain ⟨v1, e, x, x1, g, g1, gr, gs, gs1⟩ :=
      unmarshalStringLoop_stable fuel fuel1 "" d d1 hrel hl hl1
    cases e with
    | true => exact ⟨v, true, x, x1, by simp [g], by simp [g1], gr, gs, gs1⟩
    | false => exact ⟨v1, false, x, x1, by simp [g], by simp [g1], gr, gs, gs1⟩

theorem unmarshalSlice_stable {β : Type} (zero : β)
    (dec : Nat → β → List Attr → Decoder → Option (β × Bool × Decoder))
    (hd : Stable dec) : Stable (unmarshalSlice zero dec) := by
  intro fuel fuel1 v attrs d d1 hrel hl hl1
  obtain ⟨v1, e, x, x1, g, g1, gr, gs, gs1⟩ := hd fuel fuel1 zero attrs d d1 hrel hl hl1
  cases e with
  | true =>
    exact ⟨v, true, x, x1, by simp [unmarshalSlice, g], by simp [unmarshalSlice, g1], gr, gs,
      gs1⟩
  | false =>
    exact ⟨v ++ [v1], false, x, x1, by simp [unmarshalSlice, g], by simp [unmarshalSlice, g1],
      gr, gs, gs1⟩

theorem onField_stable {α β : Type} (get : α → β) (set : α → β → α)
    (dec : Nat → β → List Attr → Decoder → Option (β × Bool × Decoder))
    (hd : Stable dec) : Stable (onField get set dec) := by
  intro fuel fuel1 v attrs d d1 hrel hl hl1
  obtain ⟨v1, e, x, x1, g, g1, gr, gs, gs1⟩ := hd fuel fuel1 (get v) attrs d d1 hrel hl hl1
  exact ⟨set v v1, e, x, x1, by simp [onField, g], by simp [onField, g1], gr, gs, gs1⟩

theorem noElemField_stable {α : Type} :
    ∀ (name : String) (dec : Nat → α → List Attr → Decoder → Option (α × Bool × Decoder)),
    noElemField name = some dec → Stable dec := by
  intro name dec h
  simp [noElemField] at h

theorem unmarshalDetReport_stable : Stable unmarshalDetReport :=
  unmarshalStruct_stable _ _ noElemField_wellBehaved noElemField_stable rfl

theorem unmarshalCustomField_stable : Stable unmarshalCustomField :=
  unmarshalStruct_stable _ _ noElemField_wellBehaved noElemField_stable rfl

theorem unmarshalMitigation_stable : Stable unmarshalMitigation :=
  unmarshalStruct_stable _ _ noElemField_wellBehaved noElemField_stable rfl

theorem unmarshalAnnotation_stable : Stable unmarshalAnnotation :=
  unmarshalStruct_stable _ _ noElemField_wellBehaved noElemField_stable rfl

theorem mitigationsElemField_stable :
    ∀ (name : String)
      (dec : Nat → Mitigations → List Attr → Decoder → Option (Mitigations × Bool × Decoder)),
    Mitigations.elemField name = some dec → Stable dec := by
  intro name dec h
  unfold Mitigations.elemField at h
  split at h
  · cases h
    exact onField_stable _ _ _ (unmarshalSlice_stable _ _ unmarshalMitigation_stable)
  · cases h

theorem annotationsElemField_stable :
    ∀ (name : String)
      (dec : Nat → Annotations → List Attr → Decoder → Option (Annotations × Bool × Decoder)),
    Annotations.elemField name = some dec → Stable dec := by
  intro name dec h
  unfold Annotations.elemField at h
  split at h
  · cases h
    exact onField_stable _ _ _ (unmarshalSlice_stable _ _ unmarshalAnnotation_stable)
  · cases h

theorem unmarshalMitigations_stable : Stable unmarshalMitigations :=
  unmarshalStruct_stable _ _ mitigationsElemField_wellBehaved mitigationsElemField_stable
    (by simp [Mitigations.elemField])

theorem unmarshalAnnotations_stable : Stable unmarshalAnnotations :=
  unmarshalStruct_stable _ _ annotationsElemField_wellBehaved annotationsElemField_stable
    (by simp [Annotations.elemField])

theorem flawElemField_stable :
    ∀ (name : String) (dec : Nat → Flaw → List Attr → Decoder → Option (Flaw × Bool × Decoder)),
    Flaw.elemField name = some dec → Stable dec := by
  intro name dec h
  unfold Flaw.elemField at h
  split at h
  · cases h; exact onField_stable _ _ _ unmarshalString_stable
  · split at h
    · cases h; exact onField_stable _ _ _ unmarshalString_stable
    · split at h
      · cases h; exact onField_stable _ _ _ unmarshalMitigations_stable
      · split at h
        · cases h; exact onField_stable _ _ _ unmarshalAnnotations_stable
        · cases h

theorem unmarshalFlaw_stable : Stable unmarshalFlaw :=
  unmarshalStruct_stable _ _ flawElemField_wellBehaved flawElemField_stable
    (by simp [Flaw.elemField])

theorem metadataScan_emptyError (fuel : Nat) (detRep : DetReport) (post : List Token)
    (stk : List Name) :
    metadataScan (fuel + 2) detRep ⟨emptyError ++ post, stk⟩ =
      metadataScan fuel detRep ⟨post, stk⟩ := by
  simp [emptyError, metadataScan, Decoder.Token]

theorem metadataScan_stable :
    ∀ (fuel fuel1 : Nat) (detRep : DetReport) (d d1 : Decoder), Related d d1 →
    d.input.length < fuel → d1.input.length < fuel1 →
    ∃ r, metadataScan fuel detRep d = some r ∧ metadataScan fuel1 detRep d1 = some r := by
  intro fuel
  induction fuel with
  | zero => intro _ _ d _ _ h; omega
  | succ fuel ih =>
    intro fuel1 detRep d d1 hrel hl hl1
    rcases hrel with rfl | ⟨pre, post, hd, hd1, hs⟩
    · obtain ⟨r, h⟩ := metadataScan_total (fuel + 1) detRep d1 hl
      exact ⟨r, h, by rw [metadataScan_fuel fuel1 (fuel + 1) detRep d1 hl1 hl]; exact h⟩
    · obtain ⟨inp, stk⟩ := d
      obtain ⟨inp1, stk1⟩ := d1
      simp only at hd hd1 hs hl hl1
      subst hd hd1 hs
      cases pre with
      | nil =>
        simp only [List.nil_append] at hl hl1 ⊢
        obtain ⟨r, h⟩ := metadataScan_total (fuel + 1) detRep ⟨post, stk1⟩ hl
        have hlen : post.length + 2 < fuel1 := by simpa [emptyError] using hl1
        obtain ⟨k, rfl⟩ : ∃ k, fuel1 = k + 2 := ⟨fuel1 - 2, by omega⟩
        refine ⟨r, h, ?_⟩
        rw [metadataScan_emptyError,
          metadataScan_fuel k (fuel + 1) detRep ⟨post, stk1⟩ (by simp; omega) hl]
        exact h
      | cons t pre =>
        cases fuel1 with
        | zero => omega
        | succ fuel1 =>
          have hl' : (pre ++ post).length < fuel := by simpa using hl
          have hl1' : (pre ++ emptyError ++ post).length < fuel1 := by simpa using hl1
          rcases added_token t pre post stk1 with ⟨x, h1, h2, hx⟩ | ⟨stk2, h1, h2⟩
          · exact ⟨detRep, metadataScan_none _ _ _ _ h1, metadataScan_none _ _ _ _ h2⟩
          · have hrel : Related ⟨pre ++ post, stk2⟩ ⟨pre ++ emptyError ++ post, stk2⟩ :=
              Or.inr ⟨pre, post, rfl, rfl, rfl⟩
            rcases token_kind t with ⟨n, a, rfl⟩ | ⟨n, rfl⟩ | ⟨m, rfl⟩
            · rw [metadataScan_start _ _ _ _ _ _ h1, metadataScan_start _ _ _ _ _ _ h2]
              by_cases hn : n.Local = "detailedreport"
              · obtain ⟨v1, e, x, x1, g, g1, gr, gs, gs1⟩ :=
                  unmarshalDetReport_stable fuel fuel1 detRep a _ _ hrel hl' hl1'
                obtain ⟨r, k, k1⟩ := ih fuel1 v1 x x1 gr
                  (lt_of_le_of_lt gs.length_le hl') (lt_of_le_of_lt gs1.length_le hl1')
                exact ⟨r, by rw [if_pos hn, g]; exact k, by rw [if_pos hn, g1]; exact k1⟩
              · obtain ⟨r, k, k1⟩ := ih fuel1 detRep _ _ hrel hl' hl1'
                exact ⟨r, by rw [if_neg hn]; exact k, by rw [if_neg hn]; exact k1⟩
            · obtain ⟨r, k, k1⟩ := ih fuel1 detRep _ _ hrel hl' hl1'
              exact ⟨r, by rw [metadataScan_end _ _ _ _ _ h1]; exact k,
                by rw [metadataScan_end _ _ _ _ _ h2]; exact k1⟩
            · obtain ⟨r, k, k1⟩ := ih fuel1 detRep _ _ hrel hl' hl1'
              exact ⟨r, by rw [metadataScan_misc _ _ _ _ _ h1]; exact k,
                by rw [metadataScan_misc _ _ _ _ _ h2]; exact k1⟩

theorem findingsScan_emptyError (categoryMap : String → Option String) (detRep : DetReport)
    (fuel : Nat) (st : Findings) (post : List Token) (stk : List Name) :
    findingsScan categoryMap detRep (fuel + 2) st ⟨emptyError ++ post, stk⟩ =
      findingsScan categoryMap detRep fuel
        { st with errMsg := some "api for GetDetailedReport returned with an error element" }
        ⟨post, stk⟩ := by
  rw [findingsScan_start _ _ _ _ ⟨emptyError ++ post, stk⟩
    ⟨Token.EndElement ⟨"", "error"⟩ :: post, ⟨"", "error"⟩ :: stk⟩ ⟨"", "error"⟩ [] rfl,
    startElementCase_error _ _ _ _ _ _ _ rfl]
  simp only []
  rw [findingsScan_end _ _ _ _ ⟨Token.EndElement ⟨"", "error"⟩ :: post, ⟨"", "error"⟩ :: stk⟩
    ⟨post, stk⟩ ⟨"", "error"⟩ (by simp [Decoder.Token])]

theorem startElementCase_stable (categoryMap : String → Option String) (detRep : DetReport)
    (fuel fuel1 : Nat) (st st1 : Findings) (n : Name) (a : List Attr) (d d1 : Decoder)
    (hrel : Related d d1) (hl : d.input.length < fuel) (hl1 : d1.input.length < fuel1)
    (hf : st.flaws = st1.flaws) (hc : st.customFields = st1.customFields) :
    ∃ st2 st3 x x1, startElementCase categoryMap detRep fuel st n a d = some (st2, x) ∧
      startElementCase categoryMap detRep fuel1 st1 n a d1 = some (st3, x1) ∧
      st2.flaws = st3.flaws ∧ st2.customFields = st3.customFields ∧
      Related x x1 ∧ x.input <:+ d.input ∧ x1.input <:+ d1.input := by
  by_cases hfl : n.Local = "flaw"
  · obtain ⟨v1, e, x, x1, g, g1, gr, gs, gs1⟩ :=
      unmarshalFlaw_stable fuel fuel1 {} a d d1 hrel hl hl1
    rw [startElementCase_flaw _ _ _ _ _ _ _ hfl, startElementCase_flaw _ _ _ _ _ _ _ hfl]
    refine ⟨_, _, x, x1, by simp [flawBlock, DecodeElement, g]; rfl,
      by simp [flawBlock, DecodeElement, g1]; rfl, ?_, ?_, gr, gs, gs1⟩
    · simp [hf]
    · simp [hc]
  · by_cases hcf : n.Local = "customfield"
    · obtain ⟨v1, e, x, x1, g, g1, gr, gs, gs1⟩ :=
        unmarshalCustomField_stable fuel fuel1 {} a d d1 hrel hl hl1
      rw [startElementCase_customfield _ _ _ _ _ _ _ hcf,
        startElementCase_customfield _ _ _ _ _ _ _ hcf]
      refine ⟨_, _, x, x1, by simp [customFieldBlock, DecodeElement, g]; rfl,
        by simp [customFieldBlock, DecodeElement, g1]; rfl, ?_, ?_, gr, gs, gs1⟩
      · simp [hf]
      · simp [hc]
    · by_cases he : n.Local = "error"
      · rw [startElementCase_error _ _ _ _ _ _ _ he, startElementCase_error _ _ _ _ _ _ _ he]
        exact ⟨_, _, d, d1, rfl, rfl, hf, hc, hrel, List.suffix_refl _, List.suffix_refl _⟩
      · rw [startElementCase_other _ _ _ _ _ _ _ he hfl hcf,
          startElementCase_other _ _ _ _ _ _ _ he hfl hcf]
        exact ⟨_, _, d, d1, rfl, rfl, hf, hc, hrel, List.suffix_refl _, List.suffix_refl _⟩

theorem findingsScan_stable (categoryMap : String → Option String) (detRep : DetReport) :
    ∀ (fuel fuel1 : Nat) (st st1 : Findings) (d d1 : Decoder), Related d d1 →
    d.input.length < fuel → d1.input.length < fuel1 →
    st.flaws = st1.flaws → st.customFields = st1.customFields →
    ∃ r r1, findingsScan categoryMap detRep fuel st d = some r ∧
      findingsScan categoryMap detRep fuel1 st1 d1 = some r1 ∧
      r.flaws = r1.flaws ∧ r.customFields = r1.customFields := by
  intro fuel
  induction fuel with
  | zero => intro _ _ _ d _ _ h; omega
  | succ fuel ih =>
    -- one iteration on both sides, on the same token
    have hstep : ∀ (fuel1 : Nat) (st st1 : Findings) (t : Token) (d d1 x x1 : Decoder),
        d.Token = (some t, x) → d1.Token = (some t, x1) → Related x x1 →
        x.input.length < fuel → x1.input.length < fuel1 →
        st.flaws = st1.flaws → st.customFields = st1.customFields →
        ∃ r r1, findingsScan categoryMap detRep (fuel + 1) st d = some r ∧
          findingsScan categoryMap detRep (fuel1 + 1) st1 d1 = some r1 ∧
          r.flaws = r1.flaws ∧ r.customFields = r1.customFields := by
      intro fuel1 st st1 t d d1 x x1 h1 h2 hrel hl' hl1' hf hc
      rcases token_kind t with ⟨n, a, rfl⟩ | ⟨n, rfl⟩ | ⟨m, rfl⟩
      · obtain ⟨st2, st3, y, y1, g, g1, gf, gc, gr, gs, gs1⟩ :=
          startElementCase_stable categoryMap detRep fuel fuel1 st st1 n a x x1 hrel hl' hl1'
            hf hc
        obtain ⟨r, r1, k, k1, kf, kc⟩ := ih fuel1 st2 st3 y y1 gr
          (lt_of_le_of_lt gs.length_le hl') (lt_of_le_of_lt gs1.length_le hl1') gf gc
        exact ⟨r, r1, by rw [findingsScan_start _ _ _ _ _ _ _ _ h1, g]; exact k,
          by rw [findingsScan_start _ _ _ _ _ _ _ _ h2, g1]; exact k1, kf, kc⟩
      · obtain ⟨r, r1, k, k1, kf, kc⟩ := ih fuel1 st st1 x x1 hrel hl' hl1' hf hc
        exact ⟨r, r1, by rw [findingsScan_end _ _ _ _ _ _ _ h1]; exact k,
          by rw [findingsScan_end _ _ _ _ _ _ _ h2]; exact k1, kf, kc⟩
      · obtain ⟨r, r1, k, k1, kf, kc⟩ := ih fuel1 st st1 x x1 hrel hl' hl1' hf hc
        exact ⟨r, r1, by rw [findingsScan_misc _ _ _ _ _ _ _ h1]; exact k,
          by rw [findingsScan_misc _ _ _ _ _ _ _ h2]; exact k1, kf, kc⟩
    -- the same decoder on both sides
    have hsame : ∀ (fuel1 : Nat) (st st1 : Findings) (d : Decoder),
        d.input.length < fuel + 1 → d.input.length < fuel1 →
        st.flaws = st1.flaws → st.customFields = st1.customFields →
        ∃ r r1, findingsScan categoryMap detRep (fuel + 1) st d = some r ∧
          findingsScan categoryMap detRep fuel1 st1 d = some r1 ∧
          r.flaws = r1.flaws ∧ r.customFields = r1.customFields := by
      intro fuel1 st st1 d hl hl1 hf hc
      cases fuel1 with
      | zero => omega
      | succ fuel1 =>
        rcases d.Token_cases with ⟨x, ht, _⟩ | ⟨t, x, ht, hi⟩
        · exact ⟨st, st1, findingsScan_none _ _ _ _ _ _ ht, findingsScan_none _ _ _ _ _ _ ht,
            hf, hc⟩
        · have hx : x.input.length < fuel := by rw [hi] at hl; simpa using hl
          have hx1 : x.input.length < fuel1 := by rw [hi] at hl1; simpa using hl1
          exact hstep fuel1 st st1 t d d x x ht ht (Or.inl rfl) hx hx1 hf hc
    intro fuel1 st st1 d d1 hrel hl hl1 hf hc
    rcases hrel with rfl | ⟨pre, post, hd, hd1, hs⟩
    · exact hsame fuel1 st st1 d1 hl hl1 hf hc
    · obtain ⟨inp, stk⟩ := d
      obtain ⟨inp1, stk1⟩ := d1
      simp only at hd hd1 hs hl hl1
      subst hd hd1 hs
      cases pre with
      | nil =>
        simp only [List.nil_append] at hl hl1 ⊢
        have hlen : post.length + 2 < fuel1 := by simpa [emptyError] using hl1
        obtain ⟨k, rfl⟩ : ∃ k, fuel1 = k + 2 := ⟨fuel1 - 2, by omega⟩
        rw [findingsScan_emptyError]
        exact hsame k st _ ⟨post, stk1⟩ hl (by simp; omega) hf hc
      | cons t pre =>
        cases fuel1 with
        | zero => omega
        | succ fuel1 =>
          have hl' : (pre ++ post).length < fuel := by simpa using hl
          have hl1' : (pre ++ emptyError ++ post).length < fuel1 := by simpa using hl1
          rcases added_token t pre post stk1 with ⟨x, h1, h2, hx⟩ | ⟨stk2, h1, h2⟩
          · exact ⟨st, st1, findingsScan_none _ _ _ _ _ _ h1, findingsScan_none _ _ _ _ _ _ h2,
              hf, hc⟩
          · exact hstep fuel1 st st1 t _ _ _ _ h1 h2 (Or.inr ⟨pre, post, rfl, rfl, rfl⟩)
              hl' hl1' hf hc

/-- An empty `<error/>` element added anywhere in a document, well formed or
not, changes neither the flaws nor the custom fields that the parser returns. -/
theorem parseDocument_added (categoryMap : String → Option String) (pre post : List Token) :
    ∃ st st1, parseDocument categoryMap (pre ++ post) = some st ∧
      parseDocument categoryMap (pre ++ emptyError ++ post) = some st1 ∧
      st.flaws = st1.flaws ∧ st.customFields = st1.customFields := by
  have hrel : Related (NewDecoder (pre ++ post)) (NewDecoder (pre ++ emptyError ++ post)) :=
    Or.inr ⟨pre, post, rfl, rfl, rfl⟩
  obtain ⟨detRep, hm, hm1⟩ := metadataScan_stable ((pre ++ post).length + 1)
    ((pre ++ emptyError ++ post).length + 1) {} _ _ hrel (by simp [NewDecoder])
    (by simp [NewDecoder])
  obtain ⟨r, r1, h, h1, hf, hc⟩ := findingsScan_stable categoryMap detRep
    ((pre ++ post).length + 1) ((pre ++ emptyError ++ post).length + 1) {} {} _ _ hrel
    (by simp [NewDecoder]) (by simp [NewDecoder]) rfl rfl
  exact ⟨r, r1, by simp only [parseDocument, hm, h], by simp only [parseDocument, hm1, h1],
    hf, hc⟩

theorem AddedOutside.scanned_error : ∀ (F F1 : Forest), AddedOutside F F1 →
    F1.scannedNamed "error" ≠ [] := by
  intro F F1 h
  have key : ∃ e ∈ F1.scanned, e.name.Local = "error" := by
    induction h with
    | here F => exact ⟨⟨⟨"", "error"⟩, [], Forest.nil⟩, by simp [Forest.scanned], rfl⟩
    | inChildren n a c c1 r hn _ ih =>
      obtain ⟨e, he, hname⟩ := ih
      exact ⟨e, by simp [Forest.scanned, hn, he], hname⟩
    | inRest n a c r r1 _ ih =>
      obtain ⟨e, he, hname⟩ := ih
      exact ⟨e, by simp [Forest.scanned, he], hname⟩
    | afterMisc t r r1 _ ih =>
      obtain ⟨e, he, hname⟩ := ih
      exact ⟨e, by simp [Forest.scanned, he], hname⟩
  obtain ⟨e, he, hname⟩ := key
  intro hnil
  have hmem : e ∈ F1.scannedNamed "error" := by
    simp [Forest.scannedNamed, he, hname]
  rw [hnil] at hmem
  simp at hmem

/-- An element added outside every `flaw` and `customfield` element is an
element added to the tokens of the document. -/
theorem AddedOutside.tokens : ∀ (F F1 : Forest), AddedOutside F F1 →
    ∃ pre post, F.tokens = pre ++ post ∧ F1.tokens = pre ++ emptyError ++ post := by
  intro F F1 h
  induction h with
  | here F => exact ⟨[], F.tokens, rfl, rfl⟩
  | inChildren n a c c1 r _ _ ih =>
    obtain ⟨p, q, h1, h2⟩ := ih
    exact ⟨Token.StartElement n a :: p, q ++ Token.EndElement n :: r.tokens,
      by simp [Forest.tokens, h1], by simp [Forest.tokens, h2]⟩
  | inRest n a c r r1 _ ih =>
    obtain ⟨p, q, h1, h2⟩ := ih
    exact ⟨Token.StartElement n a :: (c.tokens ++ Token.EndElement n :: p), q,
      by simp [Forest.tokens, h1], by simp [Forest.tokens, h2]⟩
  | afterMisc t r r1 _ ih =>
    obtain ⟨p, q, h1, h2⟩ := ih
    exact ⟨t.toToken :: p, q, by simp [Forest.tokens, h1], by simp [Forest.tokens, h2]⟩

/-! ## Mitigations and annotations of a flaw -/

theorem assignAttrs_preserves {α β : Type} (proj : α → β) (a : Attr) :
    ∀ (fields : List (String × (α → String → α))),
    (∀ fld ∈ fields, ∀ s v, proj (fld.2 s v) = proj s) →
    ∀ s, proj (assignAttrs fields s a) = proj s := by
  intro fields
  induction fields with
  | nil => intro _ s; rfl
  | cons fld rest ih =>
    intro h s
    have hrest := ih (fun f hf => h f (List.mem_cons_of_mem _ hf))
    simp only [assignAttrs, List.foldl_cons] at hrest ⊢
    rw [hrest]
    by_cases h1 : a.Name.Local = fld.1
    · rw [if_pos h1]; exact h fld (List.mem_cons_self _ _) s a.Value
    · rw [if_neg h1]

theorem foldl_preserves {α β : Type} (proj : α → β) (assign : α → Attr → α)
    (h : ∀ s a, proj (assign s a) = proj s) (attrs : List Attr) :
    ∀ s, proj (attrs.foldl assign s) = proj s := by
  induction attrs with
  | nil => intro s; rfl
  | cons a attrs ih => intro s; rw [List.foldl_cons, ih, h]

theorem flaw_foldl_assignAttr_history (attrs : List Attr) (f : Flaw) :
    (attrs.foldl Flaw.assignAttr f).Mitigations = f.Mitigations ∧
    (attrs.foldl Flaw.assignAttr f).Annotations = f.Annotations := by
  constructor
  · exact foldl_preserves Flaw.Mitigations _ (fun s a =>
      assignAttrs_preserves Flaw.Mitigations a Flaw.attrFields
        (by simp [Flaw.attrFields]) s) attrs f
  · exact foldl_preserves Flaw.Annotations _ (fun s a =>
      assignAttrs_preserves Flaw.Annotations a Flaw.attrFields
        (by simp [Flaw.attrFields]) s) attrs f

theorem mitigation_value_eq (attrs : List Attr) (c : Forest) :
    Mitigation.value {} attrs c = Mitigation.ofAttrs attrs := by
  unfold Mitigation.value structValue
  rw [structLoopValue_noElemValue]
  have h1 : (attrs.foldl Mitigation.assignAttr {}).Action = attrValue attrs "action" :=
    foldl_assign_attrValue _ Mitigation.Action _ (fun f a => by
      have h := assignAttrs_proj Mitigation.Action "action" a Mitigation.attrFields
        (by simp [Mitigation.attrFields]) f
      simpa [Mitigation.attrFields] using h) _ rfl _
  have h2 : (attrs.foldl Mitigation.assignAttr {}).Description =
      attrValue attrs "description" :=
    foldl_assign_attrValue _ Mitigation.Description _ (fun f a => by
      have h := assignAttrs_proj Mitigation.Description "description" a Mitigation.attrFields
        (by simp [Mitigation.attrFields]) f
      simpa [Mitigation.attrFields] using h) _ rfl _
  have h3 : (attrs.foldl Mitigation.assignAttr {}).User = attrValue attrs "user" :=
    foldl_assign_attrValue _ Mitigation.User _ (fun f a => by
      have h := assignAttrs_proj Mitigation.User "user" a Mitigation.attrFields
        (by simp [Mitigation.attrFields]) f
      simpa [Mitigation.attrFields] using h) _ rfl _
  have h4 : (attrs.foldl Mitigation.assignAttr {}).Date = attrValue attrs "date" :=
    foldl_assign_attrValue _ Mitigation.Date _ (fun f a => by
      have h := assignAttrs_proj Mitigation.Date "date" a Mitigation.attrFields
        (by simp [Mitigation.attrFields]) f
      simpa [Mitigation.attrFields] using h) _ rfl _
  cases hc : attrs.foldl Mitigation.assignAttr {} with
  | mk x1 x2 x3 x4 =>
    rw [hc] at h1 h2 h3 h4
    simp only at h1 h2 h3 h4
    rw [h1, h2, h3, h4]
    rfl

theorem annotation_value_eq (attrs : List Attr) (c : Forest) :
    Annotation.value {} attrs c = Annotation.ofAttrs attrs := by
  unfold Annotation.value structValue
  rw [structLoopValue_noElemValue]
  have h1 : (attrs.foldl Annotation.assignAttr {}).Action = attrValue attrs "action" :=
    foldl_assign_attrValue _ Annotation.Action _ (fun f a => by
      have h := assignAttrs_proj Annotation.Action "action" a Annotation.attrFields
        (by simp [ Annotation.attrFields]) f
      simpa [ Annotation.attrFields] using h) _ rfl _
  have h2 : (attrs.foldl Annotation.assignAttr {}).Description =
      attrValue attrs "description" :=
    foldl_assign_attrValue _ Annotation.Description _ (fun f a => by
      have h := assignAttrs_proj Annotation.Description "description" a Annotation.attrFields
        (by simp [ Annotation.attrFields]) f
      simpa [ Annotation.attrFields] using h) _ rfl _
  have h3 : (attrs.foldl Annotation.assignAttr {}).User = attrValue attrs "user" :=
    foldl_assign_attrValue _ Annotation.User _ (fun f a => by
      have h := assignAttrs_proj Annotation.User "user" a Annotation.attrFields
        (by simp [ Annotation.attrFields]) f
      simpa [ Annotation.attrFields] using h) _ rfl _
  have h4 : (attrs.foldl Annotation.assignAttr {}).Date = attrValue attrs "date" :=
    foldl_assign_attrValue _ Annotation.Date _ (fun f a => by
      have h := assignAttrs_proj Annotation.Date "date" a Annotation.attrFields
        (by simp [ Annotation.attrFields]) f
      simpa [ Annotation.attrFields] using h) _ rfl _
  cases hc : attrs.foldl Annotation.assignAttr {} with
  | mk x1 x2 x3 x4 =>
    rw [hc] at h1 h2 h3 h4
    simp only at h1 h2 h3 h4
    rw [h1, h2, h3, h4]
    rfl

theorem childrenNamed_elem (name : String) (n : Name) (a : List Attr) (c r : Forest) :
    (Forest.elem n a c r).childrenNamed name =
      if n.Local = name then ⟨n, a, c⟩ :: r.childrenNamed name else r.childrenNamed name := by
  by_cases h : n.Local = name <;> simp [Forest.childrenNamed, Forest.roots, h]

theorem childrenNamed_misc (name : String) (t : Misc) (r : Forest) :
    (Forest.misc t r).childrenNamed name = r.childrenNamed name := rfl

theorem mitigations_structLoopValue : ∀ (c : Forest) (m : Mitigations),
    (Forest.structLoopValue Mitigations.elemValue c m).Mitigation =
      m.Mitigation ++ (c.childrenNamed "mitigation").map (fun x => Mitigation.ofAttrs x.attrs) := by
  intro c
  induction c with
  | nil => intro m; simp [Forest.structLoopValue, Forest.childrenNamed, Forest.roots]
  | elem n a c r _ ihr =>
    intro m
    rw [childrenNamed_elem]
    by_cases h : n.Local = "mitigation"
    · simp only [Forest.structLoopValue, Mitigations.elemValue, h, if_true]
      rw [ihr]
      simp [onFieldValue, sliceValue, mitigation_value_eq]
    · simp only [Forest.structLoopValue, Mitigations.elemValue, h, if_false]
      rw [ihr]
  | misc t r ih =>
    intro m
    rw [childrenNamed_misc]
    simp only [Forest.structLoopValue]
    rw [ih]

theorem annotations_structLoopValue : ∀ (c : Forest) (m : Annotations),
    Annotations.Annotation (Forest.structLoopValue Annotations.elemValue c m) =
      m.Annotation ++ (c.childrenNamed "annotation").map (fun x => Annotation.ofAttrs x.attrs) := by
  intro c
  induction c with
  | nil => intro m; simp [Forest.structLoopValue, Forest.childrenNamed, Forest.roots]
  | elem n a c r _ ihr =>
    intro m
    rw [childrenNamed_elem]
    by_cases h : n.Local = "annotation"
    · simp only [Forest.structLoopValue, Annotations.elemValue, h, if_true]
      rw [ihr]
      simp [onFieldValue, sliceValue, annotation_value_eq]
    · simp only [Forest.structLoopValue, Annotations.elemValue, h, if_false]
      rw [ihr]
  | misc t r ih =>
    intro m
    rw [childrenNamed_misc]
    simp only [Forest.structLoopValue]
    rw [ih]

theorem mitigations_value_eq (m : Mitigations) (attrs : List Attr) (c : Forest) :
    (Mitigations.value m attrs c).Mitigation =
      m.Mitigation ++ (c.childrenNamed "mitigation").map (fun x => Mitigation.ofAttrs x.attrs) := by
  unfold Mitigations.value structValue
  have h : attrs.foldl (fun (s : Mitigations) _ => s) m = m :=
    foldl_preserves id (fun s _ => s) (fun _ _ => rfl) attrs m
  rw [h]
  exact mitigations_structLoopValue c m

theorem annotations_value_eq (m : Annotations) (attrs : List Attr) (c : Forest) :
    Annotations.Annotation (Annotations.value m attrs c) =
      m.Annotation ++ (c.childrenNamed "annotation").map (fun x => Annotation.ofAttrs x.attrs) := by
  unfold Annotations.value structValue
  have h : attrs.foldl (fun (s : Annotations) _ => s) m = m :=
    foldl_preserves id (fun s _ => s) (fun _ _ => rfl) attrs m
  rw [h]
  exact annotations_structLoopValue c m

theorem flaw_structLoopValue_elem (n : Name) (a : List Attr) (c r : Forest) (f : Flaw) :
    Forest.structLoopValue Flaw.elemValue (Forest.elem n a c r) f =
      Forest.structLoopValue Flaw.elemValue r
        ((Flaw.elemValue n.Local).elim f (fun val => val f a c)) := by
  simp only [Forest.structLoopValue]
  cases Flaw.elemValue n.Local <;> rfl

theorem flaw_structLoopValue_history : ∀ (c : Forest) (f : Flaw),
    (Forest.structLoopValue Flaw.elemValue c f).Mitigations.Mitigation =
      f.Mitigations.Mitigation ++
        (mitigationElements c).map (fun x => Mitigation.ofAttrs x.attrs) ∧
    Annotations.Annotation (Forest.structLoopValue Flaw.elemValue c f).Annotations =
      f.Annotations.Annotation ++
        (annotationElements c).map (fun x => Annotation.ofAttrs x.attrs) := by
  intro c
  induction c with
  | nil =>
    intro f
    simp [Forest.structLoopValue, mitigationElements, annotationElements, Forest.childrenNamed,
      Forest.roots]
  | elem n a c r _ ihr =>
    intro f
    rw [flaw_structLoopValue_elem]
    obtain ⟨g1, g2⟩ := ihr ((Flaw.elemValue n.Local).elim f (fun val => val f a c))
    rw [g1, g2]
    unfold mitigationElements annotationElements
    rw [childrenNamed_elem, childrenNamed_elem]
    by_cases h1 : n.Local = "CategoryName"
    · have e1 : ¬ n.Local = "mitigations" := by rw [h1]; decide
      have e2 : ¬ n.Local = "annotations" := by rw [h1]; decide
      rw [if_neg e1, if_neg e2, h1]
      exact ⟨rfl, rfl⟩
    · by_cases h2 : n.Local = "PolicyName"
      · have e1 : ¬ n.Local = "mitigations" := by rw [h2]; decide
        have e2 : ¬ n.Local = "annotations" := by rw [h2]; decide
        rw [if_neg e1, if_neg e2, h2]
        exact ⟨rfl, rfl⟩
      · by_cases h3 : n.Local = "mitigations"
        · have e2 : ¬ n.Local = "annotations" := by rw [h3]; decide
          rw [if_pos h3, if_neg e2, h3]
          constructor
          · have hv : (Option.elim (Flaw.elemValue "mitigations") f
                (fun val => val f a c)).Mitigations = Mitigations.value f.Mitigations a c := rfl
            rw [hv, mitigations_value_eq]
            simp only [List.flatMap_cons, List.map_append, List.append_assoc]
          · rfl
        · by_cases h4 : n.Local = "annotations"
          · rw [if_neg h3, if_pos h4, h4]
            constructor
            · rfl
            · have hv : (Option.elim (Flaw.elemValue "annotations") f
                  (fun val => val f a c)).Annotations = Annotations.value f.Annotations a c := rfl
              rw [hv, annotations_value_eq]
              simp only [List.flatMap_cons, List.map_append, List.append_assoc]
          · rw [if_neg h3, if_neg h4]
            have hv : Flaw.elemValue n.Local = none := by
              simp [Flaw.elemValue, h1, h2, h3, h4]
            rw [hv]
            exact ⟨rfl, rfl⟩
  | misc t r ih =>
    intro f
    unfold mitigationElements annotationElements
    rw [childrenNamed_misc, childrenNamed_misc]
    simp only [Forest.structLoopValue]
    exact ih f

/-- The mitigations and annotations of the flaw that the flaw block makes of
an element. -/
theorem flawValue_history (categoryMap : String → Option String) (detRep : DetReport)
    (attrs : List Attr) (c : Forest) :
    (flawValue categoryMap detRep attrs c).Mitigations.Mitigation =
      (mitigationElements c).map (fun x => Mitigation.ofAttrs x.attrs) ∧
    Annotations.Annotation (flawValue categoryMap detRep attrs c).Annotations =
      (annotationElements c).map (fun x => Annotation.ofAttrs x.attrs) := by
  obtain ⟨g1, g2⟩ := flaw_structLoopValue_history c (attrs.foldl Flaw.assignAttr {})
  obtain ⟨k1, k2⟩ := flaw_foldl_assignAttr_history attrs {}
  have e1 : (flawValue categoryMap detRep attrs c).Mitigations =
      (Forest.structLoopValue Flaw.elemValue c (attrs.foldl Flaw.assignAttr {})).Mitigations :=
    rfl
  have e2 : (flawValue categoryMap detRep attrs c).Annotations =
      (Forest.structLoopValue Flaw.elemValue c (attrs.foldl Flaw.assignAttr {})).Annotations :=
    rfl
  rw [e1, e2, g1, g2, k1, k2]
  exact ⟨rfl, rfl⟩

theorem mem_roots_elements : ∀ (F : Forest) (e : Element), e ∈ F.roots → e ∈ F.elements := by
  intro F
  induction F with
  | nil => intro e h; simp [Forest.roots] at h
  | elem n a c r _ ihr =>
    intro e h
    simp only [Forest.roots, List.mem_cons] at h
    simp only [Forest.elements, List.mem_cons, List.mem_append]
    rcases h with h | h
    · exact Or.inl h
    · exact Or.inr (Or.inr (ihr e h))
  | misc t r ih => intro e h; exact ih e h

theorem mem_children_elements : ∀ (F : Forest) (e x : Element), e ∈ F.roots →
    x ∈ e.children.elements → x ∈ F.elements := by
  intro F
  induction F with
  | nil => intro e x h; simp [Forest.roots] at h
  | elem n a c r _ ihr =>
    intro e x h hx
    simp only [Forest.roots, List.mem_cons] at h
    simp only [Forest.elements, List.mem_cons, List.mem_append]
    rcases h with h | h
    · subst h; exact Or.inr (Or.inl hx)
    · exact Or.inr (Or.inr (ihr e x h hx))
  | misc t r ih => intro e x h hx; exact ih e x h hx

/-- A `flaw` element without any element named `name` inside it has none in a
child named `parent` either. -/
theorem childrenNamed_childrenNamed_nil (parent name : String) (c : Forest)
    (h : c.elementsNamed name = []) :
    (c.childrenNamed parent).flatMap (fun e => e.children.childrenNamed name) = [] := by
  rw [List.eq_nil_iff_forall_not_mem] at h ⊢
  intro x hx
  simp only [List.mem_flatMap, Forest.childrenNamed, List.mem_filter] at hx
  obtain ⟨e, ⟨he, _⟩, hx1, hx2⟩ := hx
  apply h x
  simp only [Forest.elementsNamed, List.mem_filter]
  exact ⟨mem_children_elements c e x he (mem_roots_elements _ x hx1), hx2⟩

theorem mitigationElements_nil (c : Forest) (h : c.elementsNamed "mitigation" = []) :
    mitigationElements c = [] :=
  childrenNamed_childrenNamed_nil "mitigations" "mitigation" c h

theorem annotationElements_nil (c : Forest) (h : c.elementsNamed "annotation" = []) :
    annotationElements c = [] :=
  childrenNamed_childrenNamed_nil "annotations" "annotation" c h

/-- The records that the parser returns for the document `historyReport`,
computed by running the decoder on its tokens. -/
theorem historyReport_records :
    ParseDetailedReport (fetched historyReport.tokens) exampleCategoryMap "u" "p" "b" =
      some (Outcome.returned
        [{ Issueid := "7", PolicyName := "P1",
           Mitigations := { Mitigation :=
             [{ Action := "comment", User := "u1" }, { Action := "fp", Date := "d2" }] },
           Annotations := { Annotation := [{ Action := "note", Description := "n1" }] } },
         { Issueid := "1", PolicyName := "P1" }]
        [] none) := by
  decide

/-! ## The example of the specification -/

theorem exampleReport_unmapped :
    parseDocument emptyCategoryMap exampleReport.tokens =
      some { flaws := [{ Issueid := "1", CategoryID := "10", PolicyName := "P1" }]
             customFields := [{ Name := "x", Value := "y" }]
             errMsg := none } := by
  decide

/-! ## The two fields assigned after decoding -/

theorem flawBlock_categoryID (categoryMap : String → Option String) (detRep : DetReport)
    (fuel : Nat) (attrs : List Attr) (d d1 : Decoder) (flaw : Flaw)
    (hd : d.stk.length ≤ maxUnmarshalDepth)
    (h : flawBlock categoryMap detRep fuel attrs d = some (flaw, d1)) :
    flaw.CategoryID = attrValue attrs "categoryid" := by
  unfold flawBlock DecodeElement at h
  cases hu : unmarshalFlaw fuel {} attrs d with
  | none => simp [hu] at h
  | some x =>
    obtain ⟨f0, e, d2⟩ := x
    simp [hu] at h
    have hp := unmarshalFlaw_preserves Flaw.CategoryID
      (fun _ _ => rfl) (fun _ _ => rfl) (fun _ _ => rfl) (fun _ _ => rfl) fuel {} attrs d _ hd hu
    rw [← h.1]
    exact hp.trans (flaw_foldl_assignAttr attrs).2.2.1

theorem flaw_structLoopValue_categoryID : ∀ (c : Forest) (f : Flaw),
    (Forest.structLoopValue Flaw.elemValue c f).CategoryID = f.CategoryID := by
  intro c
  induction c with
  | nil => intro f; rfl
  | elem n a c r _ ihr =>
    intro f
    rw [flaw_structLoopValue_elem, ihr]
    by_cases h1 : n.Local = "CategoryName"
    · rw [h1]; rfl
    · by_cases h2 : n.Local = "PolicyName"
      · rw [h2]; rfl
      · by_cases h3 : n.Local = "mitigations"
        · rw [h3]; rfl
        · by_cases h4 : n.Local = "annotations"
          · rw [h4]; rfl
          · have hv : Flaw.elemValue n.Local = none := by
              simp [Flaw.elemValue, h1, h2, h3, h4]
            rw [hv]
            rfl
  | misc t r ih =>
    intro f
    simp only [Forest.structLoopValue]
    exact ih f

theorem flawValue_categoryID (categoryMap : String → Option String) (detRep : DetReport)
    (attrs : List Attr) (c : Forest) :
    (flawValue categoryMap detRep attrs c).CategoryID = attrValue attrs "categoryid" := by
  have e1 : (flawValue categoryMap detRep attrs c).CategoryID =
      (Forest.structLoopValue Flaw.elemValue c (attrs.foldl Flaw.assignAttr {})).CategoryID :=
    rfl
  rw [e1, flaw_structLoopValue_categoryID]
  exact (flaw_foldl_assignAttr attrs).2.2.1

theorem flawValue_names (categoryMap : String → Option String) (detRep : DetReport)
    (attrs : List Attr) (c : Forest) :
    (flawValue categoryMap detRep attrs c).CategoryName =
      (categoryMap (attrValue attrs "categoryid")).getD "" ∧
    (flawValue categoryMap detRep attrs c).PolicyName = detRep.PolicyName := by
  have e1 : (flawValue categoryMap detRep attrs c).CategoryName =
      (categoryMap (Flaw.value {} attrs c).CategoryID).getD "" := rfl
  have e2 : (Flaw.value {} attrs c).CategoryID =
      (flawValue categoryMap detRep attrs c).CategoryID := rfl
  rw [e1, e2, flawValue_categoryID]
  exact ⟨rfl, rfl⟩

/-! ## The category table is only read -/

theorem flawBlockWithTable_eq (categoryMap : String → Option String) (detRep : DetReport)
    (fuel : Nat) (a : List Attr) (d : Decoder) :
    flawBlockWithTable categoryMap detRep fuel a d =
      (flawBlock categoryMap detRep fuel a d).map (fun x => (x.1, x.2, categoryMap)) := by
  unfold flawBlockWithTable flawBlock
  cases DecodeElement unmarshalFlaw fuel {} a d with
  | none => rfl
  | some x => rfl

theorem startElementCaseWithTable_eq (categoryMap : String → Option String)
    (detRep : DetReport) (fuel : Nat) (st : Findings) (n : Name) (a : List Attr) (d : Decoder) :
    startElementCaseWithTable categoryMap detRep fuel st n a d =
      (startElementCase categoryMap detRep fuel st n a d).map
        (fun x => (x.1, x.2, categoryMap)) := by
  unfold startElementCaseWithTable startElementCase
  rw [flawBlockWithTable_eq]
  by_cases hf : n.Local = "flaw"
  · have hc : ¬ n.Local = "customfield" := by rw [hf]; decide
    simp only [hf, if_true, hc, if_false]
    cases flawBlock categoryMap detRep fuel a d with
    | none => rfl
    | some x => rfl
  · simp only [hf, if_false]
    by_cases hc : n.Local = "customfield"
    · simp only [hc, if_true]
      cases customFieldBlock fuel a d with
      | none => rfl
      | some x => rfl
    · simp only [hc, if_false]
      rfl

theorem findingsScanWithTable_eq (categoryMap : String → Option String) (detRep : DetReport) :
    ∀ (fuel : Nat) (st : Findings) (d : Decoder),
    findingsScanWithTable detRep fuel st categoryMap d =
      (findingsScan categoryMap detRep fuel st d).map (fun x => (x, categoryMap)) := by
  intro fuel
  induction fuel with
  | zero => intro st d; rfl
  | succ fuel ih =>
    intro st d
    rcases d.Token_cases with ⟨d1, ht, _⟩ | ⟨t, d1, ht, _⟩
    · simp [findingsScanWithTable, findingsScan, ht]
    · cases t with
      | StartElement n a =>
        simp only [findingsScanWithTable, findingsScan, ht]
        rw [startElementCaseWithTable_eq]
        cases startElementCase categoryMap detRep fuel st n a d1 with
        | none => rfl
        | some r => simp [ih]
      | EndElement n => simp [findingsScanWithTable, findingsScan, ht, ih]
      | CharData s => simp [findingsScanWithTable, findingsScan, ht, ih]
      | Comment s => simp [findingsScanWithTable, findingsScan, ht, ih]
      | ProcInst s i => simp [findingsScanWithTable, findingsScan, ht, ih]
      | Directive s => simp [findingsScanWithTable, findingsScan, ht, ih]

theorem parseDocumentWithTable_eq (categoryMap : String → Option String) (doc : List Token) :
    parseDocumentWithTable categoryMap doc =
      (parseDocument categoryMap doc).map (fun x => (x, categoryMap)) := by
  unfold parseDocumentWithTable parseDocument
  simp only []
  cases metadataScan (doc.length + 1) {} (NewDecoder doc) with
  | none => rfl
  | some detRep =>
    simp only []
    rw [findingsScanWithTable_eq]

theorem ParseDetailedReportWithTable_eq
    (detailedReport : String → String → String → List Token × Option String)
    (categoryMap : String → Option String) (username password build_id : String) :
    ParseDetailedReportWithTable detailedReport categoryMap username password build_id =
      (ParseDetailedReport detailedReport categoryMap username password build_id).map
        (fun o => (o, categoryMap)) := by
  unfold ParseDetailedReportWithTable ParseDetailedReport
  cases hd : detailedReport username password build_id with
  | mk doc e =>
    cases e with
    | some e => rfl
    | none =>
      simp only []
      rw [parseDocumentWithTable_eq]
      cases parseDocument categoryMap doc with
      | none => rfl
      | some st => rfl

theorem ParseDetailedReport_isSome
    (detailedReport : String → String → String → List Token × Option String)
    (categoryMap : String → Option String) (username password build_id : String) :
    ∃ o, ParseDetailedReport detailedReport categoryMap username password build_id = some o := by
  unfold ParseDetailedReport
  cases hd : detailedReport username password build_id with
  | mk doc e =>
    cases e with
    | some e => exact ⟨_, rfl⟩
    | none =>
      obtain ⟨_, st, _, _, hp⟩ := parseDocument_isSome categoryMap doc
      simp only []
      rw [hp]
      exact ⟨_, rfl⟩

/-! ## Decode errors -/

theorem token_none_input (d d1 : Decoder) (h : d.Token = (none, d1)) : d1.input = [] := by
  obtain ⟨input, stk⟩ := d
  cases input with
  | nil =>
    simp [Decoder.Token] at h
    rw [← h]
  | cons t r =>
    cases t with
    | StartElement n a => simp [Decoder.Token] at h
    | EndElement n =>
      cases stk with
      | nil =>
        simp [Decoder.Token] at h
        rw [← h]
      | cons s stk =>
        by_cases e : s = n
        · simp [Decoder.Token, e] at h
        · simp [Decoder.Token, e] at h
          rw [← h]
    | CharData s => simp [Decoder.Token] at h
    | Comment s => simp [Decoder.Token] at h
    | ProcInst s i => simp [Decoder.Token] at h
    | Directive s => simp [Decoder.Token] at h

theorem token_of_no_input (d : Decoder) (h : d.input = []) : d.Token = (none, d) := by
  obtain ⟨input, stk⟩ := d
  simp only at h
  subst h
  rfl

theorem skip_failsDead : ∀ (fuel depth : Nat) (d d1 : Decoder),
    d.Skip fuel depth = some (true, d1) → d1.input = [] := by
  intro fuel
  induction fuel with
  | zero => intro depth d d1 h; simp [Decoder.Skip] at h
  | succ fuel ih =>
    intro depth d d1 h
    rcases d.Token_cases with ⟨x, ht, _⟩ | ⟨t, x, ht, _⟩
    · rw [skip_none fuel depth d x ht] at h
      cases h
      exact token_none_input d _ ht
    · rcases token_kind t with ⟨n, a, rfl⟩ | ⟨n, rfl⟩ | ⟨m, rfl⟩
      · rw [skip_start fuel depth d x n a ht] at h
        exact ih _ _ _ h
      · rw [skip_end fuel depth d x n ht] at h
        by_cases hd : depth = 0
        · rw [if_pos hd] at h
          cases h
        · rw [if_neg hd] at h
          exact ih _ _ _ h
      · rw [skip_misc fuel depth d x m ht] at h
        exact ih _ _ _ h

theorem unmarshalStructLoop_failsDeadOrDeep {α : Type}
    (elemField : String → Option (Nat → α → List Attr → Decoder → Option (α × Bool × Decoder)))
    (hf : ∀ name dec, elemField name = some dec → FailsDeadOrDeep dec) :
    ∀ (fuel : Nat) (sv : α) (d : Decoder) (v1 : α) (d1 : Decoder),
    unmarshalStructLoop elemField fuel sv d = some (v1, true, d1) →
    d1.input = [] ∨ maxUnmarshalDepth < d1.stk.length := by
  intro fuel
  induction fuel with
  | zero => intro sv d v1 d1 h; simp [unmarshalStructLoop] at h
  | succ fuel ih =>
    intro sv d v1 d1 h
    rcases d.Token_cases with ⟨x, ht, _⟩ | ⟨t, x, ht, _⟩
    · rw [structLoop_none elemField fuel sv d x ht] at h
      cases h
      exact Or.inl (token_none_input d _ ht)
    · rcases token_kind t with ⟨n, a, rfl⟩ | ⟨n, rfl⟩ | ⟨m, rfl⟩
      · cases he : elemField n.Local with
        | some dec =>
          rw [structLoop_field elemField fuel sv d x n a dec ht he] at h
          cases hdec : dec fuel sv a x with
          | none => simp [hdec] at h
          | some r =>
            obtain ⟨sv1, e, d2⟩ := r
            rw [hdec] at h
            cases e with
            | true =>
              simp only [] at h
              cases h
              exact hf _ _ he fuel sv a x _ _ hdec
            | false =>
              simp only [] at h
              exact ih _ _ _ _ h
        | none =>
          rw [structLoop_skip elemField fuel sv d x n a ht he] at h
          cases hs : x.Skip fuel 0 with
          | none => simp [hs] at h
          | some r =>
            obtain ⟨e, d2⟩ := r
            rw [hs] at h
            cases e with
            | true =>
              simp only [] at h
              cases h
              exact Or.inl (skip_failsDead _ _ _ _ hs)
            | false =>
              simp only [] at h
              exact ih _ _ _ _ h
      · rw [structLoop_end elemField fuel sv d x n ht] at h
        cases h
      · rw [structLoop_misc elemField fuel sv d x m ht] at h
        exact ih _ _ _ _ h

theorem unmarshalStruct_failsDeadOrDeep {α : Type} (assignAttr : α → Attr → α)
    (elemField : String → Option (Nat → α → List Attr → Decoder → Option (α × Bool × Decoder)))
    (hf : ∀ name dec, elemField name = some dec → FailsDeadOrDeep dec) :
    FailsDeadOrDeep (unmarshalStruct assignAttr elemField) := by
  intro fuel v attrs d v1 d1 h
  unfold unmarshalStruct at h
  by_cases hd : maxUnmarshalDepth < d.stk.length
  · rw [if_pos hd] at h
    cases h
    exact Or.inr hd
  · rw [if_neg hd] at h
    exact unmarshalStructLoop_failsDeadOrDeep elemField hf fuel _ d v1 d1 h

theorem unmarshalStringLoop_failsDeadOrDeep : ∀ (fuel : Nat) (data : String) (d : Decoder)
    (v1 : String) (d1 : Decoder),
    unmarshalStringLoop fuel data d = some (v1, true, d1) →
    d1.input = [] ∨ maxUnmarshalDepth < d1.stk.length := by
  intro fuel
  induction fuel with
  | zero => intro data d v1 d1 h; simp [unmarshalStringLoop] at h
  | succ fuel ih =>
    intro data d v1 d1 h
    rcases d.Token_cases with ⟨x, ht, _⟩ | ⟨t, x, ht, _⟩
    · rw [stringLoop_none fuel data d x ht] at h
      cases h
      exact Or.inl (token_none_input d _ ht)
    · rcases token_kind t with ⟨n, a, rfl⟩ | ⟨n, rfl⟩ | ⟨m, rfl⟩
      · rw [stringLoop_start fuel data d x n a ht] at h
        cases hs : x.Skip fuel 0 with
        | none => simp [hs] at h
        | some r =>
          obtain ⟨e, d2⟩ := r
          rw [hs] at h
          cases e with
          | true =>
            simp only [] at h
            cases h
            exact Or.inl (skip_failsDead _ _ _ _ hs)
          | false =>
            simp only [] at h
            exact ih _ _ _ _ h
      · rw [stringLoop_end fuel data d x n ht] at h
        cases h
      · rw [stringLoop_misc fuel data d x m ht] at h
        exact ih _ _ _ _ h

theorem unmarshalString_failsDeadOrDeep : FailsDeadOrDeep unmarshalString := by
  intro fuel v attrs d v1 d1 h
  unfold unmarshalString at h
  by_cases hd : maxUnmarshalDepth < d.stk.length
  · rw [if_pos hd] at h
    cases h
    exact Or.inr hd
  rw [if_neg hd] at h
  cases hs : unmarshalStringLoop fuel "" d with
  | none => simp [hs] at h
  | some r =>
    obtain ⟨data, e, d2⟩ := r
    rw [hs] at h
    cases e with
    | true =>
      simp only [] at h
      cases h
      exact unmarshalStringLoop_failsDeadOrDeep _ _ _ _ _ hs
    | false =>
      simp only [] at h
      cases h

theorem unmarshalSlice_failsDeadOrDeep {β : Type} (zero : β)
    (dec : Nat → β → List Attr → Decoder → Option (β × Bool × Decoder)) (hd : FailsDeadOrDeep dec) :
    FailsDeadOrDeep (unmarshalSlice zero dec) := by
  intro fuel v attrs d v1 d1 h
  unfold unmarshalSlice at h
  cases hs : dec fuel zero attrs d with
  | none => simp [hs] at h
  | some r =>
    obtain ⟨x, e, d2⟩ := r
    rw [hs] at h
    cases e with
    | true =>
      simp only [] at h
      cases h
      exact hd _ _ _ _ _ _ hs
    | false =>
      simp only [] at h
      cases h

theorem onField_failsDeadOrDeep {α β : Type} (get : α → β) (set : α → β → α)
    (dec : Nat → β → List Attr → Decoder → Option (β × Bool × Decoder)) (hd : FailsDeadOrDeep dec) :
    FailsDeadOrDeep (onField get set dec) := by
  intro fuel v attrs d v1 d1 h
  unfold onField at h
  cases hs : dec fuel (get v) attrs d with
  | none => simp [hs] at h
  | some r =>
    obtain ⟨x, e, d2⟩ := r
    rw [hs] at h
    simp only [Option.some.injEq, Prod.mk.injEq] at h
    obtain ⟨_, he, hd2⟩ := h
    subst he hd2
    exact hd _ _ _ _ _ _ hs

theorem noElemField_failsDeadOrDeep {α : Type} (name : String)
    (dec : Nat → α → List Attr → Decoder → Option (α × Bool × Decoder))
    (h : noElemField name = some dec) : FailsDeadOrDeep dec := by
  simp [noElemField] at h

theorem unmarshalCustomField_failsDeadOrDeep : FailsDeadOrDeep unmarshalCustomField :=
  unmarshalStruct_failsDeadOrDeep _ _ noElemField_failsDeadOrDeep

theorem unmarshalMitigation_failsDeadOrDeep : FailsDeadOrDeep unmarshalMitigation :=
  unmarshalStruct_failsDeadOrDeep _ _ noElemField_failsDeadOrDeep

theorem unmarshalAnnotation_failsDeadOrDeep : FailsDeadOrDeep unmarshalAnnotation :=
  unmarshalStruct_failsDeadOrDeep _ _ noElemField_failsDeadOrDeep

theorem mitigationsElemField_failsDeadOrDeep (name : String)
    (dec : Nat → Mitigations → List Attr → Decoder → Option (Mitigations × Bool × Decoder))
    (h : Mitigations.elemField name = some dec) : FailsDeadOrDeep dec := by
  unfold Mitigations.elemField at h
  by_cases hn : name = "mitigation"
  · rw [if_pos hn] at h
    cases h
    exact onField_failsDeadOrDeep _ _ _ (unmarshalSlice_failsDeadOrDeep _ _ unmarshalMitigation_failsDeadOrDeep)
  · rw [if_neg hn] at h
    cases h

theorem annotationsElemField_failsDeadOrDeep (name : String)
    (dec : Nat → Annotations → List Attr → Decoder → Option (Annotations × Bool × Decoder))
    (h : Annotations.elemField name = some dec) : FailsDeadOrDeep dec := by
  unfold Annotations.elemField at h
  by_cases hn : name = "annotation"
  · rw [if_pos hn] at h
    cases h
    exact onField_failsDeadOrDeep _ _ _ (unmarshalSlice_failsDeadOrDeep _ _ unmarshalAnnotation_failsDeadOrDeep)
  · rw [if_neg hn] at h
    cases h

theorem unmarshalMitigations_failsDeadOrDeep : FailsDeadOrDeep unmarshalMitigations :=
  unmarshalStruct_failsDeadOrDeep _ _ mitigationsElemField_failsDeadOrDeep

theorem unmarshalAnnotations_failsDeadOrDeep : FailsDeadOrDeep unmarshalAnnotations :=
  unmarshalStruct_failsDeadOrDeep _ _ annotationsElemField_failsDeadOrDeep

theorem flawElemField_failsDeadOrDeep (name : String)
    (dec : Nat → Flaw → List Attr → Decoder → Option (Flaw × Bool × Decoder))
    (h : Flaw.elemField name = some dec) : FailsDeadOrDeep dec := by
  unfold Flaw.elemField at h
  by_cases h1 : name = "CategoryName"
  · rw [if_pos h1] at h
    cases h
    exact onField_failsDeadOrDeep _ _ _ unmarshalString_failsDeadOrDeep
  · rw [if_neg h1] at h
    by_cases h2 : name = "PolicyName"
    · rw [if_pos h2] at h
      cases h
      exact onField_failsDeadOrDeep _ _ _ unmarshalString_failsDeadOrDeep
    · rw [if_neg h2] at h
      by_cases h3 : name = "mitigations"
      · rw [if_pos h3] at h
        cases h
        exact onField_failsDeadOrDeep _ _ _ unmarshalMitigations_failsDeadOrDeep
      · rw [if_neg h3] at h
        by_cases h4 : name = "annotations"
        · rw [if_pos h4] at h
          cases h
          exact onField_failsDeadOrDeep _ _ _ unmarshalAnnotations_failsDeadOrDeep
        · rw [if_neg h4] at h
          cases h

theorem unmarshalFlaw_failsDeadOrDeep : FailsDeadOrDeep unmarshalFlaw :=
  unmarshalStruct_failsDeadOrDeep _ _ flawElemField_failsDeadOrDeep

theorem findingsScan_no_input (categoryMap : String → Option String) (detRep : DetReport)
    (fuel : Nat) (st : Findings) (d : Decoder) (h : d.input = []) :
    findingsScan categoryMap detRep (fuel + 1) st d = some st :=
  findingsScan_none categoryMap detRep fuel st d d (token_of_no_input d h)

/-! ## The second loop on well-nested content of any depth -/

theorem scansTo_refl (categoryMap : String → Option String) (detRep : DetReport)
    (d : Decoder) : ScansTo categoryMap detRep d d :=
  ⟨Nat.le_refl _, fun st _ _ => ⟨st, rfl, id⟩⟩

theorem scansTo_trans (categoryMap : String → Option String) (detRep : DetReport)
    (d d1 d2 : Decoder) (h1 : ScansTo categoryMap detRep d d1)
    (h2 : ScansTo categoryMap detRep d1 d2) : ScansTo categoryMap detRep d d2 := by
  refine ⟨Nat.le_trans h2.1 h1.1, ?_⟩
  intro st fuel hfuel
  obtain ⟨st1, e1, m1⟩ := h1.2 st fuel hfuel
  obtain ⟨st2, e2, m2⟩ := h2.2 st1 fuel (Nat.lt_of_le_of_lt h1.1 hfuel)
  exact ⟨st2, e1.trans e2, fun h => m2 (m1 h)⟩

theorem scansTo_end (categoryMap : String → Option String) (detRep : DetReport)
    (n : Name) (rest : List Token) (stk : List Name) :
    ScansTo categoryMap detRep ⟨Token.EndElement n :: rest, n :: stk⟩ ⟨rest, stk⟩ := by
  refine ⟨by simp, ?_⟩
  intro st fuel hfuel
  cases fuel with
  | zero => omega
  | succ fuel =>
    have hr : rest.length < fuel := by simpa using hfuel
    refine ⟨st, ?_, id⟩
    rw [findingsScan_end categoryMap detRep fuel st _ ⟨rest, stk⟩ n (token_end n rest stk)]
    exact findingsScan_fuel _ _ _ _ _ _ hr (by simp; omega)

theorem scansThrough_scansTo (categoryMap : String → Option String) (detRep : DetReport)
    (F : Forest) (h : ScansThrough categoryMap detRep F) (rest : List Token)
    (stk : List Name) : ScansTo categoryMap detRep ⟨F.tokens ++ rest, stk⟩ ⟨rest, stk⟩ := by
  refine ⟨by simp, ?_⟩
  intro st fuel hfuel
  obtain ⟨st1, e1, m1, _⟩ := h rest stk st fuel hfuel
  exact ⟨st1, e1, m1⟩

/-- From behind the start tag of an element with content `c` the second loop
comes behind its end tag. -/
theorem scansTo_content (categoryMap : String → Option String) (detRep : DetReport)
    (c : Forest) (h : ScansThrough categoryMap detRep c) (n : Name) (rest : List Token)
    (stk : List Name) :
    ScansTo categoryMap detRep ⟨c.tokens ++ Token.EndElement n :: rest, n :: stk⟩
      ⟨rest, stk⟩ :=
  scansTo_trans _ _ _ _ _ (scansThrough_scansTo _ _ c h _ _) (scansTo_end _ _ n rest stk)

theorem unmarshalStructLoop_staysInside (categoryMap : String → Option String)
    (detRep : DetReport) (N : Nat)
    (hP : ∀ F : Forest, F.tokens.length ≤ N → ScansThrough categoryMap detRep F)
    {α : Type}
    (elemField : String → Option (Nat → α → List Attr → Decoder → Option (α × Bool × Decoder)))
    (hf : ∀ name dec, elemField name = some dec → StaysInside categoryMap detRep N dec) :
    ∀ (c : Forest) (fuel : Nat) (sv : α) (n : Name) (rest : List Token) (stk : List Name),
    c.tokens.length ≤ N → c.tokens.length + rest.length + 1 < fuel →
    ∃ v1 e d2,
      unmarshalStructLoop elemField fuel sv ⟨c.tokens ++ Token.EndElement n :: rest, n :: stk⟩ =
        some (v1, e, d2) ∧
      (e = false → d2 = ⟨rest, stk⟩) ∧ d2.input.length ≤ c.tokens.length + rest.length + 1 ∧
      ScansTo categoryMap detRep d2 ⟨rest, stk⟩ := by
  intro c
  induction c with
  | nil =>
    intro fuel sv n rest stk _ h
    cases fuel with
    | zero => omega
    | succ fuel =>
      refine ⟨sv, false, ⟨rest, stk⟩, ?_, fun _ => rfl, by simp; omega, scansTo_refl _ _ _⟩
      simp only [Forest.tokens, List.nil_append]
      rw [unmarshalStructLoop, token_end]
  | elem m a c r _ ihr =>
    intro fuel sv n rest stk hN h
    have hcN : c.tokens.length ≤ N := by
      simp only [Forest.tokens, List.length_cons, List.length_append] at hN; omega
    have hrN : r.tokens.length ≤ N := by
      simp only [Forest.tokens, List.length_cons, List.length_append] at hN; omega
    rw [Forest.tokens_elem_append]
    cases fuel with
    | zero => omega
    | succ fuel =>
      have hlen : c.tokens.length + (r.tokens ++ Token.EndElement n :: rest).length + 1 < fuel := by
        simp only [Forest.tokens, List.length_cons, List.length_append] at h ⊢; omega
      have hr : r.tokens.length + rest.length + 1 < fuel := by
        simp only [Forest.tokens, List.length_cons, List.length_append] at h ⊢; omega
      rw [unmarshalStructLoop, token_start]
      simp only []
      cases he : elemField m.Local with
      | none =>
        simp only []
        rw [skip_elem c fuel m _ _ hlen]
        obtain ⟨v1, e, d2, g1, g2, g3, g4⟩ := ihr fuel sv n rest stk hrN hr
        exact ⟨v1, e, d2, g1, g2, by
          simp only [Forest.tokens, List.length_cons, List.length_append]; omega, g4⟩
      | some dec =>
        simp only []
        obtain ⟨sv1, e, d2, hdec, hpos, hlen2, hscan⟩ :=
          hf _ _ he fuel sv a c m (r.tokens ++ Token.EndElement n :: rest) (n :: stk) hcN hlen
        rw [hdec]
        cases e with
        | true =>
          refine ⟨sv1, true, d2, rfl, (fun h => absurd h (by decide)), ?_, ?_⟩
          · simp only [Forest.tokens, List.length_cons, List.length_append] at hlen2 ⊢; omega
          · exact scansTo_trans _ _ _ _ _ hscan (scansTo_content _ _ r (hP r hrN) n rest stk)
        | false =>
          simp only []
          rw [hpos rfl]
          obtain ⟨v1, e, d3, g1, g2, g3, g4⟩ := ihr fuel sv1 n rest stk hrN hr
          exact ⟨v1, e, d3, g1, g2, by
            simp only [Forest.tokens, List.length_cons, List.length_append]; omega, g4⟩
  | misc t r ih =>
    intro fuel sv n rest stk hN h
    have hrN : r.tokens.length ≤ N := by
      simp only [Forest.tokens, List.length_cons] at hN; omega
    rw [Forest.tokens_misc_append]
    cases fuel with
    | zero => omega
    | succ fuel =>
      have hr : r.tokens.length + rest.length + 1 < fuel := by
        simp only [Forest.tokens, List.length_cons, List.length_append] at h ⊢; omega
      have hs : unmarshalStructLoop elemField (fuel + 1) sv
          ⟨t.toToken :: (r.tokens ++ Token.EndElement n :: rest), n :: stk⟩ =
          unmarshalStructLoop elemField fuel sv
            ⟨r.tokens ++ Token.EndElement n :: rest, n :: stk⟩ := by
        cases t <;> rfl
      rw [hs]
      obtain ⟨v1, e, d2, g1, g2, g3, g4⟩ := ih fuel sv n rest stk hrN hr
      exact ⟨v1, e, d2, g1, g2, by
        simp only [Forest.tokens, List.length_cons]; omega, g4⟩

theorem unmarshalStruct_staysInside (categoryMap : String → Option String)
    (detRep : DetReport) (N : Nat)
    (hP : ∀ F : Forest, F.tokens.length ≤ N → ScansThrough categoryMap detRep F)
    {α : Type} (assignAttr : α → Attr → α)
    (elemField : String → Option (Nat → α → List Attr → Decoder → Option (α × Bool × Decoder)))
    (hf : ∀ name dec, elemField name = some dec → StaysInside categoryMap detRep N dec) :
    StaysInside categoryMap detRep N (unmarshalStruct assignAttr elemField) := by
  intro fuel v attrs c n rest stk hN h
  unfold unmarshalStruct
  by_cases hd : maxUnmarshalDepth < (n :: stk).length
  · simp only [hd, if_true]
    exact ⟨v, true, _, rfl, (fun h => absurd h (by decide)), by simp; omega,
      scansTo_content _ _ c (hP c hN) n rest stk⟩
  · simp only [hd, if_false]
    exact unmarshalStructLoop_staysInside categoryMap detRep N hP elemField hf c fuel _ n rest
      stk hN h

theorem unmarshalString_staysInside (categoryMap : String → Option String)
    (detRep : DetReport) (N : Nat)
    (hP : ∀ F : Forest, F.tokens.length ≤ N → ScansThrough categoryMap detRep F) :
    StaysInside categoryMap detRep N unmarshalString := by
  intro fuel v attrs c n rest stk hN h
  unfold unmarshalString
  by_cases hd : maxUnmarshalDepth < (n :: stk).length
  · simp only [hd, if_true]
    exact ⟨v, true, _, rfl, (fun h => absurd h (by decide)), by simp; omega,
      scansTo_content _ _ c (hP c hN) n rest stk⟩
  · simp only [hd, if_false]
    rw [unmarshalStringLoop_forest c fuel "" n rest stk h]
    exact ⟨_, false, _, rfl, fun _ => rfl, by simp; omega, scansTo_refl _ _ _⟩

theorem unmarshalSlice_staysInside (categoryMap : String → Option String)
    (detRep : DetReport) (N : Nat) {β : Type} (zero : β)
    (dec : Nat → β → List Attr → Decoder → Option (β × Bool × Decoder))
    (hd : StaysInside categoryMap detRep N dec) :
    StaysInside categoryMap detRep N (unmarshalSlice zero dec) := by
  intro fuel v attrs c n rest stk hN h
  obtain ⟨v1, e, d2, hdec, hpos, hlen, hscan⟩ := hd fuel zero attrs c n rest stk hN h
  unfold unmarshalSlice
  rw [hdec]
  cases e with
  | true => exact ⟨v, true, d2, rfl, hpos, hlen, hscan⟩
  | false => exact ⟨v ++ [v1], false, d2, rfl, hpos, hlen, hscan⟩

theorem onField_staysInside (categoryMap : String → Option String)
    (detRep : DetReport) (N : Nat) {α β : Type} (get : α → β) (set : α → β → α)
    (dec : Nat → β → List Attr → Decoder → Option (β × Bool × Decoder))
    (hd : StaysInside categoryMap detRep N dec) :
    StaysInside categoryMap detRep N (onField get set dec) := by
  intro fuel v attrs c n rest stk hN h
  obtain ⟨v1, e, d2, hdec, hpos, hlen, hscan⟩ := hd fuel (get v) attrs c n rest stk hN h
  unfold onField
  rw [hdec]
  exact ⟨set v v1, e, d2, rfl, hpos, hlen, hscan⟩

theorem noElemField_staysInside (categoryMap : String → Option String)
    (detRep : DetReport) (N : Nat) {α : Type} (name : String)
    (dec : Nat → α → List Attr → Decoder → Option (α × Bool × Decoder))
    (h : noElemField name = some dec) : StaysInside categoryMap detRep N dec := by
  simp [noElemField] at h

theorem unmarshalCustomField_staysInside (categoryMap : String → Option String)
    (detRep : DetReport) (N : Nat)
    (hP : ∀ F : Forest, F.tokens.length ≤ N → ScansThrough categoryMap detRep F) :
    StaysInside categoryMap detRep N unmarshalCustomField :=
  unmarshalStruct_staysInside _ _ N hP _ _ (noElemField_staysInside _ _ N)

theorem unmarshalFlaw_staysInside (categoryMap : String → Option String)
    (detRep : DetReport) (N : Nat)
    (hP : ∀ F : Forest, F.tokens.length ≤ N → ScansThrough categoryMap detRep F) :
    StaysInside categoryMap detRep N unmarshalFlaw := by
  have hmit : StaysInside categoryMap detRep N unmarshalMitigation :=
    unmarshalStruct_staysInside _ _ N hP _ _ (noElemField_staysInside _ _ N)
  have hann : StaysInside categoryMap detRep N unmarshalAnnotation :=
    unmarshalStruct_staysInside _ _ N hP _ _ (noElemField_staysInside _ _ N)
  have hmits : StaysInside categoryMap detRep N unmarshalMitigations := by
    apply unmarshalStruct_staysInside _ _ N hP
    intro name dec h
    unfold Mitigations.elemField at h
    by_cases hn : name = "mitigation"
    · rw [if_pos hn] at h
      cases h
      exact onField_staysInside _ _ N _ _ _ (unmarshalSlice_staysInside _ _ N _ _ hmit)
    · rw [if_neg hn] at h
      cases h
  have hanns : StaysInside categoryMap detRep N unmarshalAnnotations := by
    apply unmarshalStruct_staysInside _ _ N hP
    intro name dec h
    unfold Annotations.elemField at h
    by_cases hn : name = "annotation"
    · rw [if_pos hn] at h
      cases h
      exact onField_staysInside _ _ N _ _ _ (unmarshalSlice_staysInside _ _ N _ _ hann)
    · rw [if_neg hn] at h
      cases h
  apply unmarshalStruct_staysInside _ _ N hP
  intro name dec h
  unfold Flaw.elemField at h
  by_cases h1 : name = "CategoryName"
  · rw [if_pos h1] at h
    cases h
    exact onField_staysInside _ _ N _ _ _ (unmarshalString_staysInside _ _ N hP)
  · rw [if_neg h1] at h
    by_cases h2 : name = "PolicyName"
    · rw [if_pos h2] at h
      cases h
      exact onField_staysInside _ _ N _ _ _ (unmarshalString_staysInside _ _ N hP)
    · rw [if_neg h2] at h
      by_cases h3 : name = "mitigations"
      · rw [if_pos h3] at h
        cases h
        exact onField_staysInside _ _ N _ _ _ hmits
      · rw [if_neg h3] at h
        by_cases h4 : name = "annotations"
        · rw [if_pos h4] at h
          cases h
          exact onField_staysInside _ _ N _ _ _ hanns
        · rw [if_neg h4] at h
          cases h

theorem scannedNamed_error_elem (n : Name) (a : List Attr) (c r : Forest)
    (h : (Forest.elem n a c r).scannedNamed "error" ≠ []) :
    n.Local = "error" ∨
      (¬ (n.Local = "flaw" ∨ n.Local = "customfield") ∧ c.scannedNamed "error" ≠ []) ∨
      r.scannedNamed "error" ≠ [] := by
  by_cases he : n.Local = "error"
  · exact Or.inl he
  · right
    by_cases hfc : n.Local = "flaw" ∨ n.Local = "customfield"
    · right
      simpa [Forest.scannedNamed, Forest.scanned, he, hfc] using h
    · by_cases hc : c.scannedNamed "error" = []
      · right
        intro hr
        apply h
        simp only [Forest.scannedNamed] at hc hr ⊢
        simp [Forest.scanned, he, hfc, hc, hr]
      · exact Or.inl ⟨hfc, hc⟩

theorem scansThrough_nil (categoryMap : String → Option String) (detRep : DetReport) :
    ScansThrough categoryMap detRep Forest.nil := by
  intro rest stk st fuel _
  exact ⟨st, by simp [Forest.tokens], id, by simp [Forest.scannedNamed, Forest.scanned]⟩

theorem scansThrough_misc (categoryMap : String → Option String) (detRep : DetReport)
    (t : Misc) (r : Forest) (hr : ScansThrough categoryMap detRep r) :
    ScansThrough categoryMap detRep (Forest.misc t r) := by
  intro rest stk st fuel h
  rw [Forest.tokens_misc_append] at h ⊢
  cases fuel with
  | zero => omega
  | succ fuel =>
    have h1 : (r.tokens ++ rest).length < fuel := by simpa using h
    have hrest : rest.length < fuel := by
      simp only [List.length_append] at h1; omega
    obtain ⟨st1, e1, m1, k1⟩ := hr rest stk st fuel h1
    refine ⟨st1, ?_, m1, ?_⟩
    · rw [findingsScan_misc categoryMap detRep fuel st _ ⟨r.tokens ++ rest, stk⟩ t
        (token_misc t _ stk), e1]
      exact findingsScan_fuel _ _ _ _ _ _ hrest (by simp; omega)
    · intro hne
      exact k1 (by simpa [Forest.scannedNamed, Forest.scanned] using hne)

/-- The second loop behind the start tag of an element: from the decoder `d2`
that the blocks of the start tag leave, it gets behind the siblings `r`. -/
theorem scan_after_start (categoryMap : String → Option String) (detRep : DetReport)
    (r : Forest) (hr : ScansThrough categoryMap detRep r) (rest : List Token)
    (stk : List Name) (fuel : Nat) (st1 : Findings) (d2 : Decoder)
    (hscan : ScansTo categoryMap detRep d2 ⟨r.tokens ++ rest, stk⟩)
    (hlen : d2.input.length < fuel) :
    ∃ st3, findingsScan categoryMap detRep fuel st1 d2 =
        findingsScan categoryMap detRep (fuel + 1) st3 ⟨rest, stk⟩ ∧
      (st1.errMsg ≠ none → st3.errMsg ≠ none) ∧
      (r.scannedNamed "error" ≠ [] → st3.errMsg ≠ none) := by
  obtain ⟨st2, e2, m2⟩ := hscan.2 st1 fuel hlen
  have hrl : (r.tokens ++ rest).length < fuel := Nat.lt_of_le_of_lt hscan.1 hlen
  have hrest : rest.length < fuel := by
    simp only [List.length_append] at hrl; omega
  obtain ⟨st3, e3, m3, k3⟩ := hr rest stk st2 fuel hrl
  refine ⟨st3, ?_, fun h => m3 (m2 h), k3⟩
  rw [e2, e3]
  exact findingsScan_fuel _ _ _ _ _ _ hrest (by simp; omega)

theorem scansThrough_elem (categoryMap : String → Option String) (detRep : DetReport)
    (N : Nat) (n : Name) (a : List Attr) (c r : Forest) (hcN : c.tokens.length ≤ N)
    (hc : ScansThrough categoryMap detRep c) (hr : ScansThrough categoryMap detRep r)
    (hflaw : StaysInside categoryMap detRep N unmarshalFlaw)
    (hfield : StaysInside categoryMap detRep N unmarshalCustomField) :
    ScansThrough categoryMap detRep (Forest.elem n a c r) := by
  intro rest stk st fuel h
  rw [Forest.tokens_elem_append] at h ⊢
  cases fuel with
  | zero => omega
  | succ fuel =>
    have h1 : (c.tokens ++ Token.EndElement n :: (r.tokens ++ rest)).length < fuel := by
      simpa using h
    have hcl : c.tokens.length + (r.tokens ++ rest).length + 1 < fuel := by
      simp only [List.length_append, List.length_cons] at h1 ⊢; omega
    rw [findingsScan_start categoryMap detRep fuel st _ _ n a (token_start n a _ stk)]
    by_cases hf : n.Local = "flaw"
    · have hne : ¬ n.Local = "error" := by rw [hf]; decide
      obtain ⟨flaw, e, d2, hdec, _, hlen2, hscan⟩ :=
        hflaw fuel {} a c n (r.tokens ++ rest) stk hcN hcl
      rw [startElementCase_flaw _ _ _ _ _ _ _ hf]
      simp only [flawBlock, DecodeElement, hdec, Option.map_some']
      obtain ⟨st3, e3, m3, k3⟩ := scan_after_start categoryMap detRep r hr rest stk fuel
        _ d2 hscan (by omega)
      refine ⟨st3, e3, m3, ?_⟩
      intro herr
      rcases scannedNamed_error_elem n a c r herr with h | h | h
      · exact absurd h hne
      · exact absurd (Or.inl hf) h.1
      · exact k3 h
    · by_cases hcf : n.Local = "customfield"
      · have hne : ¬ n.Local = "error" := by rw [hcf]; decide
        obtain ⟨cField, e, d2, hdec, _, hlen2, hscan⟩ :=
          hfield fuel {} a c n (r.tokens ++ rest) stk hcN hcl
        rw [startElementCase_customfield _ _ _ _ _ _ _ hcf]
        simp only [customFieldBlock, DecodeElement, hdec, Option.map_some']
        obtain ⟨st3, e3, m3, k3⟩ := scan_after_start categoryMap detRep r hr rest stk fuel
          _ d2 hscan (by omega)
        refine ⟨st3, e3, m3, ?_⟩
        intro herr
        rcases scannedNamed_error_elem n a c r herr with h | h | h
        · exact absurd h hne
        · exact absurd (Or.inr hcf) h.1
        · exact k3 h
      · have hst : ∃ st1, startElementCase categoryMap detRep fuel st n a
              ⟨c.tokens ++ Token.EndElement n :: (r.tokens ++ rest), n :: stk⟩ =
              some (st1, ⟨c.tokens ++ Token.EndElement n :: (r.tokens ++ rest), n :: stk⟩) ∧
            (st.errMsg ≠ none → st1.errMsg ≠ none) ∧
            (n.Local = "error" → st1.errMsg ≠ none) := by
          by_cases he : n.Local = "error"
          · exact ⟨_, startElementCase_error _ _ _ _ _ _ _ he, fun _ => by simp,
              fun _ => by simp⟩
          · exact ⟨_, startElementCase_other _ _ _ _ _ _ _ he hf hcf, id,
              fun h => absurd h he⟩
        obtain ⟨st1, hcase, m1, k1⟩ := hst
        rw [hcase]
        simp only []
        obtain ⟨st2, e2, m2, k2⟩ := hc (Token.EndElement n :: (r.tokens ++ rest)) (n :: stk)
          st1 fuel h1
        obtain ⟨st3, e3, m3, k3⟩ := scan_after_start categoryMap detRep r hr rest stk fuel
          st2 ⟨Token.EndElement n :: (r.tokens ++ rest), n :: stk⟩
          (scansTo_end _ _ n _ stk) (by
            simp only [List.length_append, List.length_cons] at h1 ⊢; omega)
        refine ⟨st3, by rw [e2, e3], fun h => m3 (m2 (m1 h)), ?_⟩
        intro herr
        rcases scannedNamed_error_elem n a c r herr with h | h | h
        · exact m3 (m2 (k1 h))
        · exact m3 (k2 h.2)
        · exact k3 h

/-- The second loop gets through all well-nested content. -/
theorem scansThrough_all (categoryMap : String → Option String) (detRep : DetReport) :
    ∀ (N : Nat) (F : Forest), F.tokens.length ≤ N → ScansThrough categoryMap detRep F := by
  intro N
  induction N with
  | zero =>
    intro F hF
    cases F with
    | nil => exact scansThrough_nil _ _
    | elem n a c r => simp [Forest.tokens] at hF
    | misc t r => simp [Forest.tokens] at hF
  | succ N ih =>
    intro F hF
    cases F with
    | nil => exact scansThrough_nil _ _
    | elem n a c r =>
      have hcN : c.tokens.length ≤ N := by
        simp only [Forest.tokens, List.length_cons, List.length_append] at hF; omega
      have hrN : r.tokens.length ≤ N := by
        simp only [Forest.tokens, List.length_cons, List.length_append] at hF; omega
      exact scansThrough_elem _ _ N n a c r hcN (ih c hcN) (ih r hrN)
        (unmarshalFlaw_staysInside _ _ N ih) (unmarshalCustomField_staysInside _ _ N ih)
    | misc t r =>
      have hrN : r.tokens.length ≤ N := by
        simp only [Forest.tokens, List.length_cons] at hF; omega
      exact scansThrough_misc _ _ t r (ih r hrN)

theorem findingsScan_done (categoryMap : String → Option String) (detRep : DetReport)
    (fuel : Nat) (st : Findings) (stk : List Name) :
    findingsScan categoryMap detRep (fuel + 1) st ⟨[], stk⟩ = some st :=
  findingsScan_none categoryMap detRep fuel st ⟨[], stk⟩ ⟨[], stk⟩ rfl

/-- On a well-formed document of any depth, an `error` element that is not
inside a `flaw` or `customfield` element sets the error that is returned. -/
theorem parseDocument_error_outside (categoryMap : String → Option String) (F : Forest)
    (herror : F.scannedNamed "error" ≠ []) :
    ∃ st, parseDocument categoryMap F.tokens = some st ∧ st.errMsg ≠ none := by
  obtain ⟨detRep, st, _, hs, hp⟩ := parseDocument_isSome categoryMap F.tokens
  obtain ⟨st1, e1, _, k1⟩ := scansThrough_all categoryMap detRep F.tokens.length F
    (Nat.le_refl _) [] [] {} (F.tokens.length + 1) (by simp)
  simp only [List.append_nil] at e1
  rw [NewDecoder, e1, findingsScan_done] at hs
  refine ⟨st, hp, ?_⟩
  rw [← Option.some.inj hs]
  exact k1 herror

/-! ## Elements nested deeper than `maxUnmarshalDepth` -/

theorem flawBlock_refused (categoryMap : String → Option String) (detRep : DetReport)
    (fuel : Nat) (a : List Attr) (d : Decoder) (h : maxUnmarshalDepth < d.stk.length) :
    flawBlock categoryMap detRep fuel a d =
      some ({ CategoryName := (categoryMap "").getD "", PolicyName := detRep.PolicyName }, d) := by
  unfold flawBlock DecodeElement unmarshalFlaw unmarshalStruct
  rw [if_pos h]

theorem customFieldBlock_refused (fuel : Nat) (a : List Attr) (d : Decoder)
    (h : maxUnmarshalDepth < d.stk.length) : customFieldBlock fuel a d = some ({}, d) := by
  unfold customFieldBlock DecodeElement unmarshalCustomField unmarshalStruct
  rw [if_pos h]

theorem startElementCase_refused (categoryMap : String → Option String) (detRep : DetReport)
    (fuel : Nat) (st : Findings) (n : Name) (a : List Attr) (c : Forest) (d : Decoder)
    (h : maxUnmarshalDepth < d.stk.length) :
    startElementCase categoryMap detRep fuel st n a d =
      some (Findings.afterRefused categoryMap detRep st ⟨n, a, c⟩, d) := by
  by_cases hf : n.Local = "flaw"
  · have hc : ¬ n.Local = "customfield" := by rw [hf]; decide
    have he : ¬ n.Local = "error" := by rw [hf]; decide
    rw [startElementCase_flaw _ _ _ _ _ _ _ hf, flawBlock_refused _ _ _ _ _ h]
    simp [Findings.afterRefused, hf, hc, he]
  · by_cases hc : n.Local = "customfield"
    · have he : ¬ n.Local = "error" := by rw [hc]; decide
      rw [startElementCase_customfield _ _ _ _ _ _ _ hc, customFieldBlock_refused _ _ _ h]
      simp [Findings.afterRefused, hf, hc, he]
    · by_cases he : n.Local = "error"
      · rw [startElementCase_error _ _ _ _ _ _ _ he]
        simp [Findings.afterRefused, hf, hc, he]
      · rw [startElementCase_other _ _ _ _ _ _ _ he hf hc]
        simp [Findings.afterRefused, hf, hc, he]

/-- Below `maxUnmarshalDepth` open elements the second loop dispatches every
element: no `flaw` or `customfield` element is decoded, so none of them hides
its content. -/
theorem findingsScan_forest_deep (categoryMap : String → Option String) (detRep : DetReport) :
    ∀ (F : Forest) (fuel : Nat) (st : Findings) (rest : List Token) (stk : List Name),
    (F.tokens ++ rest).length < fuel → maxUnmarshalDepth ≤ stk.length →
    findingsScan categoryMap detRep fuel st ⟨F.tokens ++ rest, stk⟩ =
      findingsScan categoryMap detRep fuel
        (F.elements.foldl (Findings.afterRefused categoryMap detRep) st) ⟨rest, stk⟩ := by
  intro F
  induction F with
  | nil => intro fuel st rest stk _ _; simp [Forest.tokens, Forest.elements]
  | elem n a c r ihc ihr =>
    intro fuel st rest stk h hdeep
    rw [Forest.tokens_elem_append] at h ⊢
    cases fuel with
    | zero => omega
    | succ fuel =>
      have h1 : (c.tokens ++ Token.EndElement n :: (r.tokens ++ rest)).length < fuel := by
        simpa using h
      rw [findingsScan_start categoryMap detRep fuel st _ _ n a (token_start n a _ stk),
        startElementCase_refused categoryMap detRep fuel st n a c _
          (by simp only [List.length_cons]; omega)]
      simp only []
      rw [ihc fuel _ _ (n :: stk) h1 (by simp only [List.length_cons]; omega)]
      cases fuel with
      | zero => omega
      | succ fuel =>
        have hr' : (r.tokens ++ rest).length < fuel := by
          simp only [List.length_append, List.length_cons] at h1 ⊢; omega
        have hrest' : rest.length < fuel := by
          simp only [List.length_append] at hr'; omega
        rw [findingsScan_end categoryMap detRep fuel _ _ ⟨r.tokens ++ rest, stk⟩ n
          (token_end n _ stk)]
        rw [ihr fuel _ rest stk hr' hdeep,
          findingsScan_fuel _ _ fuel (fuel + 1 + 1) _ _ hrest' (by simp; omega)]
        simp only [Forest.elements, List.foldl_cons, List.foldl_append]
  | misc t r ih =>
    intro fuel st rest stk h hdeep
    rw [Forest.tokens_misc_append] at h ⊢
    cases fuel with
    | zero => omega
    | succ fuel =>
      have h1 : (r.tokens ++ rest).length < fuel := by simpa using h
      have hrest : rest.length < fuel := by
        simp only [List.length_append] at h1; omega
      rw [findingsScan_misc categoryMap detRep fuel st _ ⟨r.tokens ++ rest, stk⟩ t
        (token_misc t _ stk), ih fuel st rest stk h1 hdeep,
        findingsScan_fuel _ _ fuel (fuel + 1) _ _ hrest (by simp; omega)]
      simp only [Forest.elements]

/-- The first loop leaves `detRep` as it is on content without an element
named `detailedreport`. -/
theorem metadataScan_no_report :
    ∀ (F : Forest) (fuel : Nat) (detRep : DetReport) (rest : List Token) (stk : List Name),
    (∀ e ∈ F.elements, ¬ e.name.Local = "detailedreport") →
    (F.tokens ++ rest).length < fuel →
    metadataScan fuel detRep ⟨F.tokens ++ rest, stk⟩ =
      metadataScan fuel detRep ⟨rest, stk⟩ := by
  intro F
  induction F with
  | nil => intro fuel st rest stk _ _; simp [Forest.tokens]
  | elem n a c r ihc ihr =>
    intro fuel detRep rest stk hno h
    have hn : ¬ n.Local = "detailedreport" := hno ⟨n, a, c⟩ (by simp [Forest.elements])
    have hc : ∀ e ∈ c.elements, ¬ e.name.Local = "detailedreport" :=
      fun e he => hno e (by simp [Forest.elements, he])
    have hr : ∀ e ∈ r.elements, ¬ e.name.Local = "detailedreport" :=
      fun e he => hno e (by simp [Forest.elements, he])
    rw [Forest.tokens_elem_append] at h ⊢
    cases fuel with
    | zero => omega
    | succ fuel =>
      have h1 : (c.tokens ++ Token.EndElement n :: (r.tokens ++ rest)).length < fuel := by
        simpa using h
      rw [metadataScan_start fuel detRep _ _ n a (token_start n a _ stk), if_neg hn,
        ihc fuel _ _ (n :: stk) hc h1]
      cases fuel with
      | zero => omega
      | succ fuel =>
        have hr' : (r.tokens ++ rest).length < fuel := by
          simp only [List.length_append, List.length_cons] at h1 ⊢; omega
        have hrest' : rest.length < fuel := by
          simp only [List.length_append] at hr'; omega
        rw [metadataScan_end fuel detRep _ ⟨r.tokens ++ rest, stk⟩ n (token_end n _ stk),
          ihr fuel _ rest stk hr hr',
          metadataScan_fuel fuel (fuel + 1 + 1) _ _ hrest' (by simp; omega)]
  | misc t r ih =>
    intro fuel detRep rest stk hno h
    rw [Forest.tokens_misc_append] at h ⊢
    cases fuel with
    | zero => omega
    | succ fuel =>
      have h1 : (r.tokens ++ rest).length < fuel := by simpa using h
      have hrest : rest.length < fuel := by
        simp only [List.length_append] at h1; omega
      rw [metadataScan_misc fuel detRep _ ⟨r.tokens ++ rest, stk⟩ t (token_misc t _ stk),
        ih fuel detRep rest stk (fun e he => hno e (by simpa [Forest.elements] using he)) h1,
        metadataScan_fuel fuel (fuel + 1) _ _ hrest (by simp; omega)]

theorem nest_elements (F : Forest) : ∀ (k : Nat) (e : Element),
    e ∈ (Forest.nest k F).elements → e.name = localName "a" ∨ e ∈ F.elements := by
  intro k
  induction k with
  | zero => intro e h; exact Or.inr h
  | succ k ih =>
    intro e h
    simp only [Forest.nest, Forest.elements, List.append_nil, List.mem_cons] at h
    rcases h with h | h
    · left; rw [h]
    · exact ih e h

theorem nest_scanned (F : Forest) (name : String) (hname : ¬ "a" = name) : ∀ k : Nat,
    (Forest.nest k F).scannedNamed name = F.scannedNamed name := by
  intro k
  induction k with
  | zero => rfl
  | succ k ih =>
    have h1 : (Forest.nest (k + 1) F).scannedNamed name =
        (Forest.nest k F).scannedNamed name := by
      simp [Forest.nest, Forest.scannedNamed, Forest.scanned, localName, hname]
    rw [h1, ih]

theorem nest_depth (F : Forest) (hF : 0 < F.depth) : ∀ k : Nat,
    (Forest.nest k F).depth = F.depth + k := by
  intro k
  induction k with
  | zero => rfl
  | succ k ih =>
    simp only [Forest.nest, Forest.depth, ih]
    omega

/-- The second loop on content inside `k` nested elements `<a>`, from what it
does on the content itself below `k` more open elements. -/
theorem findingsScan_nest (categoryMap : String → Option String) (detRep : DetReport)
    (F : Forest) (st st1 : Findings) (L : Nat)
    (H : ∀ (stk1 : List Name) (rest1 : List Token) (fuel1 : Nat), stk1.length = L →
      (F.tokens ++ rest1).length < fuel1 →
      findingsScan categoryMap detRep fuel1 st ⟨F.tokens ++ rest1, stk1⟩ =
        findingsScan categoryMap detRep fuel1 st1 ⟨rest1, stk1⟩) :
    ∀ (k : Nat) (stk : List Name) (rest : List Token) (fuel : Nat), stk.length + k = L →
    ((Forest.nest k F).tokens ++ rest).length < fuel →
    findingsScan categoryMap detRep fuel st ⟨(Forest.nest k F).tokens ++ rest, stk⟩ =
      findingsScan categoryMap detRep fuel st1 ⟨rest, stk⟩ := by
  intro k
  induction k with
  | zero => intro stk rest fuel hL h; exact H stk rest fuel hL h
  | succ k ih =>
    intro stk rest fuel hL h
    simp only [Forest.nest] at h ⊢
    rw [Forest.tokens_elem_append] at h ⊢
    simp only [Forest.tokens, List.nil_append] at h ⊢
    cases fuel with
    | zero => omega
    | succ fuel =>
      have h1 : ((Forest.nest k F).tokens ++
          Token.EndElement (localName "a") :: rest).length < fuel := by
        simpa using h
      rw [findingsScan_start categoryMap detRep fuel st _ _ _ _ (token_start _ _ _ stk),
        startElementCase_other _ _ _ _ _ _ _ (by decide) (by decide) (by decide)]
      simp only []
      rw [ih (localName "a" :: stk) _ fuel (by simp only [List.length_cons]; omega) h1]
      cases fuel with
      | zero => omega
      | succ fuel =>
        have hrest : rest.length < fuel := by
          simp only [List.length_append, List.length_cons] at h1; omega
        rw [findingsScan_end categoryMap detRep fuel _ _ ⟨rest, stk⟩ _ (token_end _ _ stk)]
        exact findingsScan_fuel _ _ fuel (fuel + 1 + 1) _ _ hrest (by simp; omega)

/-- Both scans on content without a `detailedreport` element inside `k` nested
elements `<a>`. -/
theorem parseDocument_nest (categoryMap : String → Option String) (F : Forest) (k : Nat)
    (st1 : Findings) (hno : ∀ e ∈ F.elements, ¬ e.name.Local = "detailedreport")
    (H : ∀ (stk1 : List Name) (rest1 : List Token) (fuel1 : Nat), stk1.length = k →
      (F.tokens ++ rest1).length < fuel1 →
      findingsScan categoryMap {} fuel1 {} ⟨F.tokens ++ rest1, stk1⟩ =
        findingsScan categoryMap {} fuel1 st1 ⟨rest1, stk1⟩) :
    parseDocument categoryMap (Forest.nest k F).tokens = some st1 := by
  have hm : metadataScan ((Forest.nest k F).tokens.length + 1) {}
      (NewDecoder (Forest.nest k F).tokens) = some {} := by
    have h := metadataScan_no_report (Forest.nest k F) ((Forest.nest k F).tokens.length + 1) {}
      [] [] (fun e he => by
        rcases nest_elements F k e he with h | h
        · rw [h]; decide
        · exact hno e h) (by simp)
    simp only [List.append_nil] at h
    rw [NewDecoder, h]
    rfl
  have hs := findingsScan_nest categoryMap {} F {} st1 k H k [] []
    ((Forest.nest k F).tokens.length + 1) (by simp) (by simp)
  simp only [List.append_nil] at hs
  simp only [parseDocument, hm]
  rw [NewDecoder, hs]
  exact findingsScan_done _ _ _ _ _

/-! ## Elements and their depth -/

theorem elements_depth : ∀ (F : Forest) (e : Element), e ∈ F.elements →
    e.children.depth + 1 ≤ F.depth := by
  intro F
  induction F with
  | nil => intro e h; simp [Forest.elements] at h
  | elem n a c r ihc ihr =>
    intro e h
    simp only [Forest.elements, List.mem_cons, List.mem_append] at h
    rcases h with h | h | h
    · rw [h]; exact depth_elem_children n a c r
    · exact Nat.le_trans (ihc e h) (Nat.le_trans (Nat.le_succ _) (depth_elem_children n a c r))
    · exact Nat.le_trans (ihr e h) (depth_elem_rest n a c r)
  | misc t r ih => intro e h; exact ih e h

theorem scanned_elements : ∀ (F : Forest) (e : Element), e ∈ F.scanned → e ∈ F.elements := by
  intro F
  induction F with
  | nil => intro e h; simp [Forest.scanned] at h
  | elem n a c r ihc ihr =>
    intro e h
    simp only [Forest.scanned, List.mem_cons, List.mem_append] at h
    simp only [Forest.elements, List.mem_cons, List.mem_append]
    rcases h with h | h | h
    · exact Or.inl h
    · by_cases hn : n.Local = "flaw" ∨ n.Local = "customfield"
      · rw [if_pos hn] at h; simp at h
      · rw [if_neg hn] at h; exact Or.inr (Or.inl (ihc e h))
    · exact Or.inr (Or.inr (ihr e h))
  | misc t r ih => intro e h; exact ih e h

theorem scannedNamed_depth (F : Forest) (name : String) (e : Element)
    (h : e ∈ F.scannedNamed name) : e.children.depth + 1 ≤ F.depth :=
  elements_depth F e (scanned_elements F e (List.mem_filter.1 h).1)

/-! ## A `flaw` element without mitigations and annotations, at any depth -/

theorem mitigationElements_elem (m : Name) (a : List Attr) (cm r : Forest) :
    mitigationElements (Forest.elem m a cm r) =
      (if m.Local = "mitigations" then cm.childrenNamed "mitigation" else []) ++
        mitigationElements r := by
  unfold mitigationElements
  rw [childrenNamed_elem]
  by_cases h : m.Local = "mitigations" <;> simp [h]

theorem annotationElements_elem (m : Name) (a : List Attr) (cm r : Forest) :
    annotationElements (Forest.elem m a cm r) =
      (if m.Local = "annotations" then cm.childrenNamed "annotation" else []) ++
        annotationElements r := by
  unfold annotationElements
  rw [childrenNamed_elem]
  by_cases h : m.Local = "annotations" <;> simp [h]

/-- A string field is refused, or it takes the element up to its end tag. -/
theorem unmarshalString_elem (fuel : Nat) (v : String) (a : List Attr) (c : Forest) (m : Name)
    (rest : List Token) (stk : List Name) (h : c.tokens.length + rest.length + 1 < fuel) :
    (∃ d, unmarshalString fuel v a ⟨c.tokens ++ Token.EndElement m :: rest, m :: stk⟩ =
        some (v, true, d)) ∨
    (∃ x, unmarshalString fuel v a ⟨c.tokens ++ Token.EndElement m :: rest, m :: stk⟩ =
        some (x, false, ⟨rest, stk⟩)) := by
  unfold unmarshalString
  by_cases hd : maxUnmarshalDepth < (m :: stk).length
  · left
    exact ⟨_, by rw [if_pos hd]⟩
  · right
    refine ⟨c.charData "", ?_⟩
    rw [if_neg hd, unmarshalStringLoop_forest c fuel "" m rest stk h]

/-- A `mitigations` element without a `mitigation` child is refused, or it is
read up to its end tag, and the value does not change. -/
theorem unmarshalMitigations_elem (fuel : Nat) (v : Mitigations) (a : List Attr) (c : Forest)
    (m : Name) (rest : List Token) (stk : List Name)
    (h : c.tokens.length + rest.length + 1 < fuel) (hc : c.childrenNamed "mitigation" = []) :
    (∃ d, unmarshalMitigations fuel v a ⟨c.tokens ++ Token.EndElement m :: rest, m :: stk⟩ =
        some (v, true, d)) ∨
    unmarshalMitigations fuel v a ⟨c.tokens ++ Token.EndElement m :: rest, m :: stk⟩ =
        some (v, false, ⟨rest, stk⟩) := by
  unfold unmarshalMitigations unmarshalStruct
  by_cases hd : maxUnmarshalDepth < (m :: stk).length
  · left
    exact ⟨_, by rw [if_pos hd]⟩
  · right
    have hv : a.foldl (fun (s : Mitigations) _ => s) v = v :=
      foldl_preserves id _ (fun _ _ => rfl) a v
    rw [if_neg hd, hv]
    refine unmarshalStructLoop_skipAll Mitigations.elemField c fuel v m rest stk ?_ h
    intro e he
    have hne : ¬ e.name.Local = "mitigation" := by
      intro heq
      have : e ∈ c.childrenNamed "mitigation" :=
        List.mem_filter.2 ⟨he, by simpa using heq⟩
      rw [hc] at this
      cases this
    simp [Mitigations.elemField, hne]

/-- An `annotations` element without an `annotation` child is refused, or it is
read up to its end tag, and the value does not change. -/
theorem unmarshalAnnotations_elem (fuel : Nat) (v : Annotations) (a : List Attr) (c : Forest)
    (m : Name) (rest : List Token) (stk : List Name)
    (h : c.tokens.length + rest.length + 1 < fuel) (hc : c.childrenNamed "annotation" = []) :
    (∃ d, unmarshalAnnotations fuel v a ⟨c.tokens ++ Token.EndElement m :: rest, m :: stk⟩ =
        some (v, true, d)) ∨
    unmarshalAnnotations fuel v a ⟨c.tokens ++ Token.EndElement m :: rest, m :: stk⟩ =
        some (v, false, ⟨rest, stk⟩) := by
  unfold unmarshalAnnotations unmarshalStruct
  by_cases hd : maxUnmarshalDepth < (m :: stk).length
  · left
    exact ⟨_, by rw [if_pos hd]⟩
  · right
    have hv : a.foldl (fun (s : Annotations) _ => s) v = v :=
      foldl_preserves id _ (fun _ _ => rfl) a v
    rw [if_neg hd, hv]
    refine unmarshalStructLoop_skipAll Annotations.elemField c fuel v m rest stk ?_ h
    intro e he
    have hne : ¬ e.name.Local = "annotation" := by
      intro heq
      have : e ∈ c.childrenNamed "annotation" :=
        List.mem_filter.2 ⟨he, by simpa using heq⟩
      rw [hc] at this
      cases this
    simp [Annotations.elemField, hne]

/-- The loop of `unmarshalFlaw` on content without a `mitigation` element in a
`mitigations` child and without an `annotation` element in an `annotations`
child, below any number of open elements: it returns, and the mitigations and
annotations of the flaw are the ones it started with. -/
theorem flawLoop_no_history : ∀ (c : Forest) (fuel : Nat) (f : Flaw) (n : Name)
    (rest : List Token) (stk : List Name), c.tokens.length + rest.length + 1 < fuel →
    mitigationElements c = [] → annotationElements c = [] →
    ∃ f1 e d2, unmarshalStructLoop Flaw.elemField fuel f
        ⟨c.tokens ++ Token.EndElement n :: rest, n :: stk⟩ = some (f1, e, d2) ∧
      f1.Mitigations = f.Mitigations ∧ f1.Annotations = f.Annotations := by
  intro c
  induction c with
  | nil =>
    intro fuel f n rest stk h _ _
    cases fuel with
    | zero => omega
    | succ fuel =>
      refine ⟨f, false, ⟨rest, stk⟩, ?_, rfl, rfl⟩
      simp only [Forest.tokens, List.nil_append]
      exact structLoop_end _ fuel f _ _ n (token_end n rest stk)
  | elem m a cm r _ ihr =>
    intro fuel f n rest stk h hm ha
    rw [mitigationElements_elem] at hm
    rw [annotationElements_elem] at ha
    obtain ⟨hm1, hm2⟩ := List.append_eq_nil.mp hm
    obtain ⟨ha1, ha2⟩ := List.append_eq_nil.mp ha
    rw [Forest.tokens_elem_append]
    have hlen0 : (Forest.elem m a cm r).tokens.length =
        cm.tokens.length + r.tokens.length + 2 := by
      simp [Forest.tokens]; omega
    rw [hlen0] at h
    cases fuel with
    | zero => omega
    | succ fuel =>
      have hlen : cm.tokens.length + (r.tokens ++ Token.EndElement n :: rest).length + 1 <
          fuel := by
        simp only [List.length_append, List.length_cons]; omega
      have hr : r.tokens.length + rest.length + 1 < fuel := by omega
      by_cases h1 : m.Local = "CategoryName"
      · rw [structLoop_field Flaw.elemField fuel f _ _ m a _ (token_start m a _ _)
          (by rw [Flaw.elemField, if_pos h1])]
        rcases unmarshalString_elem fuel f.CategoryName a cm m _ (n :: stk) hlen with
          ⟨d, hd⟩ | ⟨x, hx⟩
        · exact ⟨_, true, d, by simp only [onField, hd], rfl, rfl⟩
        · obtain ⟨f1, e, d2, hl, g1, g2⟩ :=
            ihr fuel { f with CategoryName := x } n rest stk hr hm2 ha2
          exact ⟨f1, e, d2, by simp only [onField, hx]; exact hl, g1, g2⟩
      · by_cases h2 : m.Local = "PolicyName"
        · rw [structLoop_field Flaw.elemField fuel f _ _ m a _ (token_start m a _ _)
            (by rw [Flaw.elemField, if_neg h1, if_pos h2])]
          rcases unmarshalString_elem fuel f.PolicyName a cm m _ (n :: stk) hlen with
            ⟨d, hd⟩ | ⟨x, hx⟩
          · exact ⟨_, true, d, by simp only [onField, hd], rfl, rfl⟩
          · obtain ⟨f1, e, d2, hl, g1, g2⟩ :=
              ihr fuel { f with PolicyName := x } n rest stk hr hm2 ha2
            exact ⟨f1, e, d2, by simp only [onField, hx]; exact hl, g1, g2⟩
        · by_cases h3 : m.Local = "mitigations"
          · rw [structLoop_field Flaw.elemField fuel f _ _ m a _ (token_start m a _ _)
              (by rw [Flaw.elemField, if_neg h1, if_neg h2, if_pos h3])]
            rw [if_pos h3] at hm1
            rcases unmarshalMitigations_elem fuel f.Mitigations a cm m _ (n :: stk) hlen hm1
              with ⟨d, hd⟩ | hx
            · exact ⟨_, true, d, by simp only [onField, hd], rfl, rfl⟩
            · obtain ⟨f1, e, d2, hl, g1, g2⟩ := ihr fuel f n rest stk hr hm2 ha2
              exact ⟨f1, e, d2, by simp only [onField, hx]; exact hl, g1, g2⟩
          · by_cases h4 : m.Local = "annotations"
            · rw [structLoop_field Flaw.elemField fuel f _ _ m a _ (token_start m a _ _)
                (by rw [Flaw.elemField, if_neg h1, if_neg h2, if_neg h3, if_pos h4])]
              rw [if_pos h4] at ha1
              rcases unmarshalAnnotations_elem fuel f.Annotations a cm m _ (n :: stk) hlen ha1
                with ⟨d, hd⟩ | hx
              · exact ⟨_, true, d, by simp only [onField, hd], rfl, rfl⟩
              · obtain ⟨f1, e, d2, hl, g1, g2⟩ := ihr fuel f n rest stk hr hm2 ha2
                exact ⟨f1, e, d2, by simp only [onField, hx]; exact hl, g1, g2⟩
            · rw [structLoop_skip Flaw.elemField fuel f _ _ m a (token_start m a _ _)
                (by simp [Flaw.elemField, h1, h2, h3, h4]),
                skip_elem cm fuel m _ (n :: stk) hlen]
              exact ihr fuel f n rest stk hr hm2 ha2
  | misc t r ih =>
    intro fuel f n rest stk h hm ha
    rw [Forest.tokens_misc_append]
    cases fuel with
    | zero => omega
    | succ fuel =>
      rw [structLoop_misc Flaw.elemField fuel f _ _ t (token_misc t _ _)]
      refine ih fuel f n rest stk ?_ hm ha
      simp [Forest.tokens] at h
      omega

/-! ## The records of the second loop only grow -/

theorem startElementCase_grows (categoryMap : String → Option String) (detRep : DetReport)
    (fuel : Nat) (st st1 : Findings) (n : Name) (a : List Attr) (d1 d2 : Decoder)
    (h : startElementCase categoryMap detRep fuel st n a d1 = some (st1, d2)) :
    st.flaws <+: st1.flaws ∧ st.customFields <+: st1.customFields := by
  by_cases hf : n.Local = "flaw"
  · rw [startElementCase_flaw _ _ _ _ _ _ _ hf] at h
    cases hb : flawBlock categoryMap detRep fuel a d1 with
    | none => simp [hb] at h
    | some r =>
      simp [hb] at h
      rw [← h.1]
      exact ⟨List.prefix_append _ _, List.prefix_refl _⟩
  · by_cases hc : n.Local = "customfield"
    · rw [startElementCase_customfield _ _ _ _ _ _ _ hc] at h
      cases hb : customFieldBlock fuel a d1 with
      | none => simp [hb] at h
      | some r =>
        simp [hb] at h
        rw [← h.1]
        exact ⟨List.prefix_refl _, List.prefix_append _ _⟩
    · by_cases he : n.Local = "error"
      · rw [startElementCase_error _ _ _ _ _ _ _ he] at h
        simp at h
        rw [← h.1]
        exact ⟨List.prefix_refl _, List.prefix_refl _⟩
      · rw [startElementCase_other _ _ _ _ _ _ _ he hf hc] at h
        simp at h
        rw [← h.1]
        exact ⟨List.prefix_refl _, List.prefix_refl _⟩

theorem findingsScan_grows (categoryMap : String → Option String) (detRep : DetReport) :
    ∀ (fuel : Nat) (st st1 : Findings) (d : Decoder),
    findingsScan categoryMap detRep fuel st d = some st1 →
    st.flaws <+: st1.flaws ∧ st.customFields <+: st1.customFields := by
  intro fuel
  induction fuel with
  | zero => intro st st1 d h; simp [findingsScan] at h
  | succ fuel ih =>
    intro st st1 d h
    rcases d.Token_cases with ⟨d1, ht, _⟩ | ⟨t, d1, ht, _⟩
    · simp [findingsScan, ht] at h
      rw [← h]; exact ⟨List.prefix_refl _, List.prefix_refl _⟩
    · cases t with
      | StartElement n a =>
        cases hsc : startElementCase categoryMap detRep fuel st n a d1 with
        | none => simp [findingsScan, ht, hsc] at h
        | some r =>
          obtain ⟨st2, d2⟩ := r
          simp [findingsScan, ht, hsc] at h
          obtain ⟨g1, g2⟩ := startElementCase_grows _ _ _ _ _ _ _ _ _ hsc
          obtain ⟨k1, k2⟩ := ih st2 st1 d2 h
          exact ⟨List.IsPrefix.trans g1 k1, List.IsPrefix.trans g2 k2⟩
      | EndElement n => simp [findingsScan, ht] at h; exact ih st st1 d1 h
      | CharData s => simp [findingsScan, ht] at h; exact ih st st1 d1 h
      | Comment s => simp [findingsScan, ht] at h; exact ih st st1 d1 h
      | ProcInst s i => simp [findingsScan, ht] at h; exact ih st st1 d1 h
      | Directive s => simp [findingsScan, ht] at h; exact ih st st1 d1 h

/-! ## The parser on the documents that are nested deeper than `maxUnmarshalDepth` -/

/-- A `flaw` element with `maxUnmarshalDepth - 1` open ancestors is decoded,
and its `mitigations` child is refused: the decoder stays behind the start tag
of the child. -/
theorem flawBlock_mitigations_refused (categoryMap : String → Option String)
    (detRep : DetReport) (fuel : Nat) (a a1 : List Attr) (R : List Token) (n m : Name)
    (stk : List Name) (hm : m.Local = "mitigations")
    (hstk : stk.length + 1 = maxUnmarshalDepth) :
    flawBlock categoryMap detRep (fuel + 1) a ⟨Token.StartElement m a1 :: R, n :: stk⟩ =
      some ({ (a.foldl Flaw.assignAttr {}) with
                CategoryName := (categoryMap (a.foldl Flaw.assignAttr {}).CategoryID).getD "",
                PolicyName := detRep.PolicyName }, ⟨R, m :: n :: stk⟩) := by
  have h1 : ¬ m.Local = "CategoryName" := by rw [hm]; decide
  have h2 : ¬ m.Local = "PolicyName" := by rw [hm]; decide
  have hdeep : maxUnmarshalDepth < (m :: n :: stk).length := by
    simp only [List.length_cons]; omega
  unfold flawBlock DecodeElement unmarshalFlaw unmarshalStruct
  rw [if_neg (by simp only [List.length_cons]; omega),
    structLoop_field Flaw.elemField fuel _ _ _ m a1 _ (token_start m a1 R (n :: stk))
      (by rw [Flaw.elemField, if_neg h1, if_neg h2, if_pos hm])]
  simp only [onField, unmarshalMitigations, unmarshalStruct]
  rw [if_pos hdeep]

theorem deepFlaw_parsed (categoryMap : String → Option String) :
    parseDocument categoryMap deepFlaw.tokens =
      some (plainFlaw.elements.foldl (Findings.afterRefused categoryMap {}) {}) :=
  parseDocument_nest categoryMap plainFlaw maxUnmarshalDepth _ (by decide)
    (fun stk1 rest1 fuel1 hL h =>
      findingsScan_forest_deep categoryMap {} plainFlaw fuel1 {} rest1 stk1 h (by omega))

theorem deepFlawAroundError_parsed (categoryMap : String → Option String) :
    parseDocument categoryMap deepFlawAroundError.tokens =
      some (flawAroundError.elements.foldl (Findings.afterRefused categoryMap {}) {}) :=
  parseDocument_nest categoryMap flawAroundError maxUnmarshalDepth _ (by decide)
    (fun stk1 rest1 fuel1 hL h =>
      findingsScan_forest_deep categoryMap {} flawAroundError fuel1 {} rest1 stk1 h (by omega))

theorem mitigatedFlaw_scan (stk1 : List Name) (rest1 : List Token) (fuel1 : Nat)
    (hL : stk1.length = maxUnmarshalDepth - 1)
    (h : (mitigatedFlaw.tokens ++ rest1).length < fuel1) :
    findingsScan exampleCategoryMap {} fuel1 {} ⟨mitigatedFlaw.tokens ++ rest1, stk1⟩ =
      findingsScan exampleCategoryMap {} fuel1 { flaws := [{ Issueid := "7" }] }
        ⟨rest1, stk1⟩ := by
  have hmax : maxUnmarshalDepth = 10000 := rfl
  have htok : mitigatedFlaw.tokens ++ rest1 =
      Token.StartElement (localName "flaw") [attr "issueid" "7"] ::
        Token.StartElement (localName "mitigations") [] ::
          (oneMitigation.tokens ++ Token.EndElement (localName "mitigations") ::
            Token.EndElement (localName "flaw") :: rest1) := by
    simp [mitigatedFlaw, Forest.tokens]
  have hone : oneMitigation.tokens.length = 2 := rfl
  rw [htok] at h ⊢
  simp only [List.length_cons, List.length_append, hone] at h
  obtain ⟨k, rfl⟩ : ∃ k, fuel1 = k + 1 + 1 + 1 + 1 := ⟨fuel1 - 4, by omega⟩
  rw [findingsScan_start exampleCategoryMap {} (k + 1 + 1 + 1) {} _ _ _ _
      (token_start _ _ _ stk1),
    startElementCase_flaw _ _ _ _ _ _ _ rfl,
    flawBlock_mitigations_refused exampleCategoryMap {} (k + 1 + 1) _ _ _ _ _ stk1 rfl
      (by omega)]
  simp only [Option.map_some']
  rw [findingsScan_forest_deep exampleCategoryMap {} oneMitigation (k + 1 + 1 + 1) _ _ _
      (by simp only [List.length_cons, List.length_append, hone]; omega)
      (by simp only [List.length_cons]; omega),
    findingsScan_end exampleCategoryMap {} (k + 1 + 1) _ _ _ _ (token_end _ _ _),
    findingsScan_end exampleCategoryMap {} (k + 1) _ _ _ _ (token_end _ _ _),
    findingsScan_fuel exampleCategoryMap {} (k + 1) (k + 1 + 1 + 1 + 1) _ _
      (by simp only []; omega) (by simp only []; omega)]
  rfl

theorem deepMitigatedFlaw_parsed :
    parseDocument exampleCategoryMap deepMitigatedFlaw.tokens =
      some { flaws := [{ Issueid := "7" }] } :=
  parseDocument_nest exampleCategoryMap mitigatedFlaw (maxUnmarshalDepth - 1) _ (by decide)
    (fun stk1 rest1 fuel1 hL h => mitigatedFlaw_scan stk1 rest1 fuel1 hL h)

theorem sameCategoryFlaws_scan (stk1 : List Name) (rest1 : List Token) (fuel1 : Nat)
    (hL : stk1.length = maxUnmarshalDepth - 1)
    (h : (sameCategoryFlaws.tokens ++ rest1).length < fuel1) :
    findingsScan exampleCategoryMap {} fuel1 {} ⟨sameCategoryFlaws.tokens ++ rest1, stk1⟩ =
      findingsScan exampleCategoryMap {} fuel1
        { flaws := [{ Issueid := "1", CategoryID := "10", CategoryName := "Cat10" }, {}] }
        ⟨rest1, stk1⟩ := by
  have hmax : maxUnmarshalDepth = 10000 := rfl
  have htok : sameCategoryFlaws.tokens ++ rest1 =
      plainFlaw.tokens ++ (Token.StartElement (localName "b") [] ::
        (secondFlaw.tokens ++ Token.EndElement (localName "b") :: rest1)) := by
    simp [sameCategoryFlaws, plainFlaw, Forest.tokens]
  have hplain : plainFlaw.tokens.length = 2 := rfl
  have hsecond : secondFlaw.tokens.length = 2 := rfl
  have hdepth : plainFlaw.depth = 1 := rfl
  rw [htok] at h ⊢
  rw [findingsScan_forest exampleCategoryMap {} plainFlaw fuel1 {} _ stk1 h
    (by rw [hdepth]; omega)]
  simp only [List.length_cons, List.length_append, hplain, hsecond] at h
  obtain ⟨k, rfl⟩ : ∃ k, fuel1 = k + 1 + 1 := ⟨fuel1 - 2, by omega⟩
  rw [findingsScan_start exampleCategoryMap {} (k + 1) _ _ _ _ _ (token_start _ _ _ stk1),
    startElementCase_other _ _ _ _ _ _ _ (by decide) (by decide) (by decide)]
  simp only []
  rw [findingsScan_forest_deep exampleCategoryMap {} secondFlaw (k + 1) _ _ _
      (by simp only [List.length_cons, List.length_append, hsecond]; omega)
      (by simp only [List.length_cons]; omega),
    findingsScan_end exampleCategoryMap {} k _ _ _ _ (token_end _ _ _),
    findingsScan_fuel exampleCategoryMap {} k (k + 1 + 1) _ _
      (by simp only []; omega) (by simp only []; omega)]
  rfl

theorem deepSameCategoryFlaws_parsed :
    parseDocument exampleCategoryMap deepSameCategoryFlaws.tokens =
      some { flaws := [{ Issueid := "1", CategoryID := "10", CategoryName := "Cat10" }, {}] } :=
  parseDocument_nest exampleCategoryMap sameCategoryFlaws (maxUnmarshalDepth - 1) _
    (by decide) (fun stk1 rest1 fuel1 hL h => sameCategoryFlaws_scan stk1 rest1 fuel1 hL h)

/-! ## The claims -/

/-- C1, as stated, fails: the well-formed document
`<detailedreport><flaw issueid="1"><flaw issueid="2"/></flaw></detailedreport>`
contains two `flaw` elements, and the parser returns one Flaw record. -/
theorem C1_counterexample :
    (flawInFlaw.elementsNamed "flaw").length = 2 ∧
    ParseDetailedReport (fetched flawInFlaw.tokens) exampleCategoryMap "u" "p" "b" =
      some (Outcome.returned [{ Issueid := "1" }] [] none) := by
  decide

/-- C1, amended: for every well-formed document whose elements are nested at
most `maxUnmarshalDepth` = 10000 deep, the parser returns exactly one Flaw
record for each `flaw` element that is not inside another `flaw` or a
`customfield` element, in document order, and the i-th record is the one that
the `flaw` block decodes from the i-th such element. -/
theorem C1_flaw_records_in_document_order
    (detailedReport : String → String → String → List Token × Option String)
    (categoryMap : String → Option String) (username password build_id : String)
    (F : Forest) (hfetch : detailedReport username password build_id = (F.tokens, none))
    (hdepth : F.depth ≤ maxUnmarshalDepth) :
    ∃ detRep flaws customFields err,
      metadataScan (F.tokens.length + 1) {} (NewDecoder F.tokens) = some detRep ∧
      ParseDetailedReport detailedReport categoryMap username password build_id =
        some (Outcome.returned flaws customFields err) ∧
      flaws.length = (F.scannedNamed "flaw").length ∧
      flaws.map some = (F.scannedNamed "flaw").map (decodeFlawElement categoryMap detRep) := by
  refine ⟨F.metadata {}, _, _, _, (parseDocument_forest categoryMap F hdepth).1,
    ParseDetailedReport_forest detailedReport categoryMap username password build_id F hfetch
      hdepth,
    by simp, ?_⟩
  rw [List.map_map]
  apply List.map_congr_left
  intro e he
  simp only [Function.comp]
  rw [decodeFlawElement_eq categoryMap (F.metadata {}) e
    (Nat.le_trans (scannedNamed_depth F "flaw" e he) hdepth)]

/-- C1, amended, on the document `exampleReport`. -/
theorem C1_flaw_records_in_document_order_witness :
    fetched exampleReport.tokens "u" "p" "b" = (exampleReport.tokens, none) ∧
    exampleReport.depth ≤ maxUnmarshalDepth ∧
    ∃ detRep flaws customFields err,
      metadataScan (exampleReport.tokens.length + 1) {} (NewDecoder exampleReport.tokens) =
        some detRep ∧
      ParseDetailedReport (fetched exampleReport.tokens) exampleCategoryMap "u" "p" "b" =
        some (Outcome.returned flaws customFields err) ∧
      flaws.length = (exampleReport.scannedNamed "flaw").length ∧
      flaws.map some =
        (exampleReport.scannedNamed "flaw").map (decodeFlawElement exampleCategoryMap detRep) :=
  ⟨rfl, by decide,
    C1_flaw_records_in_document_order (fetched exampleReport.tokens) exampleCategoryMap
      "u" "p" "b" exampleReport rfl (by decide)⟩

/-- C2, as stated, fails: the well-formed document `<detailedreport>`
`<flaw issueid="1"><customfield name="x" value="y"/></flaw></detailedreport>`
contains one `customfield` element, and the parser returns no CustomField
record. -/
theorem C2_counterexample :
    (customFieldInFlaw.elementsNamed "customfield").length = 1 ∧
    ParseDetailedReport (fetched customFieldInFlaw.tokens) exampleCategoryMap "u" "p" "b" =
      some (Outcome.returned [{ Issueid := "1" }] [] none) := by
  decide

/-- C2, amended: for every well-formed document whose elements are nested at
most `maxUnmarshalDepth` = 10000 deep, the parser returns exactly one
CustomField record for each `customfield` element that is not inside a `flaw`
or another `customfield` element, in document order, and the i-th record
carries the `name` and `value` attributes of the i-th such element. -/
theorem C2_custom_fields_in_document_order
    (detailedReport : String → String → String → List Token × Option String)
    (categoryMap : String → Option String) (username password build_id : String)
    (F : Forest) (hfetch : detailedReport username password build_id = (F.tokens, none))
    (hdepth : F.depth ≤ maxUnmarshalDepth) :
    ∃ flaws customFields err,
      ParseDetailedReport detailedReport categoryMap username password build_id =
        some (Outcome.returned flaws customFields err) ∧
      customFields.length = (F.scannedNamed "customfield").length ∧
      customFields = (F.scannedNamed "customfield").map
        (fun e => { Name := attrValue e.attrs "name", Value := attrValue e.attrs "value" }) := by
  refine ⟨_, _, _,
    ParseDetailedReport_forest detailedReport categoryMap username password build_id F hfetch
      hdepth,
    by simp, ?_⟩
  simp [customField_value_eq]

/-- C2, amended, on the document `exampleReport`. -/
theorem C2_custom_fields_in_document_order_witness :
    fetched exampleReport.tokens "u" "p" "b" = (exampleReport.tokens, none) ∧
    exampleReport.depth ≤ maxUnmarshalDepth ∧
    ∃ flaws customFields err,
      ParseDetailedReport (fetched exampleReport.tokens) exampleCategoryMap "u" "p" "b" =
        some (Outcome.returned flaws customFields err) ∧
      customFields.length = (exampleReport.scannedNamed "customfield").length ∧
      customFields = (exampleReport.scannedNamed "customfield").map
        (fun e => { Name := attrValue e.attrs "name", Value := attrValue e.attrs "value" }) :=
  ⟨rfl, by decide,
    C2_custom_fields_in_document_order (fetched exampleReport.tokens) exampleCategoryMap
      "u" "p" "b" exampleReport rfl (by decide)⟩

/-- C3, as stated, fails: the document
`<detailedreport><flaw issueid="1"><error/></flaw></detailedreport>` contains
an `error` element, and the error that the parser returns is nil. -/
theorem C3_counterexample :
    containsElement "error" errorInFlaw.tokens = true ∧
    ParseDetailedReport (fetched errorInFlaw.tokens) exampleCategoryMap "u" "p" "b" =
      some (Outcome.returned [{ Issueid := "1" }] [] none) := by
  decide

/-- C3, amended: for every well-formed document that contains an `error`
element that is not inside a `flaw` or `customfield` element, the error that
the parser returns is non-nil, whatever `flaw` and `customfield` elements the
document has. -/
theorem C3_error_element_outside_flaw
    (detailedReport : String → String → String → List Token × Option String)
    (categoryMap : String → Option String) (username password build_id : String)
    (F : Forest) (hfetch : detailedReport username password build_id = (F.tokens, none))
    (herror : F.scannedNamed "error" ≠ []) :
    ∃ flaws customFields err,
      ParseDetailedReport detailedReport categoryMap username password build_id =
        some (Outcome.returned flaws customFields (some err)) := by
  obtain ⟨st, hp, herr⟩ := parseDocument_error_outside categoryMap F herror
  cases he : st.errMsg with
  | none => exact absurd he herr
  | some err =>
    refine ⟨st.flaws, st.customFields, err, ?_⟩
    rw [ParseDetailedReport_fetched _ _ _ _ _ _ hfetch, hp]
    simp [he]

/-- C3, amended, on the document
`<detailedreport><error/><flaw issueid="1"/></detailedreport>`. -/
theorem C3_error_element_outside_flaw_witness :
    fetched errorBesideFlaw.tokens "u" "p" "b" = (errorBesideFlaw.tokens, none) ∧
    errorBesideFlaw.scannedNamed "error" ≠ [] ∧
    ∃ flaws customFields err,
      ParseDetailedReport (fetched errorBesideFlaw.tokens) exampleCategoryMap "u" "p" "b" =
        some (Outcome.returned flaws customFields (some err)) :=
  ⟨rfl, by decide, C3_error_element_outside_flaw (fetched errorBesideFlaw.tokens)
    exampleCategoryMap "u" "p" "b" errorBesideFlaw rfl (by decide)⟩

/-- C4: for every document without an `error` element, well formed or not, the
error that `ParseDetailedReport` returns is nil.  Neither a tokenizer error
(the token sequence may be cut short, or its tags mismatched) nor a failed
decode of a `flaw` or `customfield` element makes it non-nil. -/
theorem C4_no_error_element_nil_error
    (detailedReport : String → String → String → List Token × Option String)
    (categoryMap : String → Option String) (username password build_id : String)
    (doc : List Token) (hfetch : detailedReport username password build_id = (doc, none))
    (hno : containsElement "error" doc = false) :
    ∃ flaws customFields,
      ParseDetailedReport detailedReport categoryMap username password build_id =
        some (Outcome.returned flaws customFields none) := by
  obtain ⟨detRep, _, hm, _, _⟩ := parseDocument_isSome categoryMap doc
  obtain ⟨st, hst, he⟩ := findingsScan_errMsg categoryMap detRep (doc.length + 1) {}
    (NewDecoder doc) (by simp [NewDecoder]) hno
  refine ⟨st.flaws, st.customFields, ?_⟩
  rw [ParseDetailedReport_fetched _ _ _ _ _ _ hfetch]
  simp only [parseDocument, hm, hst, Option.map_some']
  rw [he]

/-- C4 on the truncated document `<detailedreport><flaw issueid="1"><mitigations>`,
where the tokenizer fails and the decode of the `flaw` element fails. -/
theorem C4_no_error_element_nil_error_witness :
    fetched truncatedFlaw "u" "p" "b" = (truncatedFlaw, none) ∧
    containsElement "error" truncatedFlaw = false ∧
    ∃ flaws customFields,
      ParseDetailedReport (fetched truncatedFlaw) exampleCategoryMap "u" "p" "b" =
        some (Outcome.returned flaws customFields none) :=
  ⟨rfl, by decide, C4_no_error_element_nil_error (fetched truncatedFlaw) exampleCategoryMap
    "u" "p" "b" truncatedFlaw rfl (by decide)⟩

/-- C5, as stated, fails: the document
`<detailedreport><flaw issueid="1"><error/></flaw></detailedreport>` is the
document `<detailedreport><flaw issueid="1"></flaw></detailedreport>` with an
empty `<error/>` element added, and the error that the parser returns for it
is nil. -/
theorem C5_counterexample :
    ParseDetailedReport (fetched (flawOpened ++ flawClosed)) exampleCategoryMap "u" "p" "b" =
      some (Outcome.returned [{ Issueid := "1" }] [] none) ∧
    ParseDetailedReport (fetched (flawOpened ++ emptyError ++ flawClosed)) exampleCategoryMap
        "u" "p" "b" =
      some (Outcome.returned [{ Issueid := "1" }] [] none) := by
  decide

/-- C5, amended: for every document D, well formed or not, and every document
D' obtained from D by adding an empty `<error/>` element anywhere,
`ParseDetailedReport` returns the same flaw sequence and the same custom-field
sequence for D' as for D; and when D is well formed and the element is added
at a place that is not inside a `flaw` or `customfield` element, the error
returned for D' is non-nil. -/
theorem C5_added_error_keeps_data
    (detailedReport detailedReport1 : String → String → String → List Token × Option String)
    (categoryMap : String → Option String) (username password build_id : String)
    (pre post : List Token)
    (hfetch : detailedReport username password build_id = (pre ++ post, none))
    (hfetch1 : detailedReport1 username password build_id =
      (pre ++ emptyError ++ post, none)) :
    ∃ flaws customFields err err1,
      ParseDetailedReport detailedReport categoryMap username password build_id =
        some (Outcome.returned flaws customFields err) ∧
      ParseDetailedReport detailedReport1 categoryMap username password build_id =
        some (Outcome.returned flaws customFields err1) ∧
      ∀ F F1 : Forest, AddedOutside F F1 → F.tokens = pre ++ post →
        F1.tokens = pre ++ emptyError ++ post → err1 ≠ none := by
  obtain ⟨st, st1, h, h1, hf, hc⟩ := parseDocument_added categoryMap pre post
  refine ⟨st.flaws, st.customFields, st.errMsg, st1.errMsg, ?_, ?_, ?_⟩
  · rw [ParseDetailedReport_fetched _ _ _ _ _ _ hfetch, h]
    rfl
  · rw [ParseDetailedReport_fetched _ _ _ _ _ _ hfetch1, h1, hf, hc]
    rfl
  · intro F F1 hadd _ htok
    obtain ⟨st2, hp2, herr2⟩ := parseDocument_error_outside categoryMap F1
      (AddedOutside.scanned_error F F1 hadd)
    rw [htok, h1] at hp2
    rw [Option.some.inj hp2]
    exact herr2

/-- C5, amended, on the document `exampleReport`, with the element added
behind the start tag of the root element. -/
theorem C5_added_error_keeps_data_witness :
    fetched (reportOpened ++ reportContent) "u" "p" "b" =
      (reportOpened ++ reportContent, none) ∧
    fetched (reportOpened ++ emptyError ++ reportContent) "u" "p" "b" =
      (reportOpened ++ emptyError ++ reportContent, none) ∧
    ∃ flaws customFields err err1,
      ParseDetailedReport (fetched (reportOpened ++ reportContent)) exampleCategoryMap
          "u" "p" "b" =
        some (Outcome.returned flaws customFields err) ∧
      ParseDetailedReport (fetched (reportOpened ++ emptyError ++ reportContent))
          exampleCategoryMap "u" "p" "b" =
        some (Outcome.returned flaws customFields err1) ∧
      ∀ F F1 : Forest, AddedOutside F F1 → F.tokens = reportOpened ++ reportContent →
        F1.tokens = reportOpened ++ emptyError ++ reportContent → err1 ≠ none :=
  ⟨rfl, rfl, C5_added_error_keeps_data (fetched (reportOpened ++ reportContent))
    (fetched (reportOpened ++ emptyError ++ reportContent)) exampleCategoryMap "u" "p" "b"
    reportOpened reportContent rfl rfl⟩

/-- C6, as stated, fails: the root element of the well-formed document
`<report policy_name="P1"><flaw issueid="1"/></report>` has the `policy_name`
attribute `P1`, and the Flaw that the parser returns has an empty
`PolicyName`. -/
theorem C6_counterexample :
    otherRoot.roots.map (fun e => attrValue e.attrs "policy_name") = ["P1"] ∧
    ParseDetailedReport (fetched otherRoot.tokens) exampleCategoryMap "u" "p" "b" =
      some (Outcome.returned [{ Issueid := "1", PolicyName := "" }] [] none) := by
  decide

/-- C6, amended: for every well-formed document whose root element is named
`detailedreport`, every Flaw that the parser returns has `PolicyName` equal to
the `policy_name` attribute of the root element (the empty string when the
root has no such attribute). -/
theorem C6_policy_name_of_root
    (detailedReport : String → String → String → List Token × Option String)
    (categoryMap : String → Option String) (username password build_id : String)
    (F : Forest) (root : Element)
    (hfetch : detailedReport username password build_id = (F.tokens, none))
    (hroot : F.roots = [root]) (hname : root.name.Local = "detailedreport") :
    ∃ flaws customFields err,
      ParseDetailedReport detailedReport categoryMap username password build_id =
        some (Outcome.returned flaws customFields err) ∧
      ∀ f ∈ flaws, f.PolicyName = attrValue root.attrs "policy_name" :=
  ParseDetailedReport_policyName detailedReport categoryMap username password build_id F root
    hfetch hroot hname

/-- C6, amended, on the document `exampleReport`. -/
theorem C6_policy_name_of_root_witness :
    fetched exampleReport.tokens "u" "p" "b" = (exampleReport.tokens, none) ∧
    exampleReport.roots =
      [⟨localName "detailedreport", [attr "policy_name" "P1"],
        Forest.elem (localName "flaw") [attr "categoryid" "10", attr "issueid" "1"] Forest.nil
          (Forest.elem (localName "customfield") [attr "name" "x", attr "value" "y"] Forest.nil
            Forest.nil)⟩] ∧
    (localName "detailedreport").Local = "detailedreport" ∧
    ∃ flaws customFields err,
      ParseDetailedReport (fetched exampleReport.tokens) exampleCategoryMap "u" "p" "b" =
        some (Outcome.returned flaws customFields err) ∧
      ∀ f ∈ flaws, f.PolicyName = attrValue [attr "policy_name" "P1"] "policy_name" :=
  ⟨rfl, rfl, rfl, C6_policy_name_of_root (fetched exampleReport.tokens) exampleCategoryMap
    "u" "p" "b" exampleReport _ rfl rfl rfl⟩

/-- C7: every Flaw that `ParseDetailedReport` returns has as `CategoryName` the
value that `categoryMap` holds for its `CategoryID`, and the empty string when
the `CategoryID` is not a key of the table.  An unmapped category ID neither
produces an error nor drops a flaw: with any other table, and so with the
empty one, the parser returns the same flaws up to their category names, the
same custom fields and the same error. -/
theorem C7_category_name_from_table
    (detailedReport : String → String → String → List Token × Option String)
    (categoryMap : String → Option String) (username password build_id : String)
    (flaws : List Flaw) (customFields : List CustomField) (err : Option String)
    (h : ParseDetailedReport detailedReport categoryMap username password build_id =
      some (Outcome.returned flaws customFields err)) :
    (∀ f ∈ flaws, (∀ v, categoryMap f.CategoryID = some v → f.CategoryName = v) ∧
      (categoryMap f.CategoryID = none → f.CategoryName = "")) ∧
    (∀ categoryMap1 : String → Option String,
      ParseDetailedReport detailedReport categoryMap1 username password build_id =
        some (Outcome.returned (flaws.map (Flaw.withCategoryName categoryMap1))
          customFields err) ∧
      (flaws.map (Flaw.withCategoryName categoryMap1)).length = flaws.length) := by
  obtain ⟨doc, st, hfetch, hp, hfl, hcf, he⟩ :=
    ParseDetailedReport_returned _ _ _ _ _ _ _ _ h
  obtain ⟨detRep, _, hall⟩ := parseDocument_flaws categoryMap doc st hp
  constructor
  · intro f hf
    rw [← hfl] at hf
    have h1 := (hall f hf).1
    constructor
    · intro v hv; rw [h1, hv]; rfl
    · intro hn; rw [h1, hn]; rfl
  · intro categoryMap1
    refine ⟨?_, by simp⟩
    rw [ParseDetailedReport_fetched _ _ _ _ _ _ hfetch,
      parseDocument_categoryMap categoryMap categoryMap1, hp]
    simp [Findings.withCategoryNames, hfl, hcf, he]

/-- C7 on the document `exampleReport`, whose flaw has the category ID `10`. -/
theorem C7_category_name_from_table_witness :
    ParseDetailedReport (fetched exampleReport.tokens) exampleCategoryMap "u" "p" "b" =
      some (Outcome.returned
        [{ Issueid := "1", CategoryID := "10", CategoryName := "Cat10", PolicyName := "P1" }]
        [{ Name := "x", Value := "y" }] none) ∧
    (∀ f ∈ [({ Issueid := "1", CategoryID := "10", CategoryName := "Cat10",
               PolicyName := "P1" } : Flaw)],
      (∀ v, exampleCategoryMap f.CategoryID = some v → f.CategoryName = v) ∧
      (exampleCategoryMap f.CategoryID = none → f.CategoryName = "")) ∧
    (∀ categoryMap1 : String → Option String,
      ParseDetailedReport (fetched exampleReport.tokens) categoryMap1 "u" "p" "b" =
        some (Outcome.returned
          ([({ Issueid := "1", CategoryID := "10", CategoryName := "Cat10",
               PolicyName := "P1" } : Flaw)].map (Flaw.withCategoryName categoryMap1))
          [{ Name := "x", Value := "y" }] none) ∧
      ([({ Issueid := "1", CategoryID := "10", CategoryName := "Cat10",
           PolicyName := "P1" } : Flaw)].map (Flaw.withCategoryName categoryMap1)).length =
        [({ Issueid := "1", CategoryID := "10", CategoryName := "Cat10",
            PolicyName := "P1" } : Flaw)].length) :=
  ⟨by decide, C7_category_name_from_table (fetched exampleReport.tokens) exampleCategoryMap
    "u" "p" "b" _ _ _ (by decide)⟩

/-- C8, as stated, fails: the root element `detailedreport` of the document
`<detailedreport policy_name=""><flaw issueid="1"/></detailedreport>` carries a
`policy_name` attribute, which the metadata scan finds, and the Flaw that the
parser returns has an empty `PolicyName`. -/
theorem C8_counterexample :
    emptyPolicyName.roots.map (fun e => (e.name.Local, e.attrs.map (fun a => a.Name.Local))) =
      [("detailedreport", ["policy_name"])] ∧
    ParseDetailedReport (fetched emptyPolicyName.tokens) exampleCategoryMap "u" "p" "b" =
      some (Outcome.returned [{ Issueid := "1", PolicyName := "" }] [] none) := by
  decide

/-- C8, amended: for every well-formed document whose root element is named
`detailedreport` and for which the parser returns at least one flaw, every
returned flaw has a non-empty `PolicyName` if and only if the root element
carries a `policy_name` attribute with a non-empty value. -/
theorem C8_policy_name_non_empty
    (detailedReport : String → String → String → List Token × Option String)
    (categoryMap : String → Option String) (username password build_id : String)
    (F : Forest) (root : Element)
    (hfetch : detailedReport username password build_id = (F.tokens, none))
    (hroot : F.roots = [root]) (hname : root.name.Local = "detailedreport") :
    ∃ flaws customFields err,
      ParseDetailedReport detailedReport categoryMap username password build_id =
        some (Outcome.returned flaws customFields err) ∧
      (flaws ≠ [] →
        ((∀ f ∈ flaws, f.PolicyName ≠ "") ↔ attrValue root.attrs "policy_name" ≠ "")) := by
  obtain ⟨flaws, customFields, err, hp, hall⟩ :=
    ParseDetailedReport_policyName detailedReport categoryMap username password build_id F root
      hfetch hroot hname
  refine ⟨flaws, customFields, err, hp, ?_⟩
  intro hne
  constructor
  · intro h
    cases flaws with
    | nil => exact absurd rfl hne
    | cons f fs =>
      have h1 := h f (List.mem_cons_self _ _)
      rwa [hall f (List.mem_cons_self _ _)] at h1
  · intro h f hf
    rw [hall f hf]
    exact h

/-- C8, amended, on the document `exampleReport`. -/
theorem C8_policy_name_non_empty_witness :
    fetched exampleReport.tokens "u" "p" "b" = (exampleReport.tokens, none) ∧
    exampleReport.roots =
      [⟨localName "detailedreport", [attr "policy_name" "P1"],
        Forest.elem (localName "flaw") [attr "categoryid" "10", attr "issueid" "1"] Forest.nil
          (Forest.elem (localName "customfield") [attr "name" "x", attr "value" "y"] Forest.nil
            Forest.nil)⟩] ∧
    (localName "detailedreport").Local = "detailedreport" ∧
    ∃ flaws customFields err,
      ParseDetailedReport (fetched exampleReport.tokens) exampleCategoryMap "u" "p" "b" =
        some (Outcome.returned flaws customFields err) ∧
      (flaws ≠ [] →
        ((∀ f ∈ flaws, f.PolicyName ≠ "") ↔
          attrValue [attr "policy_name" "P1"] "policy_name" ≠ "")) :=
  ⟨rfl, rfl, rfl, C8_policy_name_non_empty (fetched exampleReport.tokens) exampleCategoryMap
    "u" "p" "b" exampleReport _ rfl rfl rfl⟩

/-- C9: when the fetcher `detailedReport` returns an error, `ParseDetailedReport`
ends the process with that error (`log.Fatal`): it returns no results, whatever
buffer came with the error, so neither scan has a part in the outcome. -/
theorem C9_fetch_error_is_fatal
    (detailedReport : String → String → String → List Token × Option String)
    (categoryMap : String → Option String) (username password build_id : String)
    (doc : List Token) (err : String)
    (hfetch : detailedReport username password build_id = (doc, some err)) :
    ParseDetailedReport detailedReport categoryMap username password build_id =
      some (Outcome.fatal err) ∧
    ∀ flaws customFields e,
      ParseDetailedReport detailedReport categoryMap username password build_id ≠
        some (Outcome.returned flaws customFields e) := by
  have h : ParseDetailedReport detailedReport categoryMap username password build_id =
      some (Outcome.fatal err) := by
    unfold ParseDetailedReport
    rw [hfetch]
  refine ⟨h, ?_⟩
  intro flaws customFields e
  rw [h]
  simp

/-- C9 on a fetcher that fails with the error `401`. -/
theorem C9_fetch_error_is_fatal_witness :
    failingFetch "u" "p" "b" = ([], some "401") ∧
    (ParseDetailedReport failingFetch exampleCategoryMap "u" "p" "b" =
      some (Outcome.fatal "401") ∧
    ∀ flaws customFields e,
      ParseDetailedReport failingFetch exampleCategoryMap "u" "p" "b" ≠
        some (Outcome.returned flaws customFields e)) :=
  ⟨rfl, C9_fetch_error_is_fatal failingFetch exampleCategoryMap "u" "p" "b" [] "401" rfl⟩

/-- C10, as stated, fails: in the document `deepFlaw` the element
`<flaw categoryid="10" issueid="1"/>` has `maxUnmarshalDepth` = 10000 open
ancestors.  `DecodeElement` refuses it and assigns no attribute, the error is
dropped, and the parser returns a Flaw record whose fields are all empty,
although the element has an `issueid` and a `categoryid` attribute. -/
theorem C10_counterexample :
    deepFlaw.depth = maxUnmarshalDepth + 1 ∧
    (deepFlaw.scannedNamed "flaw").map (fun e => (attrValue e.attrs "issueid",
      attrValue e.attrs "categoryid")) = [("1", "10")] ∧
    ParseDetailedReport (fetched deepFlaw.tokens) exampleCategoryMap "u" "p" "b" =
      some (Outcome.returned [{}] [] none) ∧
    ({} : Flaw).Issueid = "" ∧ ({} : Flaw).CategoryID = "" := by
  refine ⟨?_, ?_, ?_, rfl, rfl⟩
  · rw [deepFlaw, nest_depth plainFlaw (by decide)]
    rfl
  · rw [deepFlaw, nest_scanned plainFlaw "flaw" (by decide)]
    decide
  · rw [ParseDetailedReport_fetched _ _ _ _ _ _ rfl, deepFlaw_parsed]
    decide

/-- C10, amended: for every `flaw` element with fewer than `maxUnmarshalDepth`
= 10000 open ancestors that is decoded, with or without a decode error, each
attribute-backed field of the resulting Flaw is the value of the
attribute of that name (`categoryname` for `CweName`), and the empty string
when the element has no such attribute. -/
theorem C10_flaw_attribute_fields (categoryMap : String → Option String) (detRep : DetReport)
    (fuel : Nat) (attrs : List Attr) (d d1 : Decoder) (flaw : Flaw)
    (hd : d.stk.length ≤ maxUnmarshalDepth)
    (h : flawBlock categoryMap detRep fuel attrs d = some (flaw, d1)) :
    flaw.Issueid = attrValue attrs "issueid" ∧
    flaw.CweName = attrValue attrs "categoryname" ∧
    flaw.CategoryID = attrValue attrs "categoryid" ∧
    flaw.Cweid = attrValue attrs "cweid" ∧
    flaw.Remediation_status = attrValue attrs "remediation_status" ∧
    flaw.Mitigation_status = attrValue attrs "mitigation_status" ∧
    flaw.Affects_policy_compliance = attrValue attrs "affects_policy_compliance" ∧
    flaw.Date_first_occurrence = attrValue attrs "date_first_occurrence" ∧
    flaw.Severity = attrValue attrs "severity" ∧
    flaw.ExploitLevel = attrValue attrs "exploitLevel" ∧
    flaw.Module = attrValue attrs "module" ∧
    flaw.Sourcefile = attrValue attrs "sourcefile" ∧
    flaw.Line = attrValue attrs "line" ∧
    flaw.Description = attrValue attrs "description" := by
  unfold flawBlock DecodeElement at h
  cases hu : unmarshalFlaw fuel {} attrs d with
  | none => simp [hu] at h
  | some x =>
    obtain ⟨f0, e, d2⟩ := x
    simp [hu] at h
    have hp := unmarshalFlaw_preserves
      (fun f : Flaw => (f.Issueid, f.CweName, f.CategoryID, f.Cweid, f.Remediation_status,
        f.Mitigation_status, f.Affects_policy_compliance, f.Date_first_occurrence, f.Severity,
        f.ExploitLevel, f.Module, f.Sourcefile, f.Line, f.Description))
      (fun _ _ => rfl) (fun _ _ => rfl) (fun _ _ => rfl) (fun _ _ => rfl) fuel {} attrs d _ hd hu
    simp only [Prod.mk.injEq] at hp
    obtain ⟨h1, h2, h3, h4, h5, h6, h7, h8, h9, h10, h11, h12, h13, h14⟩ := hp
    obtain ⟨g1, g2, g3, g4, g5, g6, g7, g8, g9, g10, g11, g12, g13, g14⟩ :=
      flaw_foldl_assignAttr attrs
    rw [← h.1]
    exact ⟨h1.trans g1, h2.trans g2, h3.trans g3, h4.trans g4, h5.trans g5, h6.trans g6,
      h7.trans g7, h8.trans g8, h9.trans g9, h10.trans g10, h11.trans g11, h12.trans g12,
      h13.trans g13, h14.trans g14⟩

/-- C10, amended, on the element `<flaw categoryid="10" issueid="1"/>`. -/
theorem C10_flaw_attribute_fields_witness :
    [localName "flaw"].length ≤ maxUnmarshalDepth ∧
    flawBlock exampleCategoryMap {} 2 [attr "categoryid" "10", attr "issueid" "1"]
        ⟨[Token.EndElement (localName "flaw")], [localName "flaw"]⟩ =
      some ({ Issueid := "1", CategoryID := "10", CategoryName := "Cat10" }, ⟨[], []⟩) ∧
    (({ Issueid := "1", CategoryID := "10", CategoryName := "Cat10" } : Flaw).Issueid =
        attrValue [attr "categoryid" "10", attr "issueid" "1"] "issueid" ∧
    ({ Issueid := "1", CategoryID := "10", CategoryName := "Cat10" } : Flaw).CweName =
        attrValue [attr "categoryid" "10", attr "issueid" "1"] "categoryname" ∧
    ({ Issueid := "1", CategoryID := "10", CategoryName := "Cat10" } : Flaw).CategoryID =
        attrValue [attr "categoryid" "10", attr "issueid" "1"] "categoryid" ∧
    ({ Issueid := "1", CategoryID := "10", CategoryName := "Cat10" } : Flaw).Cweid =
        attrValue [attr "categoryid" "10", attr "issueid" "1"] "cweid" ∧
    ({ Issueid := "1", CategoryID := "10", CategoryName := "Cat10" } : Flaw).Remediation_status =
        attrValue [attr "categoryid" "10", attr "issueid" "1"] "remediation_status" ∧
    ({ Issueid := "1", CategoryID := "10", CategoryName := "Cat10" } : Flaw).Mitigation_status =
        attrValue [attr "categoryid" "10", attr "issueid" "1"] "mitigation_status" ∧
    ({ Issueid := "1", CategoryID := "10",
       CategoryName := "Cat10" } : Flaw).Affects_policy_compliance =
        attrValue [attr "categoryid" "10", attr "issueid" "1"] "affects_policy_compliance" ∧
    ({ Issueid := "1", CategoryID := "10",
       CategoryName := "Cat10" } : Flaw).Date_first_occurrence =
        attrValue [attr "categoryid" "10", attr "issueid" "1"] "date_first_occurrence" ∧
    ({ Issueid := "1", CategoryID := "10", CategoryName := "Cat10" } : Flaw).Severity =
        attrValue [attr "categoryid" "10", attr "issueid" "1"] "severity" ∧
    ({ Issueid := "1", CategoryID := "10", CategoryName := "Cat10" } : Flaw).ExploitLevel =
        attrValue [attr "categoryid" "10", attr "issueid" "1"] "exploitLevel" ∧
    ({ Issueid := "1", CategoryID := "10", CategoryName := "Cat10" } : Flaw).Module =
        attrValue [attr "categoryid" "10", attr "issueid" "1"] "module" ∧
    ({ Issueid := "1", CategoryID := "10", CategoryName := "Cat10" } : Flaw).Sourcefile =
        attrValue [attr "categoryid" "10", attr "issueid" "1"] "sourcefile" ∧
    ({ Issueid := "1", CategoryID := "10", CategoryName := "Cat10" } : Flaw).Line =
        attrValue [attr "categoryid" "10", attr "issueid" "1"] "line" ∧
    ({ Issueid := "1", CategoryID := "10", CategoryName := "Cat10" } : Flaw).Description =
        attrValue [attr "categoryid" "10", attr "issueid" "1"] "description") :=
  ⟨by decide, by decide, C10_flaw_attribute_fields exampleCategoryMap {} 2
    [attr "categoryid" "10", attr "issueid" "1"]
    ⟨[Token.EndElement (localName "flaw")], [localName "flaw"]⟩ ⟨[], []⟩ _ (by decide)
    (by decide)⟩

/-- C11: for every `flaw` element with well-nested content that has no
`mitigation` element in a `mitigations` child and no `annotation` element in an
`annotations` child (in particular one without any `mitigation` or `annotation`
element inside it), whatever its attributes, its place in the document and the
number of its open ancestors are: the `flaw` block of the findings scan returns
a Flaw, this Flaw is the record that the scan appends for the element, and its
`Mitigations.Mitigation` and `Annotations.Annotation` sequences are empty, of
length 0. -/
theorem C11_no_history_empty_sequences
    (categoryMap : String → Option String) (detRep : DetReport) (fuel : Nat) (st : Findings)
    (attrs : List Attr) (c : Forest) (n : Name) (rest : List Token) (stk : List Name)
    (hn : n.Local = "flaw") (hfuel : c.tokens.length + rest.length + 1 < fuel)
    (hm : mitigationElements c = [] ∨ c.elementsNamed "mitigation" = [])
    (ha : annotationElements c = [] ∨ c.elementsNamed "annotation" = []) :
    ∃ flaw d2,
      flawBlock categoryMap detRep fuel attrs
        ⟨c.tokens ++ Token.EndElement n :: rest, n :: stk⟩ = some (flaw, d2) ∧
      startElementCase categoryMap detRep fuel st n attrs
        ⟨c.tokens ++ Token.EndElement n :: rest, n :: stk⟩ =
          some ({ st with flaws := st.flaws ++ [flaw] }, d2) ∧
      flaw.Mitigations.Mitigation = [] ∧ Annotations.Annotation flaw.Annotations = [] ∧
      flaw.Mitigations.Mitigation.length = 0 ∧
      (Annotations.Annotation flaw.Annotations).length = 0 := by
  have hm1 : mitigationElements c = [] := hm.elim id (mitigationElements_nil c)
  have ha1 : annotationElements c = [] := ha.elim id (annotationElements_nil c)
  have key : ∃ f1 e d2, unmarshalFlaw fuel {} attrs
      ⟨c.tokens ++ Token.EndElement n :: rest, n :: stk⟩ = some (f1, e, d2) ∧
      f1.Mitigations = {} ∧ f1.Annotations = {} := by
    unfold unmarshalFlaw unmarshalStruct
    by_cases hd : maxUnmarshalDepth < (n :: stk).length
    · exact ⟨{}, true, _, by rw [if_pos hd], rfl, rfl⟩
    · rw [if_neg hd]
      obtain ⟨f1, e, d2, hl, g1, g2⟩ := flawLoop_no_history c fuel
        (attrs.foldl Flaw.assignAttr {}) n rest stk hfuel hm1 ha1
      obtain ⟨k1, k2⟩ := flaw_foldl_assignAttr_history attrs {}
      exact ⟨f1, e, d2, hl, g1.trans k1, g2.trans k2⟩
  obtain ⟨f1, e, d2, hu, g1, g2⟩ := key
  have hb : flawBlock categoryMap detRep fuel attrs
      ⟨c.tokens ++ Token.EndElement n :: rest, n :: stk⟩ =
        some ({ f1 with CategoryName := (categoryMap f1.CategoryID).getD "",
                        PolicyName := detRep.PolicyName }, d2) := by
    simp [flawBlock, DecodeElement, hu]
  have e1 : f1.Mitigations.Mitigation = [] := by rw [g1]
  have e2 : Annotations.Annotation f1.Annotations = [] := by rw [g2]
  refine ⟨_, d2, hb, ?_, e1, e2, ?_, ?_⟩
  · rw [startElementCase_flaw _ _ _ _ _ _ _ hn, hb]
    rfl
  · exact congrArg List.length e1
  · exact congrArg List.length e2

/-- C11 on the element `flawWithoutHistory`, which holds text, a comment and an
element `other`. -/
theorem C11_no_history_empty_sequences_witness :
    (localName "flaw").Local = "flaw" ∧
    flawWithoutHistory.children.tokens.length + ([] : List Token).length + 1 <
      flawWithoutHistory.children.tokens.length + 2 ∧
    mitigationElements flawWithoutHistory.children = [] ∧
    annotationElements flawWithoutHistory.children = [] ∧
    ∃ flaw d2,
      flawBlock exampleCategoryMap {} (flawWithoutHistory.children.tokens.length + 2)
        flawWithoutHistory.attrs
        ⟨flawWithoutHistory.children.tokens ++ Token.EndElement (localName "flaw") :: [],
          localName "flaw" :: []⟩ = some (flaw, d2) ∧
      startElementCase exampleCategoryMap {} (flawWithoutHistory.children.tokens.length + 2) {}
        (localName "flaw") flawWithoutHistory.attrs
        ⟨flawWithoutHistory.children.tokens ++ Token.EndElement (localName "flaw") :: [],
          localName "flaw" :: []⟩ =
          some ({ ({} : Findings) with flaws := ({} : Findings).flaws ++ [flaw] }, d2) ∧
      flaw.Mitigations.Mitigation = [] ∧ Annotations.Annotation flaw.Annotations = [] ∧
      flaw.Mitigations.Mitigation.length = 0 ∧
      (Annotations.Annotation flaw.Annotations).length = 0 :=
  ⟨rfl, by decide, by decide, by decide,
    C11_no_history_empty_sequences exampleCategoryMap {}
      (flawWithoutHistory.children.tokens.length + 2) {} flawWithoutHistory.attrs
      flawWithoutHistory.children (localName "flaw") [] [] rfl (by decide)
      (Or.inl (by decide)) (Or.inl (by decide))⟩

/-- C12, as stated, fails: in the document `mismatchedFlaw` the decoding of the
first `flaw` element fails, a second `flaw` element and a `customfield` element
follow it, and the parser returns the record of the first flaw alone. -/
theorem C12_counterexample :
    (DecodeElement unmarshalFlaw 8 {} [attr "issueid" "1"]
      ⟨mismatchedFlaw.drop 2, [localName "flaw", localName "detailedreport"]⟩).map
        (fun r => (r.1, r.2.1)) = some ({ Issueid := "1" }, true) ∧
    containsElement "flaw" (mismatchedFlaw.drop 4) = true ∧
    containsElement "customfield" (mismatchedFlaw.drop 4) = true ∧
    ParseDetailedReport (fetched mismatchedFlaw) exampleCategoryMap "u" "p" "b" =
      some (Outcome.returned [{ Issueid := "1" }] [] none) := by
  decide

/-- C12, amended: when the findings scan reads the start tag of a `flaw` or
`customfield` element and the decoding of the element fails, the scan does not
abort: it goes on at the place where the decoding stopped and returns its
results.  The records and the error collected before are kept, one record is
appended for the failing element, which holds what was decoded before the
failure, and the records that are collected later come behind it.  The decoding
stops at an error of the tokenizer, which is sticky and leaves no input, so
that nothing that follows the failing element is collected, or behind the start
tag of an element that is refused for its depth, where the scan goes on. -/
theorem C12_decode_failure_is_not_fatal
    (categoryMap : String → Option String) (detRep : DetReport) (fuel : Nat) (st : Findings)
    (d d1 : Decoder) (n : Name) (a : List Attr)
    (hfuel : d.input.length < fuel + 1)
    (htok : d.Token = (some (Token.StartElement n a), d1))
    (hn : n.Local = "flaw" ∨ n.Local = "customfield")
    (hflaw : n.Local = "flaw" →
      ∃ flaw d2, DecodeElement unmarshalFlaw fuel {} a d1 = some (flaw, true, d2))
    (hfield : n.Local = "customfield" →
      ∃ cField d2, DecodeElement unmarshalCustomField fuel {} a d1 = some (cField, true, d2)) :
    ∃ st1 d2 stf,
      startElementCase categoryMap detRep fuel st n a d1 = some (st1, d2) ∧
      findingsScan categoryMap detRep (fuel + 1) st d =
        findingsScan categoryMap detRep fuel st1 d2 ∧
      findingsScan categoryMap detRep (fuel + 1) st d = some stf ∧
      st1.errMsg = st.errMsg ∧
      st1.flaws.length + st1.customFields.length =
        st.flaws.length + st.customFields.length + 1 ∧
      (n.Local = "flaw" →
        ∃ flaw, DecodeElement unmarshalFlaw fuel {} a d1 = some (flaw, true, d2) ∧
          st1.flaws = st.flaws ++
            [{ flaw with CategoryName := (categoryMap flaw.CategoryID).getD "",
                         PolicyName := detRep.PolicyName }] ∧
          st1.customFields = st.customFields) ∧
      (n.Local = "customfield" →
        ∃ cField,
          DecodeElement unmarshalCustomField fuel {} a d1 = some (cField, true, d2) ∧
          st1.customFields = st.customFields ++ [cField] ∧ st1.flaws = st.flaws) ∧
      st1.flaws <+: stf.flaws ∧ st1.customFields <+: stf.customFields ∧
      (d2.input = [] ∨ maxUnmarshalDepth < d2.stk.length) ∧
      (d2.input = [] → stf = st1) := by
  have hd1 : d1.input.length < fuel := by
    rcases d.Token_cases with ⟨x, ht, _⟩ | ⟨t, x, ht, hi⟩
    · rw [htok] at ht; cases ht
    · rw [htok] at ht
      cases ht
      rw [hi] at hfuel
      simpa using hfuel
  have hscan := findingsScan_start categoryMap detRep fuel st d d1 n a htok
  have finish : ∀ (st1 : Findings) (d2 : Decoder),
      startElementCase categoryMap detRep fuel st n a d1 = some (st1, d2) →
      (d2.input = [] ∨ maxUnmarshalDepth < d2.stk.length) →
      ∃ stf, findingsScan categoryMap detRep (fuel + 1) st d =
          findingsScan categoryMap detRep fuel st1 d2 ∧
        findingsScan categoryMap detRep (fuel + 1) st d = some stf ∧
        st1.flaws <+: stf.flaws ∧ st1.customFields <+: stf.customFields ∧
        (d2.input = [] ∨ maxUnmarshalDepth < d2.stk.length) ∧
        (d2.input = [] → stf = st1) := by
    intro st1 d2 hsc hdich
    have hstep : findingsScan categoryMap detRep (fuel + 1) st d =
        findingsScan categoryMap detRep fuel st1 d2 := by
      rw [hscan, hsc]
    obtain ⟨st2, d3, hsc2, hsuf⟩ := startElementCase_total categoryMap detRep fuel st n a d1 hd1
    rw [hsc] at hsc2
    cases hsc2
    have hd2 : d2.input.length < fuel := Nat.lt_of_le_of_lt hsuf.length_le hd1
    obtain ⟨stf, hf⟩ := findingsScan_total categoryMap detRep fuel st1 d2 hd2
    obtain ⟨p1, p2⟩ := findingsScan_grows categoryMap detRep fuel st1 stf d2 hf
    refine ⟨stf, hstep, hstep.trans hf, p1, p2, hdich, ?_⟩
    intro hnil
    cases fuel with
    | zero => omega
    | succ k =>
      rw [findingsScan_no_input categoryMap detRep k st1 d2 hnil] at hf
      exact (Option.some.inj hf).symm
  rcases hn with hn | hn
  · have hc : ¬ n.Local = "customfield" := by rw [hn]; decide
    obtain ⟨flaw, d2, hdec⟩ := hflaw hn
    have hdich := unmarshalFlaw_failsDeadOrDeep fuel {} a d1 flaw d2 hdec
    have hb : flawBlock categoryMap detRep fuel a d1 =
        some ({ flaw with CategoryName := (categoryMap flaw.CategoryID).getD "",
                          PolicyName := detRep.PolicyName }, d2) := by
      unfold flawBlock
      rw [hdec]
    have hsc : startElementCase categoryMap detRep fuel st n a d1 =
        some ({ st with flaws := st.flaws ++
          [{ flaw with CategoryName := (categoryMap flaw.CategoryID).getD "",
                       PolicyName := detRep.PolicyName }] }, d2) := by
      rw [startElementCase_flaw categoryMap detRep fuel st n a d1 hn, hb]
      rfl
    obtain ⟨stf, q1, q2, q3, q4, q5, q6⟩ := finish _ d2 hsc hdich
    exact ⟨_, d2, stf, hsc, q1, q2, rfl, by simp; omega,
      fun _ => ⟨flaw, hdec, rfl, rfl⟩, fun h => absurd h hc, q3, q4, q5, q6⟩
  · have hf : ¬ n.Local = "flaw" := by rw [hn]; decide
    obtain ⟨cField, d2, hdec⟩ := hfield hn
    have hdich := unmarshalCustomField_failsDeadOrDeep fuel {} a d1 cField d2 hdec
    have hb : customFieldBlock fuel a d1 = some (cField, d2) := by
      unfold customFieldBlock
      rw [hdec]
    have hsc : startElementCase categoryMap detRep fuel st n a d1 =
        some ({ st with customFields := st.customFields ++ [cField] }, d2) := by
      rw [startElementCase_customfield categoryMap detRep fuel st n a d1 hn, hb]
      rfl
    obtain ⟨stf, q1, q2, q3, q4, q5, q6⟩ := finish _ d2 hsc hdich
    exact ⟨_, d2, stf, hsc, q1, q2, rfl, by simp; omega,
      fun h => absurd h hf, fun _ => ⟨cField, hdec, rfl, rfl⟩, q3, q4, q5, q6⟩

/-- C12, amended, on the document `mismatchedFlaw`, at the start tag of its
first `flaw` element, whose decoding fails with an error of the tokenizer. -/
theorem C12_decode_failure_is_not_fatal_witness :
    (mismatchedFlaw.drop 1).length < 8 + 1 ∧
    ∃ st1 d2 stf,
      startElementCase exampleCategoryMap {} 8 {} (localName "flaw") [attr "issueid" "1"]
        ⟨mismatchedFlaw.drop 2, [localName "flaw", localName "detailedreport"]⟩ =
          some (st1, d2) ∧
      findingsScan exampleCategoryMap {} (8 + 1) {}
          ⟨mismatchedFlaw.drop 1, [localName "detailedreport"]⟩ =
        findingsScan exampleCategoryMap {} 8 st1 d2 ∧
      findingsScan exampleCategoryMap {} (8 + 1) {}
          ⟨mismatchedFlaw.drop 1, [localName "detailedreport"]⟩ = some stf ∧
      st1.errMsg = ({} : Findings).errMsg ∧
      st1.flaws.length + st1.customFields.length =
        ({} : Findings).flaws.length + ({} : Findings).customFields.length + 1 ∧
      ((localName "flaw").Local = "flaw" →
        ∃ flaw, DecodeElement unmarshalFlaw 8 {} [attr "issueid" "1"]
            ⟨mismatchedFlaw.drop 2, [localName "flaw", localName "detailedreport"]⟩ =
              some (flaw, true, d2) ∧
          st1.flaws = ({} : Findings).flaws ++
            [{ flaw with CategoryName := (exampleCategoryMap flaw.CategoryID).getD "",
                         PolicyName := ({} : DetReport).PolicyName }] ∧
          st1.customFields = ({} : Findings).customFields) ∧
      ((localName "flaw").Local = "customfield" →
        ∃ cField,
          DecodeElement unmarshalCustomField 8 {} [attr "issueid" "1"]
            ⟨mismatchedFlaw.drop 2, [localName "flaw", localName "detailedreport"]⟩ =
              some (cField, true, d2) ∧
          st1.customFields = ({} : Findings).customFields ++ [cField] ∧
          st1.flaws = ({} : Findings).flaws) ∧
      st1.flaws <+: stf.flaws ∧ st1.customFields <+: stf.customFields ∧
      (d2.input = [] ∨ maxUnmarshalDepth < d2.stk.length) ∧
      (d2.input = [] → stf = st1) :=
  ⟨by decide,
    C12_decode_failure_is_not_fatal exampleCategoryMap {} 8 {}
      ⟨mismatchedFlaw.drop 1, [localName "detailedreport"]⟩
      ⟨mismatchedFlaw.drop 2, [localName "flaw", localName "detailedreport"]⟩
      (localName "flaw") [attr "issueid" "1"] (by decide) rfl (Or.inl rfl)
      (fun _ => ⟨{ Issueid := "1" }, ⟨[], [localName "flaw", localName "detailedreport"]⟩,
        by decide⟩)
      (fun h => absurd h (by decide))⟩

/-- C13: for every fetcher, hence for every document, and every category
table, the call of `ParseDetailedReport` ends, and the contents of
`categoryMap` at its end are its contents at the start; the outcome is the one
of the function that takes the table as a value.  The index expression
`categoryMap[key]` leaves the table as it is for every key, the absent ones
included, for which it gives the empty string. -/
theorem C13_category_map_not_mutated
    (detailedReport : String → String → String → List Token × Option String)
    (categoryMap : String → Option String) (username password build_id : String) :
    (∃ o, ParseDetailedReportWithTable detailedReport categoryMap username password build_id =
        some (o, categoryMap) ∧
      ParseDetailedReport detailedReport categoryMap username password build_id = some o) ∧
    (∀ o categoryMap1,
      ParseDetailedReportWithTable detailedReport categoryMap username password build_id =
        some (o, categoryMap1) → categoryMap1 = categoryMap) ∧
    (∀ key, (indexCategoryMap categoryMap key).2 = categoryMap ∧
      (categoryMap key = none → (indexCategoryMap categoryMap key).1 = "")) := by
  obtain ⟨o, ho⟩ :=
    ParseDetailedReport_isSome detailedReport categoryMap username password build_id
  have h := ParseDetailedReportWithTable_eq detailedReport categoryMap username password build_id
  rw [ho] at h
  refine ⟨⟨o, h, ho⟩, ?_, ?_⟩
  · intro o1 categoryMap1 h1
    rw [h] at h1
    simp only [Option.map_some', Option.some.injEq, Prod.mk.injEq] at h1
    exact h1.2.symm
  · intro key
    refine ⟨rfl, ?_⟩
    intro hk
    simp [indexCategoryMap, hk]

/-- C13 on the document `exampleReport` and the table `exampleCategoryMap`, and
on the same document with the empty table, for which the category ID "10" of
the flaw is absent. -/
theorem C13_category_map_not_mutated_witness :
    ParseDetailedReportWithTable (fetched exampleReport.tokens) emptyCategoryMap "u" "p" "b" =
      some (Outcome.returned [{ Issueid := "1", CategoryID := "10", PolicyName := "P1" }]
        [{ Name := "x", Value := "y" }] none, emptyCategoryMap) ∧
    ∀ o categoryMap1,
      ParseDetailedReportWithTable (fetched exampleReport.tokens) exampleCategoryMap
        "u" "p" "b" = some (o, categoryMap1) → categoryMap1 = exampleCategoryMap :=
  ⟨by
    obtain ⟨o, h1, h2⟩ :=
      (C13_category_map_not_mutated (fetched exampleReport.tokens) emptyCategoryMap
        "u" "p" "b").1
    have h3 : ParseDetailedReport (fetched exampleReport.tokens) emptyCategoryMap "u" "p" "b" =
        some (Outcome.returned [{ Issueid := "1", CategoryID := "10", PolicyName := "P1" }]
          [{ Name := "x", Value := "y" }] none) := by decide
    rw [h3] at h2
    rw [h1, ← Option.some.inj h2],
   (C13_category_map_not_mutated (fetched exampleReport.tokens) exampleCategoryMap
      "u" "p" "b").2.1⟩

/-- C14: for the document `<detailedreport policy_name="P1">`
`<flaw categoryid="10" issueid="1"/><customfield name="x" value="y"/>`
`</detailedreport>` and every category table, `ParseDetailedReport` returns
exactly one flaw, with `Issueid` "1", `CategoryID` "10", `PolicyName` "P1" and
`CategoryName` the entry of the table for "10" (the empty string when there is
none), exactly one custom field, with `Name` "x" and `Value` "y", and a nil
error. -/
theorem C14_example_document
    (detailedReport : String → String → String → List Token × Option String)
    (categoryMap : String → Option String) (username password build_id : String)
    (hfetch : detailedReport username password build_id = (exampleReport.tokens, none)) :
    ParseDetailedReport detailedReport categoryMap username password build_id =
      some (Outcome.returned
        [{ Issueid := "1", CategoryID := "10", PolicyName := "P1",
           CategoryName := (categoryMap "10").getD "" }]
        [{ Name := "x", Value := "y" }] none) ∧
    ∀ v, categoryMap "10" = some v →
      ParseDetailedReport detailedReport categoryMap username password build_id =
        some (Outcome.returned
          [{ Issueid := "1", CategoryID := "10", PolicyName := "P1", CategoryName := v }]
          [{ Name := "x", Value := "y" }] none) := by
  have h : ParseDetailedReport detailedReport categoryMap username password build_id =
      some (Outcome.returned
        [{ Issueid := "1", CategoryID := "10", PolicyName := "P1",
           CategoryName := (categoryMap "10").getD "" }]
        [{ Name := "x", Value := "y" }] none) := by
    rw [ParseDetailedReport_fetched _ _ _ _ _ _ hfetch,
      parseDocument_categoryMap emptyCategoryMap categoryMap, exampleReport_unmapped]
    rfl
  refine ⟨h, ?_⟩
  intro v hv
  rw [h, hv]
  rfl

/-- C14 with the table `exampleCategoryMap`, whose entry for "10" is "Cat10". -/
theorem C14_example_document_witness :
    fetched exampleReport.tokens "u" "p" "b" = (exampleReport.tokens, none) ∧
    exampleCategoryMap "10" = some "Cat10" ∧
    (ParseDetailedReport (fetched exampleReport.tokens) exampleCategoryMap "u" "p" "b" =
      some (Outcome.returned
        [{ Issueid := "1", CategoryID := "10", PolicyName := "P1",
           CategoryName := (exampleCategoryMap "10").getD "" }]
        [{ Name := "x", Value := "y" }] none) ∧
    ∀ v, exampleCategoryMap "10" = some v →
      ParseDetailedReport (fetched exampleReport.tokens) exampleCategoryMap "u" "p" "b" =
        some (Outcome.returned
          [{ Issueid := "1", CategoryID := "10", PolicyName := "P1", CategoryName := v }]
          [{ Name := "x", Value := "y" }] none)) :=
  ⟨rfl, by decide,
    C14_example_document (fetched exampleReport.tokens) exampleCategoryMap "u" "p" "b" rfl⟩

/-- C15, as stated, fails: in the document `deepMitigatedFlaw` the element
`<flaw issueid="7"><mitigations><mitigation action="comment"/></mitigations>`
`</flaw>` has `maxUnmarshalDepth` - 1 open ancestors.  The flaw is decoded, its
`mitigations` child has `maxUnmarshalDepth` open ancestors and is refused, and
the Flaw record has no Mitigation entry, although the `mitigations` child holds
one `mitigation` element. -/
theorem C15_counterexample :
    deepMitigatedFlaw.depth = maxUnmarshalDepth + 2 ∧
    (deepMitigatedFlaw.scannedNamed "flaw").map
      (fun e => (mitigationElements e.children).length) = [1] ∧
    ParseDetailedReport (fetched deepMitigatedFlaw.tokens) exampleCategoryMap "u" "p" "b" =
      some (Outcome.returned [{ Issueid := "7" }] [] none) ∧
    ({ Issueid := "7" } : Flaw).Mitigations.Mitigation.length = 0 := by
  refine ⟨?_, ?_, ?_, rfl⟩
  · rw [deepMitigatedFlaw, nest_depth mitigatedFlaw (by decide)]
    rfl
  · rw [deepMitigatedFlaw, nest_scanned mitigatedFlaw "flaw" (by decide)]
    decide
  · rw [ParseDetailedReport_fetched _ _ _ _ _ _ rfl, deepMitigatedFlaw_parsed]
    rfl

/-- C15, amended: for every well-formed document whose elements are nested at
most `maxUnmarshalDepth` = 10000 deep, the Flaw record of a decoded `flaw`
element has one Mitigation entry for each `mitigation` element of its
`mitigations` child and one Annotation entry for each `annotation` element of
its `annotations` child, in document order, and each entry carries the
`action`, `description`, `user` and `date` attributes of its element, the empty
string for an attribute that is absent.  The i-th record belongs to the i-th
decoded `flaw` element. -/
theorem C15_history_entries_in_document_order
    (detailedReport : String → String → String → List Token × Option String)
    (categoryMap : String → Option String) (username password build_id : String)
    (F : Forest) (hfetch : detailedReport username password build_id = (F.tokens, none))
    (hdepth : F.depth ≤ maxUnmarshalDepth) :
    ∃ flaws customFields err,
      ParseDetailedReport detailedReport categoryMap username password build_id =
        some (Outcome.returned flaws customFields err) ∧
      flaws.map (fun f => f.Mitigations.Mitigation) =
        (F.scannedNamed "flaw").map (fun e =>
          (mitigationElements e.children).map (fun x =>
            ({ Action := attrValue x.attrs "action",
               Description := attrValue x.attrs "description",
               User := attrValue x.attrs "user",
               Date := attrValue x.attrs "date" } : Mitigation))) ∧
      flaws.map (fun f => f.Annotations.Annotation) =
        (F.scannedNamed "flaw").map (fun e =>
          (annotationElements e.children).map (fun x =>
            ({ Action := attrValue x.attrs "action",
               Description := attrValue x.attrs "description",
               User := attrValue x.attrs "user",
               Date := attrValue x.attrs "date" } : Annotation))) ∧
      flaws.map (fun f => f.Mitigations.Mitigation.length) =
        (F.scannedNamed "flaw").map (fun e => (mitigationElements e.children).length) ∧
      flaws.map (fun f => f.Annotations.Annotation.length) =
        (F.scannedNamed "flaw").map (fun e => (annotationElements e.children).length) := by
  refine ⟨_, _, _,
    ParseDetailedReport_forest detailedReport categoryMap username password build_id F hfetch
      hdepth,
    ?_, ?_, ?_, ?_⟩
  · rw [List.map_map]
    apply List.map_congr_left
    intro e _
    exact (flawValue_history categoryMap (F.metadata {}) e.attrs e.children).1
  · rw [List.map_map]
    apply List.map_congr_left
    intro e _
    exact (flawValue_history categoryMap (F.metadata {}) e.attrs e.children).2
  · rw [List.map_map]
    apply List.map_congr_left
    intro e _
    simp only [Function.comp]
    rw [(flawValue_history categoryMap (F.metadata {}) e.attrs e.children).1, List.length_map]
  · rw [List.map_map]
    apply List.map_congr_left
    intro e _
    simp only [Function.comp]
    rw [(flawValue_history categoryMap (F.metadata {}) e.attrs e.children).2, List.length_map]

/-- C15, amended, on the document `historyReport`, whose first `flaw` element has two
`mitigation` elements and one `annotation` element. -/
theorem C15_history_entries_in_document_order_witness :
    fetched historyReport.tokens "u" "p" "b" = (historyReport.tokens, none) ∧
    historyReport.depth ≤ maxUnmarshalDepth ∧
    (historyReport.scannedNamed "flaw").map (fun e => (mitigationElements e.children).length) =
      [2, 0] ∧
    (historyReport.scannedNamed "flaw").map (fun e => (annotationElements e.children).length) =
      [1, 0] ∧
    ∃ flaws customFields err,
      ParseDetailedReport (fetched historyReport.tokens) exampleCategoryMap "u" "p" "b" =
        some (Outcome.returned flaws customFields err) ∧
      flaws.map (fun f => f.Mitigations.Mitigation) =
        (historyReport.scannedNamed "flaw").map (fun e =>
          (mitigationElements e.children).map (fun x =>
            ({ Action := attrValue x.attrs "action",
               Description := attrValue x.attrs "description",
               User := attrValue x.attrs "user",
               Date := attrValue x.attrs "date" } : Mitigation))) ∧
      flaws.map (fun f => f.Annotations.Annotation) =
        (historyReport.scannedNamed "flaw").map (fun e =>
          (annotationElements e.children).map (fun x =>
            ({ Action := attrValue x.attrs "action",
               Description := attrValue x.attrs "description",
               User := attrValue x.attrs "user",
               Date := attrValue x.attrs "date" } : Annotation))) ∧
      flaws.map (fun f => f.Mitigations.Mitigation.length) =
        (historyReport.scannedNamed "flaw").map (fun e =>
          (mitigationElements e.children).length) ∧
      flaws.map (fun f => f.Annotations.Annotation.length) =
        (historyReport.scannedNamed "flaw").map (fun e =>
          (annotationElements e.children).length) :=
  ⟨rfl, by decide, by decide, by decide,
    C15_history_entries_in_document_order (fetched historyReport.tokens) exampleCategoryMap
      "u" "p" "b" historyReport rfl (by decide)⟩

/-- C16, as stated, fails: in the document `deepFlawAroundError` the element
`<flaw issueid="1"><error/><flaw issueid="2"/></flaw>` has `maxUnmarshalDepth`
= 10000 open ancestors.  `DecodeElement` refuses it and consumes no token, so
the `error` and the `flaw` element inside it are dispatched by the findings
scan: the parser returns two Flaw records and a non-nil error. -/
theorem C16_counterexample :
    deepFlawAroundError.depth = maxUnmarshalDepth + 2 ∧
    (deepFlawAroundError.scannedNamed "flaw").length = 1 ∧
    deepFlawAroundError.scannedNamed "error" = [] ∧
    ParseDetailedReport (fetched deepFlawAroundError.tokens) exampleCategoryMap "u" "p" "b" =
      some (Outcome.returned [{}, {}] []
        (some "api for GetDetailedReport returned with an error element")) := by
  refine ⟨?_, ?_, ?_, ?_⟩
  · rw [deepFlawAroundError, nest_depth flawAroundError (by decide)]
    rfl
  · rw [deepFlawAroundError, nest_scanned flawAroundError "flaw" (by decide)]
    decide
  · rw [deepFlawAroundError, nest_scanned flawAroundError "error" (by decide)]
    decide
  · rw [ParseDetailedReport_fetched _ _ _ _ _ _ rfl, deepFlawAroundError_parsed]
    decide

/-- C16, amended: decoding a `flaw` or `customfield` element with well-nested
content, when the element and its content are nested at most
`maxUnmarshalDepth` = 10000 deep, leaves the decoder right behind the end tag of
the element, whatever the content holds.  So for every well-formed document
whose elements are nested at most `maxUnmarshalDepth` deep the parser returns one Flaw
for each `flaw` element and one CustomField for each `customfield` element that
is not inside a `flaw` or `customfield` element, and none for the others, and
the returned error is non-nil exactly when an `error` element stands outside
every `flaw` and `customfield` element. -/
theorem C16_nested_elements_not_dispatched
    (detailedReport : String → String → String → List Token × Option String)
    (categoryMap : String → Option String) (username password build_id : String)
    (F : Forest) (hfetch : detailedReport username password build_id = (F.tokens, none))
    (hdepth : F.depth ≤ maxUnmarshalDepth) :
    (∃ flaws customFields err,
      ParseDetailedReport detailedReport categoryMap username password build_id =
        some (Outcome.returned flaws customFields err) ∧
      flaws.length = (F.scannedNamed "flaw").length ∧
      customFields.length = (F.scannedNamed "customfield").length ∧
      (err = none ↔ F.scannedNamed "error" = [])) ∧
    (∀ (detRep : DetReport) (fuel : Nat) (a : List Attr) (c : Forest) (n : Name)
        (rest : List Token) (stk : List Name), c.tokens.length + rest.length + 1 < fuel →
      stk.length + 1 + c.depth ≤ maxUnmarshalDepth →
      (flawBlock categoryMap detRep fuel a
        ⟨c.tokens ++ Token.EndElement n :: rest, n :: stk⟩).map Prod.snd = some ⟨rest, stk⟩ ∧
      (customFieldBlock fuel a
        ⟨c.tokens ++ Token.EndElement n :: rest, n :: stk⟩).map Prod.snd = some ⟨rest, stk⟩) := by
  constructor
  · refine ⟨_, _, _,
      ParseDetailedReport_forest detailedReport categoryMap username password build_id F hfetch
      hdepth,
      by simp, by simp, ?_⟩
    by_cases h : F.scannedNamed "error" = []
    · simp [h]
    · simp [h]
  · intro detRep fuel a c n rest stk h hdep
    rw [flawBlock_forest categoryMap detRep fuel a c n rest stk h hdep,
      customFieldBlock_forest fuel a c n rest stk h hdep]
    exact ⟨rfl, rfl⟩

/-- C16, amended, on the document `nestedInside`: of its three `flaw`, three `customfield`
and two `error` elements, one `flaw` and one `customfield` element are not
inside another, and the parser returns one flaw, one custom field and a nil
error. -/
theorem C16_nested_elements_not_dispatched_witness :
    fetched nestedInside.tokens "u" "p" "b" = (nestedInside.tokens, none) ∧
    nestedInside.depth ≤ maxUnmarshalDepth ∧
    (nestedInside.elementsNamed "flaw").length = 3 ∧
    (nestedInside.elementsNamed "customfield").length = 3 ∧
    (nestedInside.elementsNamed "error").length = 2 ∧
    ParseDetailedReport (fetched nestedInside.tokens) exampleCategoryMap "u" "p" "b" =
      some (Outcome.returned [{ Issueid := "1" }] [{ Name := "x", Value := "y" }] none) ∧
    ((∃ flaws customFields err,
      ParseDetailedReport (fetched nestedInside.tokens) exampleCategoryMap "u" "p" "b" =
        some (Outcome.returned flaws customFields err) ∧
      flaws.length = (nestedInside.scannedNamed "flaw").length ∧
      customFields.length = (nestedInside.scannedNamed "customfield").length ∧
      (err = none ↔ nestedInside.scannedNamed "error" = [])) ∧
    (∀ (detRep : DetReport) (fuel : Nat) (a : List Attr) (c : Forest) (n : Name)
        (rest : List Token) (stk : List Name), c.tokens.length + rest.length + 1 < fuel →
      stk.length + 1 + c.depth ≤ maxUnmarshalDepth →
      (flawBlock exampleCategoryMap detRep fuel a
        ⟨c.tokens ++ Token.EndElement n :: rest, n :: stk⟩).map Prod.snd = some ⟨rest, stk⟩ ∧
      (customFieldBlock fuel a
        ⟨c.tokens ++ Token.EndElement n :: rest, n :: stk⟩).map Prod.snd =
          some ⟨rest, stk⟩)) :=
  ⟨rfl, by decide, by decide, by decide, by decide, by decide,
    C16_nested_elements_not_dispatched (fetched nestedInside.tokens) exampleCategoryMap
      "u" "p" "b" nestedInside rfl (by decide)⟩

/-- C17, as stated, fails: in the document `deepSameCategoryFlaws` two `flaw`
elements carry the attribute `categoryid="10"`.  The first has
`maxUnmarshalDepth` - 1 open ancestors and is decoded: its record has the
category name of the table.  The second has `maxUnmarshalDepth` open ancestors
and is refused: its `CategoryID` stays empty, and its record has the entry of
the table for the empty key, which is the empty string. -/
theorem C17_counterexample :
    deepSameCategoryFlaws.depth = maxUnmarshalDepth + 1 ∧
    (deepSameCategoryFlaws.scannedNamed "flaw").map
      (fun e => attrValue e.attrs "categoryid") = ["10", "10"] ∧
    ParseDetailedReport (fetched deepSameCategoryFlaws.tokens) exampleCategoryMap
        "u" "p" "b" =
      some (Outcome.returned
        [{ Issueid := "1", CategoryID := "10", CategoryName := "Cat10" }, {}] [] none) ∧
    ({ Issueid := "1", CategoryID := "10", CategoryName := "Cat10" } : Flaw).CategoryName ≠
      ({} : Flaw).CategoryName := by
  refine ⟨?_, ?_, ?_, by decide⟩
  · rw [deepSameCategoryFlaws, nest_depth sameCategoryFlaws (by decide)]
    rfl
  · rw [deepSameCategoryFlaws, nest_scanned sameCategoryFlaws "flaw" (by decide)]
    decide
  · rw [ParseDetailedReport_fetched _ _ _ _ _ _ rfl, deepSameCategoryFlaws_parsed]
    rfl

/-- C17, amended: for every well-formed document whose elements are nested at
most `maxUnmarshalDepth` = 10000 deep, the `CategoryName` of a returned Flaw
is the entry of the category table for the `categoryid` attribute of its
element (the empty string when there is none) and its `PolicyName` is the one
of the metadata scan, whatever the other attributes and the content of the
element are.  So the records of two decoded `flaw` elements with the same
`categoryid` attribute have the same `CategoryName` and the same `PolicyName`.
The i-th record belongs to the i-th decoded `flaw` element. -/
theorem C17_names_overwritten_after_decoding
    (detailedReport : String → String → String → List Token × Option String)
    (categoryMap : String → Option String) (username password build_id : String)
    (F : Forest) (hfetch : detailedReport username password build_id = (F.tokens, none))
    (hdepth : F.depth ≤ maxUnmarshalDepth) :
    ∃ detRep flaws customFields err,
      metadataScan (F.tokens.length + 1) {} (NewDecoder F.tokens) = some detRep ∧
      ParseDetailedReport detailedReport categoryMap username password build_id =
        some (Outcome.returned flaws customFields err) ∧
      flaws.length = (F.scannedNamed "flaw").length ∧
      (∀ (i : Nat) (e : Element) (f : Flaw),
        (F.scannedNamed "flaw")[i]? = some e → flaws[i]? = some f →
        f.CategoryName = (categoryMap (attrValue e.attrs "categoryid")).getD "" ∧
        f.PolicyName = detRep.PolicyName) ∧
      (∀ (i j : Nat) (e1 e2 : Element) (f1 f2 : Flaw),
        (F.scannedNamed "flaw")[i]? = some e1 → (F.scannedNamed "flaw")[j]? = some e2 →
        flaws[i]? = some f1 → flaws[j]? = some f2 →
        attrValue e1.attrs "categoryid" = attrValue e2.attrs "categoryid" →
        f1.CategoryName = f2.CategoryName ∧ f1.PolicyName = f2.PolicyName) := by
  have key : ∀ (i : Nat) (e : Element) (f : Flaw),
      (F.scannedNamed "flaw")[i]? = some e →
      ((F.scannedNamed "flaw").map
        (fun e => flawValue categoryMap (F.metadata {}) e.attrs e.children))[i]? = some f →
      f.CategoryName = (categoryMap (attrValue e.attrs "categoryid")).getD "" ∧
      f.PolicyName = (F.metadata {}).PolicyName := by
    intro i e f he hf
    rw [List.getElem?_map, he] at hf
    simp only [Option.map_some', Option.some.injEq] at hf
    rw [← hf]
    exact flawValue_names categoryMap (F.metadata {}) e.attrs e.children
  refine ⟨F.metadata {}, _, _, _, (parseDocument_forest categoryMap F hdepth).1,
    ParseDetailedReport_forest detailedReport categoryMap username password build_id F hfetch
      hdepth,
    by simp, key, ?_⟩
  intro i j e1 e2 f1 f2 he1 he2 hf1 hf2 hattr
  obtain ⟨a1, b1⟩ := key i e1 f1 he1 hf1
  obtain ⟨a2, b2⟩ := key j e2 f2 he2 hf2
  exact ⟨by rw [a1, a2, hattr], by rw [b1, b2]⟩

/-- C17, amended, on the document `overwrittenNames`: the first flaw has child elements
`<CategoryName>Evil</CategoryName>` and `<PolicyName>Other</PolicyName>` and an
attribute more than the second, and both records carry the category name
"Cat10" and the policy name "P1". -/
theorem C17_names_overwritten_after_decoding_witness :
    fetched overwrittenNames.tokens "u" "p" "b" = (overwrittenNames.tokens, none) ∧
    overwrittenNames.depth ≤ maxUnmarshalDepth ∧
    ParseDetailedReport (fetched overwrittenNames.tokens) exampleCategoryMap "u" "p" "b" =
      some (Outcome.returned
        [{ Issueid := "1", CategoryID := "10", Severity := "5", CategoryName := "Cat10",
           PolicyName := "P1" },
         { Issueid := "2", CategoryID := "10", CategoryName := "Cat10", PolicyName := "P1" }]
        [] none) ∧
    ∃ detRep flaws customFields err,
      metadataScan (overwrittenNames.tokens.length + 1) {}
        (NewDecoder overwrittenNames.tokens) = some detRep ∧
      ParseDetailedReport (fetched overwrittenNames.tokens) exampleCategoryMap "u" "p" "b" =
        some (Outcome.returned flaws customFields err) ∧
      flaws.length = (overwrittenNames.scannedNamed "flaw").length ∧
      (∀ (i : Nat) (e : Element) (f : Flaw),
        (overwrittenNames.scannedNamed "flaw")[i]? = some e → flaws[i]? = some f →
        f.CategoryName = (exampleCategoryMap (attrValue e.attrs "categoryid")).getD "" ∧
        f.PolicyName = detRep.PolicyName) ∧
      (∀ (i j : Nat) (e1 e2 : Element) (f1 f2 : Flaw),
        (overwrittenNames.scannedNamed "flaw")[i]? = some e1 →
        (overwrittenNames.scannedNamed "flaw")[j]? = some e2 →
        flaws[i]? = some f1 → flaws[j]? = some f2 →
        attrValue e1.attrs "categoryid" = attrValue e2.attrs "categoryid" →
        f1.CategoryName = f2.CategoryName ∧ f1.PolicyName = f2.PolicyName) :=
  ⟨rfl, by decide, by decide,
    C17_names_overwritten_after_decoding (fetched overwrittenNames.tokens) exampleCategoryMap
      "u" "p" "b" overwrittenNames rfl (by decide)⟩

/-- C18: for every document, well formed or not, the parser returns, and every
Flaw record it returns carries the `PolicyName` of the `DetReport` that the
metadata scan produced before the findings scan started; so all the records of
one call carry the same `PolicyName`. -/
theorem C18_one_policy_name_per_call
    (detailedReport : String → String → String → List Token × Option String)
    (categoryMap : String → Option String) (username password build_id : String)
    (doc : List Token) (hfetch : detailedReport username password build_id = (doc, none)) :
    ∃ detRep flaws customFields err,
      metadataScan (doc.length + 1) {} (NewDecoder doc) = some detRep ∧
      findingsScan categoryMap detRep (doc.length + 1) {} (NewDecoder doc) =
        some ⟨flaws, customFields, err⟩ ∧
      ParseDetailedReport detailedReport categoryMap username password build_id =
        some (Outcome.returned flaws customFields err) ∧
      (∀ f ∈ flaws, f.PolicyName = detRep.PolicyName) ∧
      (∀ f ∈ flaws, ∀ g ∈ flaws, f.PolicyName = g.PolicyName) := by
  obtain ⟨detRep, st, hm, hs, hp⟩ := parseDocument_isSome categoryMap doc
  obtain ⟨detRep1, hm1, hall⟩ := parseDocument_flaws categoryMap doc st hp
  have hd : detRep1 = detRep := by
    rw [hm] at hm1
    exact (Option.some.inj hm1).symm
  subst hd
  refine ⟨detRep1, st.flaws, st.customFields, st.errMsg, hm, hs, ?_,
    fun f hf => (hall f hf).2, fun f hf g hg => ?_⟩
  · rw [ParseDetailedReport_fetched _ _ _ _ _ _ hfetch, hp]
    rfl
  · rw [(hall f hf).2, (hall g hg).2]

/-- C18 on the malformed document `truncatedSecondFlaw`, whose first flaw has a
child element `<PolicyName>Other</PolicyName>` and whose second flaw is cut
off: both records carry the policy name "P1". -/
theorem C18_one_policy_name_per_call_witness :
    fetched truncatedSecondFlaw "u" "p" "b" = (truncatedSecondFlaw, none) ∧
    ParseDetailedReport (fetched truncatedSecondFlaw) exampleCategoryMap "u" "p" "b" =
      some (Outcome.returned
        [{ Issueid := "1", PolicyName := "P1" }, { Issueid := "2", PolicyName := "P1" }]
        [] none) ∧
    ∃ detRep flaws customFields err,
      metadataScan (truncatedSecondFlaw.length + 1) {} (NewDecoder truncatedSecondFlaw) =
        some detRep ∧
      findingsScan exampleCategoryMap detRep (truncatedSecondFlaw.length + 1) {}
        (NewDecoder truncatedSecondFlaw) = some ⟨flaws, customFields, err⟩ ∧
      ParseDetailedReport (fetched truncatedSecondFlaw) exampleCategoryMap "u" "p" "b" =
        some (Outcome.returned flaws customFields err) ∧
      (∀ f ∈ flaws, f.PolicyName = detRep.PolicyName) ∧
      (∀ f ∈ flaws, ∀ g ∈ flaws, f.PolicyName = g.PolicyName) :=
  ⟨rfl, by decide,
    C18_one_policy_name_per_call (fetched truncatedSecondFlaw) exampleCategoryMap
      "u" "p" "b" truncatedSecondFlaw rfl⟩

/-- C19: for every fetched document, malformed ones included, both scans
terminate and `ParseDetailedReport` returns: with any fuel above the number of
tokens the metadata scan and the findings scan give their results, the same
for every such fuel.  A call of `Token` that returns a token consumes exactly
one, the decoding of an element never gives tokens back, and both loops exit
at the first nil token. -/
theorem C19_both_scans_terminate
    (detailedReport : String → String → String → List Token × Option String)
    (categoryMap : String → Option String) (username password build_id : String)
    (doc : List Token) (hfetch : detailedReport username password build_id = (doc, none)) :
    (∃ detRep flaws customFields err,
      ParseDetailedReport detailedReport categoryMap username password build_id =
        some (Outcome.returned flaws customFields err) ∧
      ∀ fuel, doc.length < fuel →
        metadataScan fuel {} (NewDecoder doc) = some detRep ∧
        findingsScan categoryMap detRep fuel {} (NewDecoder doc) =
          some ⟨flaws, customFields, err⟩) ∧
    (∀ (d d1 : Decoder) (t : Token), d.Token = (some t, d1) →
      d1.input.length + 1 = d.input.length) ∧
    (∀ (d d1 : Decoder) (fuel : Nat) (detRep : DetReport) (st : Findings),
      d.Token = (none, d1) →
      metadataScan (fuel + 1) detRep d = some detRep ∧
      findingsScan categoryMap detRep (fuel + 1) st d = some st) ∧
    (∀ (detRep : DetReport) (fuel : Nat) (st : Findings) (n : Name) (a : List Attr)
        (d1 : Decoder), d1.input.length < fuel →
      ∃ st1 d2, startElementCase categoryMap detRep fuel st n a d1 = some (st1, d2) ∧
        d2.input.length ≤ d1.input.length) ∧
    (∀ (detRep : DetReport) (fuel : Nat) (a : List Attr) (d1 : Decoder),
      d1.input.length < fuel →
      ∃ detRep1 e d2, DecodeElement unmarshalDetReport fuel detRep a d1 = some (detRep1, e, d2) ∧
        d2.input.length ≤ d1.input.length) := by
  refine ⟨?_, ?_, ?_, ?_, ?_⟩
  · obtain ⟨detRep, st, hm, hs, hp⟩ := parseDocument_isSome categoryMap doc
    refine ⟨detRep, st.flaws, st.customFields, st.errMsg, ?_, ?_⟩
    · rw [ParseDetailedReport_fetched _ _ _ _ _ _ hfetch, hp]
      rfl
    · intro fuel hfuel
      have h0 : (NewDecoder doc).input.length < doc.length + 1 := Nat.lt_succ_self _
      have h1 : (NewDecoder doc).input.length < fuel := hfuel
      rw [metadataScan_fuel fuel (doc.length + 1) {} (NewDecoder doc) h1 h0,
        findingsScan_fuel categoryMap detRep fuel (doc.length + 1) {} (NewDecoder doc) h1 h0]
      exact ⟨hm, hs⟩
  · intro d d1 t h
    rcases Decoder.Token_cases d with ⟨x, hx, _⟩ | ⟨t1, x, hx, hin⟩
    · rw [hx] at h
      cases h
    · rw [hx] at h
      cases h
      rw [hin]
      rfl
  · intro d d1 fuel detRep st h
    exact ⟨metadataScan_none fuel detRep d d1 h, findingsScan_none categoryMap detRep fuel st d d1 h⟩
  · intro detRep fuel st n a d1 h
    obtain ⟨st1, d2, h1, h2⟩ := startElementCase_total categoryMap detRep fuel st n a d1 h
    exact ⟨st1, d2, h1, h2.length_le⟩
  · intro detRep fuel a d1 h
    obtain ⟨v, e, d2, h1, h2⟩ := unmarshalDetReport_wellBehaved.total fuel detRep a d1 h
    exact ⟨v, e, d2, h1, h2.length_le⟩

/-- C19 on the truncated document `truncatedFlaw`, whose input ends inside a
`flaw` element. -/
theorem C19_both_scans_terminate_witness :
    fetched truncatedFlaw "u" "p" "b" = (truncatedFlaw, none) ∧
    ParseDetailedReport (fetched truncatedFlaw) exampleCategoryMap "u" "p" "b" =
      some (Outcome.returned [{ Issueid := "1" }] [] none) ∧
    ((∃ detRep flaws customFields err,
      ParseDetailedReport (fetched truncatedFlaw) exampleCategoryMap "u" "p" "b" =
        some (Outcome.returned flaws customFields err) ∧
      ∀ fuel, truncatedFlaw.length < fuel →
        metadataScan fuel {} (NewDecoder truncatedFlaw) = some detRep ∧
        findingsScan exampleCategoryMap detRep fuel {} (NewDecoder truncatedFlaw) =
          some ⟨flaws, customFields, err⟩) ∧
    (∀ (d d1 : Decoder) (t : Token), d.Token = (some t, d1) →
      d1.input.length + 1 = d.input.length) ∧
    (∀ (d d1 : Decoder) (fuel : Nat) (detRep : DetReport) (st : Findings),
      d.Token = (none, d1) →
      metadataScan (fuel + 1) detRep d = some detRep ∧
      findingsScan exampleCategoryMap detRep (fuel + 1) st d = some st) ∧
    (∀ (detRep : DetReport) (fuel : Nat) (st : Findings) (n : Name) (a : List Attr)
        (d1 : Decoder), d1.input.length < fuel →
      ∃ st1 d2, startElementCase exampleCategoryMap detRep fuel st n a d1 = some (st1, d2) ∧
        d2.input.length ≤ d1.input.length) ∧
    (∀ (detRep : DetReport) (fuel : Nat) (a : List Attr) (d1 : Decoder),
      d1.input.length < fuel →
      ∃ detRep1 e d2, DecodeElement unmarshalDetReport fuel detRep a d1 = some (detRep1, e, d2) ∧
        d2.input.length ≤ d1.input.length)) :=
  ⟨rfl, by decide,
    C19_both_scans_terminate (fetched truncatedFlaw) exampleCategoryMap "u" "p" "b"
      truncatedFlaw rfl⟩

end Vcodeapi
